import Mathlib

/-! Frobenius.hpp: a shallow embedding and its verification

The header `src/Frobenius.hpp` holds three function templates: `GCD`
(Euclid's algorithm with the C++ remainder), `CommonGCD` (a greatest common
divisor over an iterator range, by midpoint splitting) and `FrobeniusNumber`
(the round-robin residue table of Boecker and Liptak).

Conventions of the embedding.

* `Type` is a signed integral type, and it is modelled twice.  The exact
  model (`GCD`, `CommonGCD`, `FrobeniusNumber` and the functions they are made
  of) takes the values of `Type` as `Int` and its arithmetic as exact; it
  serves the statements made over exact integers and those on inputs where no
  operation of the source can overflow or trap.  The machine model (`GCDW`,
  `CommonGCDW`, `FrobeniusNumberW` and the functions they are made of) takes
  `Type` as the integers `-T .. T - 1`, with `T = 2 ^ (w - 1)` for a `Type` of
  `w` bits: there `+`, `-` and `*` wrap, and `%` and `/` are undefined on the
  least value by `-1`.  It serves every other statement.  C++ `%` and `/`
  truncate towards zero: `Int.tmod`, `Int.tdiv`.
* An iterator into the vector is modelled by its position, an `Int`;
  `std::distance(first, last)` is `last - first`.
* A recursion or a `while` loop whose termination is not evident from its
  shape takes a `fuel : Nat` and answers `none` when the fuel is used up.  A
  read or write outside a vector (undefined behaviour) answers `none` too.
  The machine model tells the two apart: `Res.nofuel` and `Res.undef`.
* A counted `for` loop whose bound is not changed by its body is modelled by
  structural recursion on the number of iterations left.
* `finalStep` is lines 113-119 taken alone, `relaxH`, `classStepH`, `forRH`
  and `forIdxH` record the table after each write of line 107, and
  `leftFoldGCD` is the left-to-right fold the specification compares
  `CommonGCD` with.
-/

namespace Frobenius

/-! ## Vectors -/

/-- The read `v[i]`; `none` outside the vector. -/
def rd (v : List Int) (i : Int) : Option Int :=
  if 0 ≤ i then v[i.toNat]? else none

/-- The write `v[i] = x`; `none` outside the vector. -/
def wr (v : List Int) (i x : Int) : Option (List Int) :=
  if 0 ≤ i ∧ i.toNat < v.length then some (v.set i.toNat x) else none

/-- The call `std::sort(v.begin(), v.end())`: the ascending rearrangement of
the vector.  For integers the sorted rearrangement is unique, so that any
sorting function is a model of it. -/
def sort (v : List Int) : List Int :=
  v.insertionSort (fun a b => a ≤ b)

/-- The value of `std::numeric_limits<Type>::infinity()` for an integral
`Type`: the C++ standard library defines it as `Type()`, that is `0`, for
every specialisation without an infinity (`has_infinity == false`). -/
def infinity : Int := 0

/-! ## The exact model

The functions of the source over exact integers: no operation overflows and
every remainder by a non-zero value is defined.  The same functions in a
fixed-width `Type` follow under `The machine model`. -/

/-! ## `GCD`, lines 23-29 -/

/-- The function `GCD(first, second)` over exact integers: `first` when
`second == 0`, else `GCD(second, first % second)`.  In a fixed-width `Type`
the remainder of the least value by `-1` is undefined: `GCDW`. -/
def GCD : Nat → Int → Int → Option Int
  | 0, _, _ => none
  | fuel + 1, first, second =>
    if second = 0 then some first
    else GCD fuel second (Int.tmod first second)

/-! ## `CommonGCD`, lines 42-50 -/

/-- The function `CommonGCD(first, last)` over the vector `v`, the iterators
given by their positions. -/
def CommonGCD (v : List Int) : Nat → Int → Int → Option Int
  | 0, _, _ => none
  | fuel + 1, first, last =>
    let size := last - first
    if size = 1 then
      (rd v first).bind fun a =>
      (rd v last).bind fun b =>
      GCD (fuel + 1) a b
    else
      let h := Int.tdiv size 2
      (CommonGCD v fuel first (first + h)).bind fun a =>
      (CommonGCD v fuel (first + h) last).bind fun b =>
      GCD (fuel + 1) a b

/-! ## `FrobeniusNumber`, lines 63-122 -/

/-- The `while (q < InitNumbersList[0])` loop of lines 89-95: from `q`, in
steps of `d`, the running minimum `n` of the reached entries. -/
def scan (array : List Int) (m0 d : Int) : Nat → Int → Int → Option Int
  | 0, _, _ => none
  | fuel + 1, q, n =>
    if q < m0 then
      (rd array q).bind fun aq =>
      scan array m0 d fuel (q + d) (if aq ≠ -1 ∧ (aq < n ∨ n = -1) then aq else n)
    else some n

/-- The `for (jdx ...)` loop of lines 100-108 over exact integers, `k`
iterations left: the running value `n` walks in steps of the generator `g`
around the residues modulo `m0`.  In a fixed-width `Type` the addition
`n += InitNumbersList[idx]` of line 102 can overflow: `relaxW`. -/
def relax (m0 g : Int) : Nat → Int → List Int → Option (List Int)
  | 0, _, array => some array
  | k + 1, n, array =>
    let n1 := n + g
    let p := Int.tmod n1 m0
    (rd array p).bind fun ap =>
    let n2 := if ap ≠ -1 ∧ (ap < n1 ∨ n1 = -1) then ap else n1
    (wr array p n2).bind fun array1 =>
    relax m0 g k n2 array1

/-- The body of the `for (Type r ...)` loop, lines 84-109, for one `r`.  The
bound `InitNumbersList[0] / d` of the `jdx` loop is a non-negative value of
`Type` wherever the body runs (`0 <= r < d` and `InitNumbersList[0] > 1`), so
that its comparison with the unsigned `jdx` counts `(m0 / d).toNat`
iterations. -/
def classStep (fuel : Nat) (m0 g d : Int) (array : List Int) (r : Int) :
    Option (List Int) :=
  (if r = 0 then some 0 else scan array m0 d fuel r (-1)).bind fun n =>
  if n ≠ -1 then relax m0 g (Int.tdiv m0 d).toNat n array else some array

/-- The `for (Type r = 0; r < d; ++r)` loop of lines 82-110, `k` iterations
left, the next one for `r`. -/
def forR (fuel : Nat) (m0 g d : Int) : Nat → Int → List Int → Option (List Int)
  | 0, _, array => some array
  | k + 1, r, array =>
    (classStep fuel m0 g d array r).bind fun array1 =>
    forR fuel m0 g d k (r + 1) array1

/-- The `for (idx ...)` loop of lines 79-111 over the generators
`InitNumbersList[1]`, `InitNumbersList[2]`, ... still to be processed. -/
def forIdx (fuel : Nat) (m0 : Int) : List Int → List Int → Option (List Int)
  | [], array => some array
  | g :: gs, array =>
    (GCD fuel m0 g).bind fun d =>
    (forR fuel m0 g d d.toNat 0 array).bind fun array1 =>
    forIdx fuel m0 gs array1

/-- The `for (idx ...)` loop of lines 114-118, `k` iterations left, the next
one for `idx`. -/
def maxLoop (array : List Int) : Nat → Int → Int → Option Int
  | 0, _, max => some max
  | k + 1, idx, max =>
    (rd array idx).bind fun a =>
    maxLoop array k (idx + 1) (if a = -1 ∨ a > max then a else max)

/-- The function `FrobeniusNumber(InitNumbersList)` over exact integers: the
returned value and the vector as the call leaves it.  In a fixed-width `Type`
the closed form of line 73 and the subtraction of line 119 can overflow, and
the function inherits what `GCDW` and `relaxW` do: `FrobeniusNumberW`. -/
def FrobeniusNumber (fuel : Nat) (InitNumbersList : List Int) :
    Option (Int × List Int) :=
  (CommonGCD InitNumbersList fuel 0 ((InitNumbersList.length : Int) - 1)).bind fun c =>
  if c = 1 then
    let sorted := sort InitNumbersList
    (rd sorted 0).bind fun m0 =>
    if m0 ≤ 0 then some (infinity, sorted)
    else if m0 = 1 then some (-1, sorted)
    else if sorted.length = 2 then
      (rd sorted 1).bind fun b => some (m0 * b - m0 - b, sorted)
    else
      (wr (List.replicate m0.toNat (-1)) 0 0).bind fun array0 =>
      (forIdx fuel m0 sorted.tail array0).bind fun array =>
      (maxLoop array m0.toNat 0 0).bind fun max =>
      some (if max = -1 then max else max - m0, sorted)
  else some (infinity, InitNumbersList)

/-- The value `FrobeniusNumber` returns. -/
def FrobeniusValue (fuel : Nat) (InitNumbersList : List Int) : Option Int :=
  (FrobeniusNumber fuel InitNumbersList).map Prod.fst

/-- Lines 113-119 on their own, the last step of `FrobeniusNumber`: the
maximum scan over the table `array` and the value returned from it. -/
def finalStep (m0 : Int) (array : List Int) : Option Int :=
  (maxLoop array m0.toNat 0 0).bind fun max =>
  some (if max = -1 then max else max - m0)

/-! ## The history of the table

The functions below run the loops of lines 79-111 once more and record, in
the order of the writes, the table that each write `array[p] = n` of line 107
leaves.  The table itself is threaded by the functions above. -/

/-- The tables left by the writes of `relax`, `k` iterations left, over exact
integers as `relax` is; `relaxHW` records the writes of `relaxW`. -/
def relaxH (m0 g : Int) : Nat → Int → List Int → Option (List (List Int))
  | 0, _, _ => some []
  | k + 1, n, array =>
    let n1 := n + g
    let p := Int.tmod n1 m0
    (rd array p).bind fun ap =>
    let n2 := if ap ≠ -1 ∧ (ap < n1 ∨ n1 = -1) then ap else n1
    (wr array p n2).bind fun array1 =>
    (relaxH m0 g k n2 array1).bind fun h => some (array1 :: h)

/-- The tables left by the writes of `classStep`. -/
def classStepH (fuel : Nat) (m0 g d : Int) (array : List Int) (r : Int) :
    Option (List (List Int)) :=
  (if r = 0 then some 0 else scan array m0 d fuel r (-1)).bind fun n =>
  if n ≠ -1 then relaxH m0 g (Int.tdiv m0 d).toNat n array else some []

/-- The tables left by the writes of `forR`. -/
def forRH (fuel : Nat) (m0 g d : Int) : Nat → Int → List Int → Option (List (List Int))
  | 0, _, _ => some []
  | k + 1, r, array =>
    (classStepH fuel m0 g d array r).bind fun h1 =>
    (classStep fuel m0 g d array r).bind fun array1 =>
    (forRH fuel m0 g d k (r + 1) array1).bind fun h2 => some (h1 ++ h2)

/-- The tables left by the writes of `forIdx`. -/
def forIdxH (fuel : Nat) (m0 : Int) : List Int → List Int → Option (List (List Int))
  | [], _ => some []
  | g :: gs, array =>
    (GCD fuel m0 g).bind fun d =>
    (forRH fuel m0 g d d.toNat 0 array).bind fun h1 =>
    (forR fuel m0 g d d.toNat 0 array).bind fun array1 =>
    (forIdxH fuel m0 gs array1).bind fun h2 => some (h1 ++ h2)

/-! ## The machine model

The definitions above compute over exact integers.  The definitions below
compute in a signed `Type` of `w` bits, given by `T = 2 ^ (w - 1)`: its values
are the integers from `-T` to `T - 1`.  `Type` has at least the rank of `int`,
so that the arithmetic of the source is done in `Type` itself.

* `+`, `-` and `*` wrap modulo `2 * T`: `wrap`.  Signed overflow is undefined
  behaviour in C++; the wrap is what the compiled code does on two's
  complement hardware.  A statement that bounds its input so that no
  operation overflows (`Fits`, or a bound on a product) does not depend on
  this choice.
* `%` and `/` are undefined, and trap, on division by `0` and on the least
  value by `-1`: `remW`, `divW`.  (For a `Type` below the rank of `int` the
  operands are promoted to `int`, where the remainder of the least value of
  `Type` by `-1` is defined.)
* A run ends in a value, in undefined behaviour (a trap, an access outside a
  vector), or out of fuel: `Res`.

Positions and counters of type `std::size_t` or `std::ptrdiff_t` stay exact. -/

/-- The outcome of a run of the machine model. -/
inductive Res (α : Type) : Type where
  | val : α → Res α
  | undef : Res α
  | nofuel : Res α
  deriving DecidableEq

/-- Sequencing of outcomes. -/
def Res.bind {α β : Type} : Res α → (α → Res β) → Res β
  | Res.val a, f => f a
  | Res.undef, _ => Res.undef
  | Res.nofuel, _ => Res.nofuel

/-- An access to a vector as an outcome: outside the vector it is undefined. -/
def ofOpt {α : Type} : Option α → Res α
  | some a => Res.val a
  | none => Res.undef

/-- The value of `Type` that an arithmetic result `x` wraps to. -/
def wrap (T x : Int) : Int := (x + T) % (2 * T) - T

/-- The remainder `a % b` in `Type`. -/
def remW (T a b : Int) : Res Int :=
  if b = 0 ∨ (a = -T ∧ b = -1) then Res.undef else Res.val (Int.tmod a b)

/-- The quotient `a / b` in `Type`. -/
def divW (T a b : Int) : Res Int :=
  if b = 0 ∨ (a = -T ∧ b = -1) then Res.undef else Res.val (Int.tdiv a b)

/-- The function `GCD` (lines 23-29) in `Type`. -/
def GCDW (T : Int) : Nat → Int → Int → Res Int
  | 0, _, _ => Res.nofuel
  | fuel + 1, first, second =>
    if second = 0 then Res.val first
    else (remW T first second).bind fun r => GCDW T fuel second r

/-- The function `CommonGCD` (lines 42-50) over a vector of `Type`. -/
def CommonGCDW (T : Int) (v : List Int) : Nat → Int → Int → Res Int
  | 0, _, _ => Res.nofuel
  | fuel + 1, first, last =>
    let size := last - first
    if size = 1 then
      (ofOpt (rd v first)).bind fun a =>
      (ofOpt (rd v last)).bind fun b =>
      GCDW T (fuel + 1) a b
    else
      let h := Int.tdiv size 2
      (CommonGCDW T v fuel first (first + h)).bind fun a =>
      (CommonGCDW T v fuel (first + h) last).bind fun b =>
      GCDW T (fuel + 1) a b

/-- The left-to-right fold of the specification over `GCDW`. -/
def foldGCDW (T : Int) (fuel : Nat) : Int → List Int → Res Int
  | acc, [] => Res.val acc
  | acc, x :: xs => (GCDW T fuel acc x).bind fun a => foldGCDW T fuel a xs

/-- The left-to-right fold of the specification on `[x0, x1, ..., xk]`, in
`Type`: `GCD(... GCD(GCD(x0, x1), x2) ..., xk)`. -/
def leftFoldGCDW (T : Int) (fuel : Nat) : List Int → Res Int
  | [] => Res.undef
  | x0 :: xs => foldGCDW T fuel x0 xs

/-- The `while` loop of lines 89-95 in `Type`. -/
def scanW (T : Int) (array : List Int) (m0 d : Int) : Nat → Int → Int → Res Int
  | 0, _, _ => Res.nofuel
  | fuel + 1, q, n =>
    if q < m0 then
      (ofOpt (rd array q)).bind fun aq =>
      scanW T array m0 d fuel (wrap T (q + d))
        (if aq ≠ -1 ∧ (aq < n ∨ n = -1) then aq else n)
    else Res.val n

/-- The `jdx` loop of lines 100-108 in `Type`, `k` iterations left. -/
def relaxW (T m0 g : Int) : Nat → Int → List Int → Res (List Int)
  | 0, _, array => Res.val array
  | k + 1, n, array =>
    let n1 := wrap T (n + g)
    (remW T n1 m0).bind fun p =>
    (ofOpt (rd array p)).bind fun ap =>
    let n2 := if ap ≠ -1 ∧ (ap < n1 ∨ n1 = -1) then ap else n1
    (ofOpt (wr array p n2)).bind fun array1 =>
    relaxW T m0 g k n2 array1

/-- The body of the `r` loop, lines 84-109, in `Type`. -/
def classStepW (T : Int) (fuel : Nat) (m0 g d : Int) (array : List Int) (r : Int) :
    Res (List Int) :=
  (if r = 0 then Res.val 0 else scanW T array m0 d fuel r (-1)).bind fun n =>
  if n ≠ -1 then
    (divW T m0 d).bind fun c => relaxW T m0 g c.toNat n array
  else Res.val array

/-- The `r` loop of lines 82-110 in `Type`, `k` iterations left. -/
def forRW (T : Int) (fuel : Nat) (m0 g d : Int) : Nat → Int → List Int → Res (List Int)
  | 0, _, array => Res.val array
  | k + 1, r, array =>
    (classStepW T fuel m0 g d array r).bind fun array1 =>
    forRW T fuel m0 g d k (wrap T (r + 1)) array1

/-- The generator loop of lines 79-111 in `Type`. -/
def forIdxW (T : Int) (fuel : Nat) (m0 : Int) : List Int → List Int → Res (List Int)
  | [], array => Res.val array
  | g :: gs, array =>
    (GCDW T fuel m0 g).bind fun d =>
    (forRW T fuel m0 g d d.toNat 0 array).bind fun array1 =>
    forIdxW T fuel m0 gs array1

/-- Lines 113-119 in `Type`: the maximum scan, which has no arithmetic, and
the value returned from it. -/
def finalStepW (T m0 : Int) (array : List Int) : Res Int :=
  (ofOpt (maxLoop array m0.toNat 0 0)).bind fun max =>
  Res.val (if max = -1 then max else wrap T (max - m0))

/-- The function `FrobeniusNumber` in `Type`: the returned value and the
vector as the call leaves it. -/
def FrobeniusNumberW (T : Int) (fuel : Nat) (InitNumbersList : List Int) :
    Res (Int × List Int) :=
  (CommonGCDW T InitNumbersList fuel 0 ((InitNumbersList.length : Int) - 1)).bind fun c =>
  if c = 1 then
    let sorted := sort InitNumbersList
    (ofOpt (rd sorted 0)).bind fun m0 =>
    if m0 ≤ 0 then Res.val (infinity, sorted)
    else if m0 = 1 then Res.val (-1, sorted)
    else if sorted.length = 2 then
      (ofOpt (rd sorted 1)).bind fun b =>
      Res.val (wrap T (wrap T (wrap T (m0 * b) - m0) - b), sorted)
    else
      (ofOpt (wr (List.replicate m0.toNat (-1)) 0 0)).bind fun array0 =>
      (forIdxW T fuel m0 sorted.tail array0).bind fun array =>
      (finalStepW T m0 array).bind fun v =>
      Res.val (v, sorted)
  else Res.val (infinity, InitNumbersList)

/-- The value `FrobeniusNumber` returns, in `Type`. -/
def FrobeniusValueW (T : Int) (fuel : Nat) (InitNumbersList : List Int) : Res Int :=
  (FrobeniusNumberW T fuel InitNumbersList).bind fun r => Res.val r.1

/-- The tables left by the writes of `relaxW`. -/
def relaxHW (T m0 g : Int) : Nat → Int → List Int → Res (List (List Int))
  | 0, _, _ => Res.val []
  | k + 1, n, array =>
    let n1 := wrap T (n + g)
    (remW T n1 m0).bind fun p =>
    (ofOpt (rd array p)).bind fun ap =>
    let n2 := if ap ≠ -1 ∧ (ap < n1 ∨ n1 = -1) then ap else n1
    (ofOpt (wr array p n2)).bind fun array1 =>
    (relaxHW T m0 g k n2 array1).bind fun h => Res.val (array1 :: h)

/-- The tables left by the writes of `classStepW`. -/
def classStepHW (T : Int) (fuel : Nat) (m0 g d : Int) (array : List Int) (r : Int) :
    Res (List (List Int)) :=
  (if r = 0 then Res.val 0 else scanW T array m0 d fuel r (-1)).bind fun n =>
  if n ≠ -1 then
    (divW T m0 d).bind fun c => relaxHW T m0 g c.toNat n array
  else Res.val []

/-- The tables left by the writes of `forRW`. -/
def forRHW (T : Int) (fuel : Nat) (m0 g d : Int) :
    Nat → Int → List Int → Res (List (List Int))
  | 0, _, _ => Res.val []
  | k + 1, r, array =>
    (classStepHW T fuel m0 g d array r).bind fun h1 =>
    (classStepW T fuel m0 g d array r).bind fun array1 =>
    (forRHW T fuel m0 g d k (wrap T (r + 1)) array1).bind fun h2 => Res.val (h1 ++ h2)

/-- The tables left by the writes of `forIdxW`. -/
def forIdxHW (T : Int) (fuel : Nat) (m0 : Int) : List Int → List Int → Res (List (List Int))
  | [], _ => Res.val []
  | g :: gs, array =>
    (GCDW T fuel m0 g).bind fun d =>
    (forRHW T fuel m0 g d d.toNat 0 array).bind fun h1 =>
    (forRW T fuel m0 g d d.toNat 0 array).bind fun array1 =>
    (forIdxHW T fuel m0 gs array1).bind fun h2 => Res.val (h1 ++ h2)

/-! ## Specification vocabulary -/

/-- The greatest common divisor of all elements of a list, as a natural
number (`0` for the empty list and for a list of zeros). -/
def listGcd (l : List Int) : Nat :=
  l.foldr (fun x acc => Int.gcd x acc) 0

/-- `r` is a greatest common divisor, up to sign, of the elements of `v` at
the positions `first`, ..., `last` (both included). -/
def IsGcdOn (v : List Int) (first last r : Int) : Prop :=
  (∀ i x, first ≤ i → i ≤ last → rd v i = some x → r ∣ x) ∧
  (∀ c : Int, (∀ i x, first ≤ i → i ≤ last → rd v i = some x → c ∣ x) → c ∣ r)

/-- `n` is a non-negative integer combination of the elements of the list:
`n = k₁ * x₁ + ... + kₗ * xₗ` with natural numbers `k₁`, ..., `kₗ`. -/
def Representable : List Int → Int → Prop
  | [], n => n = 0
  | x :: xs, n => ∃ k : Nat, Representable xs (n - k * x)

/-- The entry `array[i]` as a total function, `-1` outside the vector. -/
def ent (A : List Int) (i : Int) : Int := A.getD i.toNat (-1)

/-- Every reached entry of the table is a non-negative combination of the
generators `G` in the residue class of its index modulo `m`. -/
def Sound (m : Int) (G A : List Int) : Prop :=
  ∀ q, 0 ≤ q → q < m → ent A q ≠ -1 →
    0 ≤ ent A q ∧ ent A q % m = q ∧ Representable G (ent A q)

/-- Every combination of the generators `G` is bounded below by the entry of
its residue class, which is reached. -/
def Complete (m : Int) (G A : List Int) : Prop :=
  ∀ n, Representable G n → ent A (n % m) ≠ -1 ∧ ent A (n % m) ≤ n

/-- The table is closed under a step by `g`. -/
def Closed (m g : Int) (A : List Int) : Prop :=
  ∀ q, 0 ≤ q → q < m → ent A q ≠ -1 →
    ent A ((q + g) % m) ≠ -1 ∧ ent A ((q + g) % m) ≤ ent A q + g

/-- No reached entry of `A0` is lost or increased in `A`. -/
def Improves (m : Int) (A0 A : List Int) : Prop :=
  ∀ q, 0 ≤ q → q < m → ent A0 q ≠ -1 → ent A q ≠ -1 ∧ ent A q ≤ ent A0 q

/-- The residue visited by the walk of `relax` after `i` steps from `n0`. -/
def cyc (m g n0 : Int) (i : Nat) : Int := (n0 + i * g) % m

/-- The state of the walk of `relax` after `j` steps: the running value `n`
and the table `A`, against the table `A0` and the value `n0` the walk started
from. -/
structure RelaxInv (m g n0 : Int) (G A0 : List Int) (j : Nat) (n : Int) (A : List Int) :
    Prop where
  len : (A.length : Int) = m
  lo : n0 ≤ n
  res : n % m = cyc m g n0 j
  cur : ent A (cyc m g n0 j) = n
  edge : ∀ i : Nat, i < j → ent A (cyc m g n0 (i + 1)) ≠ -1 ∧
    ent A (cyc m g n0 (i + 1)) ≤ ent A (cyc m g n0 i) + g
  frame : ∀ q, 0 ≤ q → q < m → (∀ i : Nat, 1 ≤ i → i ≤ j → q ≠ cyc m g n0 i) →
    ent A q = ent A0 q
  mono : Improves m A0 A
  lb : ∀ i : Nat, ent A (cyc m g n0 i) ≠ -1 → n0 ≤ ent A (cyc m g n0 i)
  sound : Sound m G A

/-- The arithmetic of a walk in steps of `g` modulo `m`: the step count `c`,
the divisor `d` and the quotient `g1` of the generator. -/
structure WalkData (m g d : Int) (c : Nat) : Prop where
  dpos : 0 < d
  cd : (c : Int) * d = m
  gd : ∃ g1 : Int, g = d * g1 ∧ Int.gcd c g1 = 1
  bez : ∃ a b : Int, d = m * a + g * b

/-- The state of the `while` loop of `scan` at position `q`: `n` is the least
reached entry among the positions of the class of `r` modulo `d` below `q`,
or `-1` when none of them is reached. -/
def ScanInv (m d r : Int) (A : List Int) (q n : Int) : Prop :=
  (n = -1 ∧ ∀ q1, 0 ≤ q1 → q1 < q → q1 < m → q1 % d = r → ent A q1 = -1) ∨
  (n ≠ -1 ∧ (∃ q1, 0 ≤ q1 ∧ q1 < q ∧ q1 < m ∧ q1 % d = r ∧ ent A q1 = n) ∧
    ∀ q1, 0 ≤ q1 → q1 < q → q1 < m → q1 % d = r → ent A q1 ≠ -1 → n ≤ ent A q1)

/-- The invariant of the residue table between two generators: after the
generators `G` the table `A`, of length `m`, holds in each entry the least
combination of `G` in the residue class of the index, or `-1` when the class
has none. -/
structure TableInv (m : Int) (G A : List Int) : Prop where
  len : (A.length : Int) = m
  sound : Sound m G A
  complete : Complete m G A
  zero : ent A 0 = 0

/-- The left-to-right fold of the specification over `GCD`, from the
accumulator `acc`: `GCD(... GCD(GCD(acc, x1), x2) ..., xk)`. -/
def foldGCD (fuel : Nat) : Int → List Int → Option Int
  | acc, [] => some acc
  | acc, x :: xs => (GCD fuel acc x).bind fun a => foldGCD fuel a xs

/-- The left-to-right fold of the specification on the list
`[x0, x1, ..., xk]`: `GCD(... GCD(GCD(x0, x1), x2) ..., xk)`. -/
def leftFoldGCD (fuel : Nat) : List Int → Option Int
  | [] => none
  | x0 :: xs => foldGCD fuel x0 xs

/-- What a write may do to the table: `A1` has the length of `A` and
`array[0] = 0`, and an entry reached in `A` is reached in `A1`, with a value
that is not greater. -/
def WriteOk (A A1 : List Int) : Prop :=
  A1.length = A.length ∧ ent A1 0 = 0 ∧
    ∀ q, 0 ≤ q → ent A q ≠ -1 → ent A1 q ≠ -1 ∧ ent A1 q ≤ ent A q

/-- The tables `H` lead from `A` to `B`, each step in the relation `R`. -/
def Steps (R : List Int → List Int → Prop) : List Int → List (List Int) → List Int → Prop
  | A, [], B => A = B
  | A, X :: H, B => R A X ∧ Steps R X H B

/-- The simple shape of a residue table: length `m`, `array[0] = 0`, and no
entry below the unreached marker `-1`. -/
def Tab (m : Int) (A : List Int) : Prop :=
  (A.length : Int) = m ∧ ent A 0 = 0 ∧ ∀ q, 0 ≤ q → -1 ≤ ent A q

/-- `x` is a value of `Type`. -/
def InRange (T x : Int) : Prop := -T ≤ x ∧ x < T

/-- The operands of `GCD` on which no remainder of the recursion traps: both
are values of `Type`, and the pair is neither (least value, `-1`) nor
(`-1`, least value). -/
def SafePair (T a b : Int) : Prop :=
  InRange T a ∧ InRange T b ∧ ¬ (a = -T ∧ b = -1) ∧ ¬ (a = -1 ∧ b = -T)

/-- The elements of the list are values of `Type` other than the least. -/
def NoMin (T : Int) (L : List Int) : Prop := ∀ x ∈ L, -T < x ∧ x < T

/-- A bound that keeps the arithmetic of the residue table and of the closed
form inside `Type`: an element of the list, that is (for positive elements)
its least element, times the sum of the elements is at most the greatest
value `T - 1` of `Type`. -/
def Fits (T : Int) (L : List Int) : Prop := ∃ x ∈ L, x * L.sum < T

/-- What every write of the machine model keeps of a table of length `m`,
whether the arithmetic wraps or not: the entries are values of `Type`,
`array[0]` is at most `0` and is not the marker `-1`, and a reached entry at
an index `q > 0` has the remainder `q` modulo `m`. -/
def InvW (T m : Int) (A : List Int) : Prop :=
  (A.length : Int) = m ∧ ent A 0 ≤ 0 ∧ ent A 0 ≠ -1 ∧
    (∀ q, 0 ≤ q → InRange T (ent A q)) ∧
    ∀ q, 0 < q → q < m → ent A q ≠ -1 → Int.tmod (ent A q) m = q

/-! ## Facts on `GCD` -/

theorem neg_tmod (a b : Int) : Int.tmod (-a) b = -Int.tmod a b := by
  rw [Int.tmod_def, Int.tmod_def, Int.neg_tdiv]; ring

theorem natAbs_tmod (a b : Int) : (Int.tmod a b).natAbs = a.natAbs % b.natAbs := by
  obtain ⟨m, rfl | rfl⟩ := Int.eq_nat_or_neg a <;>
  obtain ⟨k, rfl | rfl⟩ := Int.eq_nat_or_neg b <;>
  simp only [neg_tmod, Int.tmod_neg, Int.natAbs_neg, ← Int.ofNat_tmod, Int.natAbs_ofNat]

/-- With more fuel than the absolute value of the second operand, `GCD`
answers, and its answer is the greatest common divisor up to sign. -/
theorem GCD_spec : ∀ (n : Nat) (a b : Int), b.natAbs < n →
    ∃ r, GCD n a b = some r ∧ r.natAbs = Int.gcd a b ∧ (0 ≤ a → 0 ≤ b → 0 ≤ r) := by
  intro n
  induction n with
  | zero => intro a b h; omega
  | succ n ih =>
    intro a b h
    unfold GCD
    by_cases hb : b = 0
    · subst hb
      exact ⟨a, by simp, by simp, fun h _ => h⟩
    · simp only [hb, if_false]
      have hlt : (Int.tmod a b).natAbs < b.natAbs := by
        rw [natAbs_tmod]; exact Nat.mod_lt _ (by omega)
      obtain ⟨r, h1, h2, h3⟩ := ih b (Int.tmod a b) (by omega)
      refine ⟨r, h1, ?_, fun ha hb0 => h3 hb0 (Int.tmod_nonneg _ ha)⟩
      rw [h2, Int.gcd_def, Int.gcd_def, natAbs_tmod, Nat.gcd_comm a.natAbs b.natAbs,
        Nat.gcd_rec b.natAbs a.natAbs, Nat.gcd_comm]

/-- The answer of `GCD` does not depend on the fuel. -/
theorem GCD_fuel : ∀ (n k : Nat) (a b r : Int), GCD n a b = some r → GCD (n + k) a b = some r := by
  intro n
  induction n with
  | zero => intro k a b r h; simp [GCD] at h
  | succ n ih =>
    intro k a b r h
    rw [Nat.add_right_comm]
    unfold GCD at h ⊢
    by_cases hb : b = 0
    · simpa [hb] using h
    · simp only [hb, if_false] at h ⊢
      exact ih k _ _ _ h

/-- On non-negative operands `GCD` is the mathematical greatest common
divisor. -/
theorem GCD_nonneg (n : Nat) (a b : Int) (ha : 0 ≤ a) (hb : 0 ≤ b) (h : b.natAbs < n) :
    GCD n a b = some (Int.gcd a b : Int) := by
  obtain ⟨r, h1, h2, h3⟩ := GCD_spec n a b h
  rw [h1, ← h2, Int.natAbs_of_nonneg (h3 ha hb)]

theorem gcd_le_of_le (a b : Int) (B : Nat) (ha : a.natAbs ≤ B) (hb : b.natAbs ≤ B) :
    Int.gcd a b ≤ B := by
  by_cases h0 : a = 0
  · subst h0; simpa using hb
  · exact le_trans (Nat.le_of_dvd (Int.natAbs_pos.mpr h0) (Nat.gcd_dvd_left a.natAbs b.natAbs)) ha

/-! ## Facts on `CommonGCD` -/

theorem rd_eq_some {v : List Int} {i x : Int} (h : rd v i = some x) :
    0 ≤ i ∧ i.toNat < v.length ∧ x ∈ v := by
  unfold rd at h
  by_cases hi : 0 ≤ i
  · rw [if_pos hi] at h
    obtain ⟨hlt, hx⟩ := List.getElem?_eq_some.mp h
    exact ⟨hi, hlt, hx ▸ List.getElem_mem hlt⟩
  · rw [if_neg hi] at h; cases h

theorem rd_of_lt {v : List Int} {i : Int} (h0 : 0 ≤ i) (h1 : i < v.length) :
    ∃ x, rd v i = some x ∧ x ∈ v := by
  have hlt : i.toNat < v.length := by omega
  exact ⟨v[i.toNat], by rw [rd, if_pos h0, List.getElem?_eq_getElem hlt], List.getElem_mem hlt⟩

/-- With enough fuel `CommonGCD` answers on every range of at least two
positions inside the vector, and its answer is a greatest common divisor of
the elements at the positions of the range. -/
theorem CommonGCD_spec (v : List Int) (B : Nat) (hB : ∀ x ∈ v, x.natAbs ≤ B) :
    ∀ (n : Nat) (first last : Int), 0 ≤ first → last < v.length → 1 ≤ last - first →
      (last - first).toNat + B < n →
      ∃ r, CommonGCD v n first last = some r ∧ IsGcdOn v first last r ∧ r.natAbs ≤ B ∧
        ((∀ x ∈ v, 0 ≤ x) → 0 ≤ r) := by
  intro n
  induction n with
  | zero => intro first last _ _ _ h; omega
  | succ n ih =>
    intro first last h0 h1 hs hn
    unfold CommonGCD
    simp only []
    by_cases hsz : last - first = 1
    · rw [if_pos hsz]
      obtain ⟨a, ha, ham⟩ := rd_of_lt h0 (show first < v.length by omega)
      obtain ⟨b, hb, hbm⟩ := rd_of_lt (show 0 ≤ last by omega) h1
      obtain ⟨r, hr, hr2, hr3⟩ := GCD_spec (n + 1) a b (by have := hB b hbm; omega)
      refine ⟨r, by simp [ha, hb, hr], ⟨?_, ?_⟩, ?_, fun hv => hr3 (hv a ham) (hv b hbm)⟩
      · intro i x hi1 hi2 hx
        have hra : r ∣ a := Int.natAbs_dvd.mp (hr2 ▸ Int.gcd_dvd_left)
        have hrb : r ∣ b := Int.natAbs_dvd.mp (hr2 ▸ Int.gcd_dvd_right)
        rcases (show i = first ∨ i = last by omega) with rfl | rfl
        · rw [ha] at hx; cases hx; exact hra
        · rw [hb] at hx; cases hx; exact hrb
      · intro c hc
        have := Int.dvd_gcd (hc first a le_rfl (by omega) ha) (hc last b (by omega) le_rfl hb)
        rw [← hr2] at this
        exact Int.dvd_natAbs.mp this
      · rw [hr2]; exact gcd_le_of_le a b B (hB a ham) (hB b hbm)
    · rw [if_neg hsz]
      have hh : Int.tdiv (last - first) 2 = (last - first) / 2 :=
        Int.tdiv_eq_ediv (by omega) (by omega)
      rw [hh]
      obtain ⟨a, ha, hag, haB, hapos⟩ := ih first (first + (last - first) / 2) h0
        (by omega) (by omega) (by omega)
      obtain ⟨b, hb, hbg, hbB, hbpos⟩ := ih (first + (last - first) / 2) last (by omega) h1
        (by omega) (by omega)
      obtain ⟨r, hr, hr2, hr3⟩ := GCD_spec (n + 1) a b (by omega)
      have hra : r ∣ a := Int.natAbs_dvd.mp (hr2 ▸ Int.gcd_dvd_left)
      have hrb : r ∣ b := Int.natAbs_dvd.mp (hr2 ▸ Int.gcd_dvd_right)
      refine ⟨r, by simp [ha, hb, hr], ⟨?_, ?_⟩, ?_, fun hv => hr3 (hapos hv) (hbpos hv)⟩
      · intro i x hi1 hi2 hx
        by_cases hi : i ≤ first + (last - first) / 2
        · exact dvd_trans hra (hag.1 i x hi1 hi hx)
        · exact dvd_trans hrb (hbg.1 i x (by omega) hi2 hx)
      · intro c hc
        have h1 : c ∣ a := hag.2 c fun i x hi1 hi2 hx => hc i x hi1 (by omega) hx
        have h2 : c ∣ b := hbg.2 c fun i x hi1 hi2 hx => hc i x (by omega) hi2 hx
        have := Int.dvd_gcd h1 h2
        rw [← hr2] at this
        exact Int.dvd_natAbs.mp this
      · rw [hr2]; exact gcd_le_of_le a b B haB hbB

theorem listGcd_dvd : ∀ (l : List Int) (x : Int), x ∈ l → (listGcd l : Int) ∣ x := by
  intro l
  induction l with
  | nil => intro x h; cases h
  | cons a l ih =>
    intro x hx
    rcases List.mem_cons.mp hx with rfl | h
    · exact Int.gcd_dvd_left
    · exact dvd_trans Int.gcd_dvd_right (ih x h)

theorem dvd_listGcd : ∀ (l : List Int) (c : Int), (∀ x ∈ l, c ∣ x) → c ∣ (listGcd l : Int) := by
  intro l
  induction l with
  | nil => intro c _; exact dvd_zero c
  | cons a l ih =>
    intro c hc
    exact Int.dvd_gcd (hc a (List.mem_cons_self _ _))
      (ih c fun x hx => hc x (List.mem_cons_of_mem _ hx))

/-- A greatest common divisor over all positions has the absolute value
`listGcd`. -/
theorem IsGcdOn.natAbs_eq {v : List Int} {r : Int}
    (h : IsGcdOn v 0 ((v.length : Int) - 1) r) : r.natAbs = listGcd v := by
  apply Nat.dvd_antisymm
  · have : r ∣ (listGcd v : Int) := by
      apply dvd_listGcd
      intro x hx
      obtain ⟨i, hi, rfl⟩ := List.getElem_of_mem hx
      apply h.1 (i : Int) _ (by omega) (by omega)
      rw [rd, if_pos (by omega)]
      simp [hi]
    exact Int.natAbs_dvd_natAbs.mpr this
  · have : (listGcd v : Int) ∣ r := by
      apply h.2
      intro i x _ _ hx
      exact listGcd_dvd v x (rd_eq_some hx).2.2
    simpa using Int.natAbs_dvd_natAbs.mpr this

theorem natAbs_le_sum : ∀ (v : List Int) (x : Int), x ∈ v → x.natAbs ≤ (v.map Int.natAbs).sum := by
  intro v
  induction v with
  | nil => intro x h; cases h
  | cons a l ih =>
    intro x hx
    rw [List.map_cons, List.sum_cons]
    rcases List.mem_cons.mp hx with rfl | h
    · omega
    · have := ih x h; omega

/-- The call of the solver, `CommonGCD(begin, end - 1)`: on a vector of at
least two elements it answers, with a greatest common divisor of all the
elements. -/
theorem CommonGCD_all (v : List Int) (hlen : 2 ≤ v.length) (n : Nat)
    (hn : v.length + (v.map Int.natAbs).sum ≤ n) :
    ∃ r, CommonGCD v n 0 ((v.length : Int) - 1) = some r ∧ r.natAbs = listGcd v ∧
      ((∀ x ∈ v, 0 ≤ x) → r = listGcd v) := by
  obtain ⟨r, h1, h2, _, h4⟩ := CommonGCD_spec v _ (natAbs_le_sum v) n 0 ((v.length : Int) - 1)
    le_rfl (by omega) (by omega) (by omega)
  refine ⟨r, h1, h2.natAbs_eq, fun hv => ?_⟩
  rw [← h2.natAbs_eq, Int.natAbs_of_nonneg (h4 hv)]

/-! ## Reads and writes -/

theorem rd_ent {A : List Int} {i : Int} (h0 : 0 ≤ i) (h1 : i < A.length) :
    rd A i = some (ent A i) := by
  have hlt : i.toNat < A.length := by omega
  rw [rd, if_pos h0, ent, List.getD_eq_getElem?_getD, List.getElem?_eq_getElem hlt]
  rfl

theorem wr_spec {A : List Int} {i : Int} (x : Int) (h0 : 0 ≤ i) (h1 : i < A.length) :
    ∃ A1, wr A i x = some A1 ∧ A1.length = A.length ∧
      ∀ q, 0 ≤ q → ent A1 q = if q = i then x else ent A q := by
  have hlt : i.toNat < A.length := by omega
  refine ⟨A.set i.toNat x, by rw [wr, if_pos ⟨h0, hlt⟩], by simp, ?_⟩
  intro q hq
  unfold ent
  by_cases hqi : q = i
  · subst hqi
    simp [List.getD_eq_getElem?_getD, hlt]
  · have : i.toNat ≠ q.toNat := by omega
    simp [List.getD_eq_getElem?_getD, List.getElem?_set_ne this, hqi]

theorem cyc_range {m : Int} (hm : 0 < m) (g n0 : Int) (i : Nat) :
    0 ≤ cyc m g n0 i ∧ cyc m g n0 i < m :=
  ⟨Int.emod_nonneg _ (by omega), Int.emod_lt_of_pos _ hm⟩

theorem cyc_succ (m g n0 : Int) (i : Nat) :
    (cyc m g n0 i + g) % m = cyc m g n0 (i + 1) := by
  unfold cyc
  rw [Int.emod_add_emod]
  congr 1
  push_cast
  ring

/-! ## The walk of `relax` -/

/-- One iteration of the `jdx` loop keeps the invariant of the walk. -/
theorem relax_step {m g n0 : Int} {G A0 A : List Int} {c j : Nat} {n : Int}
    (hm : 0 < m) (hg : 0 < g) (hn0 : 0 ≤ n0)
    (hrep : ∀ x, Representable G x → Representable G (x + g))
    (hinj : ∀ i j : Nat, i < j → j < c → cyc m g n0 i ≠ cyc m g n0 j)
    (hcyc : cyc m g n0 c = cyc m g n0 0)
    (hstart : ent A0 (cyc m g n0 0) = n0)
    (hI : RelaxInv m g n0 G A0 j n A) (hj : j < c) :
    ∃ n2 A1, (∀ k, relax m g (k + 1) n A = relax m g k n2 A1) ∧
      RelaxInv m g n0 G A0 (j + 1) n2 A1 := by
  have hlo : n0 ≤ n := hI.lo
  have hn : 0 ≤ n := le_trans hn0 hlo
  have hn1 : 0 ≤ n + g := by omega
  have hp : Int.tmod (n + g) m = cyc m g n0 (j + 1) := by
    rw [Int.tmod_eq_emod hn1 hm.le, ← cyc_succ, ← hI.res, Int.emod_add_emod]
  obtain ⟨hp0, hpm⟩ := cyc_range hm g n0 (j + 1)
  have hrd : rd A (cyc m g n0 (j + 1)) = some (ent A (cyc m g n0 (j + 1))) :=
    rd_ent hp0 (by rw [hI.len]; exact hpm)
  have hcurne : ent A (cyc m g n0 j) ≠ -1 := by rw [hI.cur]; omega
  obtain ⟨hj0, hjm⟩ := cyc_range hm g n0 j
  have hsj := hI.sound _ hj0 hjm hcurne
  rw [hI.cur] at hsj
  by_cases hcond : ent A (cyc m g n0 (j + 1)) ≠ -1 ∧
      (ent A (cyc m g n0 (j + 1)) < n + g ∨ n + g = -1)
  · -- the entry is kept
    obtain ⟨A1, hwr, hlen1, hent1⟩ := wr_spec (A := A) (ent A (cyc m g n0 (j + 1))) hp0
      (by rw [hI.len]; exact hpm)
    have hsame : ∀ q, 0 ≤ q → ent A1 q = ent A q := by
      intro q hq
      rw [hent1 q hq]
      split_ifs with h
      · rw [h]
      · rfl
    have hs := hI.sound _ hp0 hpm hcond.1
    refine ⟨ent A (cyc m g n0 (j + 1)), A1, ?_, ?_⟩
    · intro k
      simp only [relax, hp, hrd, Option.some_bind, if_pos hcond, hwr]
    · refine ⟨by rw [← hI.len, hlen1], hI.lb _ hcond.1, hs.2.1, hsame _ hp0, ?_, ?_, ?_, ?_, ?_⟩
      · intro i hi
        rw [hsame _ (cyc_range hm g n0 (i + 1)).1, hsame _ (cyc_range hm g n0 i).1]
        rcases Nat.lt_succ_iff_lt_or_eq.mp hi with h | h
        · exact hI.edge i h
        · subst h
          refine ⟨hcond.1, ?_⟩
          rw [hI.cur]
          omega
      · intro q hq0 hqm hq
        rw [hsame q hq0]
        exact hI.frame q hq0 hqm fun i hi1 hi2 => hq i hi1 (by omega)
      · intro q hq0 hqm hq
        rw [hsame q hq0]
        exact hI.mono q hq0 hqm hq
      · intro i
        rw [hsame _ (cyc_range hm g n0 i).1]
        exact hI.lb i
      · intro q hq0 hqm
        rw [hsame q hq0]
        exact hI.sound q hq0 hqm
  · -- the entry is overwritten by `n + g`
    obtain ⟨A1, hwr, hlen1, hent1⟩ := wr_spec (A := A) (n + g) hp0
      (by rw [hI.len]; exact hpm)
    have hold : ent A (cyc m g n0 (j + 1)) = -1 ∨ n + g ≤ ent A (cyc m g n0 (j + 1)) := by
      by_contra hc
      push_neg at hc
      exact hcond ⟨hc.1, Or.inl hc.2⟩
    -- this is not the step that closes the walk
    have hjc : j + 1 < c := by
      by_contra hc
      have hjc : j + 1 = c := by omega
      have h0 : ent A (cyc m g n0 0) = n0 := by
        rw [hI.frame _ (cyc_range hm g n0 0).1 (cyc_range hm g n0 0).2, hstart]
        intro i hi1 hi2
        exact hinj 0 i (by omega) (by omega)
      rw [hjc, hcyc, h0] at hold
      omega
    have hne : ∀ i : Nat, i ≤ j → cyc m g n0 i ≠ cyc m g n0 (j + 1) :=
      fun i hi => hinj i (j + 1) (by omega) hjc
    refine ⟨n + g, A1, ?_, ?_⟩
    · intro k
      simp only [relax, hp, hrd, Option.some_bind, if_neg hcond, hwr]
    · refine ⟨by rw [← hI.len, hlen1], by omega, ?_, ?_, ?_, ?_, ?_, ?_, ?_⟩
      · rw [← cyc_succ, ← hI.res, Int.emod_add_emod]
      · rw [hent1 _ hp0, if_pos rfl]
      · intro i hi
        rcases Nat.lt_succ_iff_lt_or_eq.mp hi with h | h
        · rw [hent1 _ (cyc_range hm g n0 (i + 1)).1, if_neg (hne (i + 1) (by omega)),
            hent1 _ (cyc_range hm g n0 i).1, if_neg (hne i (by omega))]
          exact hI.edge i h
        · subst h
          rw [hent1 _ hp0, if_pos rfl, hent1 _ hj0, if_neg (hne i le_rfl), hI.cur]
          exact ⟨by omega, le_rfl⟩
      · intro q hq0 hqm hq
        rw [hent1 q hq0, if_neg (hq (j + 1) (by omega) le_rfl)]
        exact hI.frame q hq0 hqm fun i hi1 hi2 => hq i hi1 (by omega)
      · intro q hq0 hqm hq
        have := hI.mono q hq0 hqm hq
        rw [hent1 q hq0]
        split_ifs with h
        · subst h
          exact ⟨by omega, by omega⟩
        · exact this
      · intro i
        rw [hent1 _ (cyc_range hm g n0 i).1]
        split_ifs with h
        · intro _; omega
        · exact hI.lb i
      · intro q hq0 hqm
        rw [hent1 q hq0]
        split_ifs with h
        · subst h
          intro _
          exact ⟨hn1, by rw [← cyc_succ, ← hI.res, Int.emod_add_emod], hrep _ hsj.2.2⟩
        · exact hI.sound q hq0 hqm

/-- The whole `jdx` loop: from the invariant after `j` steps to the invariant
after `j + k` steps. -/
theorem relax_loop {m g n0 : Int} {G A0 : List Int} {c : Nat}
    (hm : 0 < m) (hg : 0 < g) (hn0 : 0 ≤ n0)
    (hrep : ∀ x, Representable G x → Representable G (x + g))
    (hinj : ∀ i j : Nat, i < j → j < c → cyc m g n0 i ≠ cyc m g n0 j)
    (hcyc : cyc m g n0 c = cyc m g n0 0)
    (hstart : ent A0 (cyc m g n0 0) = n0) :
    ∀ (k j : Nat) (n : Int) (A : List Int), j + k = c → RelaxInv m g n0 G A0 j n A →
      ∃ n2 A1, relax m g k n A = some A1 ∧ RelaxInv m g n0 G A0 c n2 A1 := by
  intro k
  induction k with
  | zero =>
    intro j n A hjk hI
    have : j = c := by omega
    subst this
    exact ⟨n, A, rfl, hI⟩
  | succ k ih =>
    intro j n A hjk hI
    obtain ⟨n2, A1, hstep, hI1⟩ := relax_step hm hg hn0 hrep hinj hcyc hstart hI (by omega)
    obtain ⟨n3, A2, hrun, hI2⟩ := ih (j + 1) n2 A1 (by omega) hI1
    exact ⟨n3, A2, by rw [hstep k, hrun], hI2⟩

/-! ## The residues visited by a walk -/

theorem walkData_gcd {m g : Int} (hm : 0 < m) :
    WalkData m g (Int.gcd m g) (Int.tdiv m (Int.gcd m g)).toNat := by
  have hd : 0 < Int.gcd m g := Int.gcd_pos_of_ne_zero_left g (by omega)
  have hdz : (0 : Int) < (Int.gcd m g : Int) := by exact_mod_cast hd
  have hdm : (Int.gcd m g : Int) ∣ m := Int.gcd_dvd_left
  have hdg : (Int.gcd m g : Int) ∣ g := Int.gcd_dvd_right
  have hq : Int.tdiv m (Int.gcd m g) = m / (Int.gcd m g : Int) :=
    Int.tdiv_eq_ediv hm.le hdz.le
  have hq0 : 0 ≤ m / (Int.gcd m g : Int) := Int.ediv_nonneg hm.le hdz.le
  have hc : ((Int.tdiv m (Int.gcd m g)).toNat : Int) = m / (Int.gcd m g : Int) := by
    rw [hq, Int.toNat_of_nonneg hq0]
  refine ⟨hdz, ?_, ⟨g / (Int.gcd m g : Int), ?_, ?_⟩, ⟨Int.gcdA m g, Int.gcdB m g, ?_⟩⟩
  · rw [hc, Int.ediv_mul_cancel hdm]
  · rw [Int.mul_ediv_cancel' hdg]
  · rw [hc]; exact Int.gcd_div_gcd_div_gcd hd
  · exact Int.gcd_eq_gcd_ab m g

theorem WalkData.cpos {m g d : Int} {c : Nat} (h : WalkData m g d c) (hm : 0 < m) : 0 < c := by
  rcases Nat.eq_zero_or_pos c with h0 | h0
  · have := h.cd
    rw [h0] at this
    simp at this
    omega
  · exact h0

theorem WalkData.dvd_m {m g d : Int} {c : Nat} (h : WalkData m g d c) : d ∣ m :=
  ⟨c, by rw [← h.cd]; ring⟩

theorem WalkData.dvd_g {m g d : Int} {c : Nat} (h : WalkData m g d c) : d ∣ g := by
  obtain ⟨g1, hg, _⟩ := h.gd
  exact ⟨g1, hg⟩

/-- A step by `g` stays in the residue class modulo `d`. -/
theorem WalkData.step_mod {m g d : Int} {c : Nat} (h : WalkData m g d c) (q : Int) :
    (q + g) % m % d = q % d := by
  rw [Int.emod_emod_of_dvd _ h.dvd_m, Int.emod_eq_emod_iff_emod_sub_eq_zero]
  have : q + g - q = g := by ring
  rw [this]
  exact Int.emod_eq_zero_of_dvd h.dvd_g

theorem WalkData.cyc_mod {m g d : Int} {c : Nat} (h : WalkData m g d c) (n0 : Int) (i : Nat) :
    cyc m g n0 i % d = n0 % d := by
  unfold cyc
  rw [Int.emod_emod_of_dvd _ h.dvd_m, Int.emod_eq_emod_iff_emod_sub_eq_zero]
  have : n0 + i * g - n0 = i * g := by ring
  rw [this]
  exact Int.emod_eq_zero_of_dvd (Dvd.dvd.mul_left h.dvd_g _)

/-- After `c` steps the walk is back at its start. -/
theorem WalkData.cyc_closed {m g d : Int} {c : Nat} (h : WalkData m g d c) (n0 : Int) :
    cyc m g n0 c = cyc m g n0 0 := by
  obtain ⟨g1, hg, _⟩ := h.gd
  unfold cyc
  rw [Int.emod_eq_emod_iff_emod_sub_eq_zero]
  apply Int.emod_eq_zero_of_dvd
  refine ⟨g1, ?_⟩
  have := h.cd
  push_cast
  linear_combination (g1 : Int) * this + (c : Int) * hg

/-- The first `c` residues of the walk are distinct. -/
theorem WalkData.cyc_inj {m g d : Int} {c : Nat} (h : WalkData m g d c) (n0 : Int)
    (i j : Nat) (hij : i < j) (hjc : j < c) : cyc m g n0 i ≠ cyc m g n0 j := by
  obtain ⟨g1, hg, hcop⟩ := h.gd
  intro heq
  unfold cyc at heq
  have h1 : m ∣ (n0 + j * g) - (n0 + i * g) :=
    Int.dvd_of_emod_eq_zero (Int.emod_eq_emod_iff_emod_sub_eq_zero.mp heq.symm)
  have h2 : d * (c : Int) ∣ d * (((j : Int) - i) * g1) := by
    obtain ⟨t, ht⟩ := h1
    refine ⟨t, ?_⟩
    have := h.cd
    linear_combination ht - (((j : Int) - i)) * hg - t * this
  have h3 : (c : Int) ∣ ((j : Int) - i) * g1 :=
    (mul_dvd_mul_iff_left (by have := h.dpos; omega)).mp h2
  have h4 : (c : Int) ∣ (j : Int) - i := Int.dvd_of_dvd_mul_left_of_gcd_one h3 hcop
  have := Int.le_of_dvd (by omega) h4
  omega

/-- The walk visits every residue of the class of its start modulo `d`. -/
theorem WalkData.cyc_cover {m g d : Int} {c : Nat} (h : WalkData m g d c) (hm : 0 < m)
    (n0 q : Int) (hq0 : 0 ≤ q) (hqm : q < m) (hq : q % d = n0 % d) :
    ∃ i : Nat, i < c ∧ cyc m g n0 i = q := by
  obtain ⟨g1, hg, _⟩ := h.gd
  obtain ⟨a, b, hab⟩ := h.bez
  have hc : (0 : Int) < c := by exact_mod_cast h.cpos hm
  obtain ⟨t, ht⟩ : d ∣ q - n0 :=
    Int.dvd_of_emod_eq_zero (Int.emod_eq_emod_iff_emod_sub_eq_zero.mp hq)
  have hi0 : 0 ≤ (t * b) % c := Int.emod_nonneg _ (by omega)
  have hic : (t * b) % c < c := Int.emod_lt_of_pos _ hc
  have hdiv : t * b = c * ((t * b) / c) + (t * b) % c := (Int.ediv_add_emod _ _).symm
  refine ⟨((t * b) % c).toNat, by omega, ?_⟩
  unfold cyc
  rw [Int.toNat_of_nonneg hi0]
  have hmod : (n0 + (t * b) % c * g) % m = q % m := by
    rw [Int.emod_eq_emod_iff_emod_sub_eq_zero]
    apply Int.emod_eq_zero_of_dvd
    refine ⟨-(t * a) - g1 * ((t * b) / c), ?_⟩
    have := h.cd
    linear_combination (-1 : Int) * ht - t * hab - g * hdiv - (g1 * ((t * b) / c)) * this
      - ((c : Int) * ((t * b) / c)) * hg
  rw [hmod, Int.emod_eq_of_lt hq0 hqm]

/-! ## The scan of a residue class -/

theorem same_class_eq {d q q1 : Int} (h1 : q ≤ q1) (h2 : q1 < q + d)
    (h3 : q1 % d = q % d) : q1 = q := by
  have h4 : (q1 - q) % d = 0 := Int.emod_eq_emod_iff_emod_sub_eq_zero.mp h3
  rw [Int.emod_eq_of_lt (by omega) (by omega)] at h4
  omega

/-- The `while` loop of lines 89-95 ends and leaves in `n` the least reached
entry of the class, or `-1`. -/
theorem scan_spec {m d r : Int} {A : List Int} (hlen : (A.length : Int) = m) (hd : 0 < d)
    (hr : 0 ≤ r) :
    ∀ (fuel : Nat) (q n : Int), r ≤ q → q % d = r → (m - q).toNat < fuel →
      ScanInv m d r A q n → ∃ n1, scan A m d fuel q n = some n1 ∧ ScanInv m d r A m n1 := by
  intro fuel
  induction fuel with
  | zero => intro q n _ _ h; omega
  | succ fuel ih =>
    intro q n hrq hq hfuel hI
    unfold scan
    by_cases hqm : q < m
    · rw [if_pos hqm, rd_ent (by omega) (by omega), Option.some_bind]
      apply ih (q + d) _ (by omega) (by rw [Int.add_emod_self, hq]) (by omega)
      have hnew : ∀ q1, 0 ≤ q1 → q1 < q + d → q1 % d = r → q1 < q ∨ q1 = q := by
        intro q1 _ h2 h3
        by_cases h : q1 < q
        · exact Or.inl h
        · exact Or.inr (same_class_eq (by omega) h2 (by rw [h3, hq]))
      by_cases hcond : ent A q ≠ -1 ∧ (ent A q < n ∨ n = -1)
      · rw [if_pos hcond]
        refine Or.inr ⟨hcond.1, ⟨q, by omega, by omega, hqm, hq, rfl⟩, ?_⟩
        intro q1 h0 h1 h2 h3 h4
        rcases hnew q1 h0 h1 h3 with h | h
        · rcases hI with ⟨_, hall⟩ | ⟨_, _, hmin⟩
          · exact absurd (hall q1 h0 h h2 h3) h4
          · have := hmin q1 h0 h h2 h3 h4
            rcases hcond.2 with h5 | h5
            · omega
            · contradiction
        · rw [h]
      · rw [if_neg hcond]
        rcases hI with ⟨hn, hall⟩ | ⟨hn, ⟨q0, hq0⟩, hmin⟩
        · refine Or.inl ⟨hn, ?_⟩
          intro q1 h0 h1 h2 h3
          rcases hnew q1 h0 h1 h3 with h | h
          · exact hall q1 h0 h h2 h3
          · rw [h]
            by_contra hc
            exact hcond ⟨hc, Or.inr hn⟩
        · refine Or.inr ⟨hn, ⟨q0, hq0.1, by omega, hq0.2.2⟩, ?_⟩
          intro q1 h0 h1 h2 h3 h4
          rcases hnew q1 h0 h1 h3 with h | h
          · exact hmin q1 h0 h h2 h3 h4
          · rw [h] at h4 ⊢
            by_contra hc
            exact hcond ⟨h4, Or.inl (by omega)⟩
    · rw [if_neg hqm]
      refine ⟨n, rfl, ?_⟩
      rcases hI with ⟨hn, hall⟩ | ⟨hn, ⟨q0, hq0⟩, hmin⟩
      · exact Or.inl ⟨hn, fun q1 h0 h1 h2 h3 => hall q1 h0 (by omega) h2 h3⟩
      · exact Or.inr ⟨hn, ⟨q0, hq0.1, hq0.2.2.1, hq0.2.2⟩,
          fun q1 h0 h1 h2 h3 h4 => hmin q1 h0 (by omega) h2 h3 h4⟩

/-! ## One residue class, and all of them -/

theorem Improves.refl (m : Int) (A : List Int) : Improves m A A :=
  fun _ _ _ h => ⟨h, le_rfl⟩

theorem Improves.trans {m : Int} {A B C : List Int} (h1 : Improves m A B)
    (h2 : Improves m B C) : Improves m A C := by
  intro q h0 hm hq
  obtain ⟨ha, hb⟩ := h1 q h0 hm hq
  obtain ⟨hc, hd⟩ := h2 q h0 hm ha
  exact ⟨hc, le_trans hd hb⟩

/-- The body of the `r` loop for the class of `r`: the table stays sound, no
entry gets worse, entries outside the class are untouched, and the class is
closed under a step by `g` afterwards. -/
theorem classStep_spec {m g d r : Int} {c fuel : Nat} {G A : List Int}
    (hm : 0 < m) (hg : 0 < g) (hW : WalkData m g d c) (hc : c = (Int.tdiv m d).toNat)
    (hrep : ∀ x, Representable G x → Representable G (x + g))
    (hlen : (A.length : Int) = m) (hS : Sound m G A) (h00 : ent A 0 = 0)
    (hr : 0 ≤ r) (hrd : r < d) (hfuel : m.toNat < fuel) :
    ∃ A1, classStep fuel m g d A r = some A1 ∧ (A1.length : Int) = m ∧ Sound m G A1 ∧
      Improves m A A1 ∧
      (∀ q, 0 ≤ q → q < m → q % d ≠ r → ent A1 q = ent A q) ∧
      (∀ q, 0 ≤ q → q < m → q % d = r → ent A1 q ≠ -1 →
        ent A1 ((q + g) % m) ≠ -1 ∧ ent A1 ((q + g) % m) ≤ ent A1 q + g) := by
  have hd := hW.dpos
  -- the first phase: the least reached entry of the class
  have hphase : ∃ n, (if r = 0 then some 0 else scan A m d fuel r (-1)) = some n ∧
      ScanInv m d r A m n := by
    by_cases h0 : r = 0
    · subst h0
      refine ⟨0, by simp, Or.inr ⟨by omega, ⟨0, le_rfl, hm, hm, by simp, h00⟩, ?_⟩⟩
      intro q1 h1 _ h2 _ h3
      exact (hS q1 h1 h2 h3).1
    · rw [if_neg h0]
      apply scan_spec hlen hd hr fuel r (-1) le_rfl (Int.emod_eq_of_lt hr hrd) (by omega)
      refine Or.inl ⟨rfl, ?_⟩
      intro q1 h1 h2 _ h3
      rw [Int.emod_eq_of_lt h1 (by omega)] at h3
      omega
  obtain ⟨n, hn, hI⟩ := hphase
  unfold classStep
  rw [hn, Option.some_bind]
  rcases hI with ⟨hn1, hall⟩ | ⟨hn1, ⟨q0, hq00, _, hq0m, hq0r, hq0n⟩, hmin⟩
  · rw [if_neg (by simpa using hn1)]
    refine ⟨A, rfl, hlen, hS, Improves.refl m A, fun _ _ _ _ => rfl, ?_⟩
    intro q h0 h1 h2 h3
    exact absurd (hall q h0 h1 h1 h2) h3
  · rw [if_pos hn1, ← hc]
    have hs0 := hS q0 hq00 hq0m (by rw [hq0n]; exact hn1)
    rw [hq0n] at hs0
    have hcyc0 : cyc m g n 0 = q0 := by
      unfold cyc
      simp [hs0.2.1]
    have hclass : ∀ i : Nat, cyc m g n i % d = r := by
      intro i
      rw [hW.cyc_mod, ← Int.emod_emod_of_dvd n hW.dvd_m, hs0.2.1, hq0r]
    have hinit : RelaxInv m g n G A 0 n A := by
      refine ⟨hlen, le_rfl, ?_, by rw [hcyc0, hq0n], fun i hi => absurd hi (by omega),
        fun _ _ _ _ => rfl, Improves.refl m A, ?_, hS⟩
      · rw [hcyc0, hs0.2.1]
      · intro i hi
        exact hmin _ (cyc_range hm g n i).1 (cyc_range hm g n i).2 (cyc_range hm g n i).2
          (hclass i) hi
    obtain ⟨n2, A1, hrun, hI1⟩ := relax_loop hm hg hs0.1 hrep (hW.cyc_inj n) (hW.cyc_closed n)
      (by rw [hcyc0, hq0n]) c 0 n A (by omega) hinit
    refine ⟨A1, hrun, hI1.len, hI1.sound, hI1.mono, ?_, ?_⟩
    · intro q h0 h1 h2
      apply hI1.frame q h0 h1
      intro i _ _ heq
      exact h2 (heq ▸ hclass i)
    · intro q h0 h1 h2 _
      obtain ⟨i, hi, hiq⟩ := hW.cyc_cover hm n q h0 h1
        (by rw [h2, ← Int.emod_emod_of_dvd n hW.dvd_m, hs0.2.1, hq0r])
      have := hI1.edge i hi
      rw [← cyc_succ, hiq] at this
      exact this

/-- The `r` loop of lines 82-110 with `k` classes left, the classes below
`r` being closed already. -/
theorem forR_spec {m g d : Int} {c fuel : Nat} (G A0 : List Int)
    (hm : 0 < m) (hg : 0 < g) (hW : WalkData m g d c) (hc : c = (Int.tdiv m d).toNat)
    (hrep : ∀ x, Representable G x → Representable G (x + g))
    (h00 : ent A0 0 = 0) (hfuel : m.toNat < fuel) :
    ∀ (k : Nat) (r : Int) (A : List Int), 0 ≤ r → r + k = d →
      (A.length : Int) = m → Sound m G A → Improves m A0 A →
      (∀ q, 0 ≤ q → q < m → q % d < r → ent A q ≠ -1 →
        ent A ((q + g) % m) ≠ -1 ∧ ent A ((q + g) % m) ≤ ent A q + g) →
      ∃ A1, forR fuel m g d k r A = some A1 ∧ (A1.length : Int) = m ∧ Sound m G A1 ∧
        Improves m A0 A1 ∧ Closed m g A1 := by
  intro k
  induction k with
  | zero =>
    intro r A _ hrk hlen hS hI hC
    refine ⟨A, rfl, hlen, hS, hI, ?_⟩
    intro q h0 h1 h2
    exact hC q h0 h1 (by have := Int.emod_lt_of_pos q hW.dpos; simp at hrk; omega) h2
  | succ k ih =>
    intro r A hr hrk hlen hS hI hC
    have hA0 : ent A 0 = 0 := by
      have h1 := hI 0 le_rfl hm (by rw [h00]; omega)
      have h2 := hS 0 le_rfl hm h1.1
      rw [h00] at h1
      omega
    obtain ⟨A1, hstep, hlen1, hS1, hI1, hframe, hclosed⟩ :=
      classStep_spec (r := r) hm hg hW hc hrep hlen hS hA0 hr (by push_cast at hrk; omega) hfuel
    unfold forR
    rw [hstep, Option.some_bind]
    apply ih (r + 1) A1 (by omega) (by push_cast at hrk ⊢; omega) hlen1 hS1 (hI.trans hI1)
    intro q h0 h1 h2 h3
    by_cases hq : q % d = r
    · exact hclosed q h0 h1 hq h3
    · have hq1 : (q + g) % m % d ≠ r := by rw [hW.step_mod]; exact hq
      have hqr := Int.emod_nonneg (q + g) (show m ≠ 0 by omega)
      have hqm := Int.emod_lt_of_pos (q + g) hm
      rw [hframe q h0 h1 hq] at h3 ⊢
      rw [hframe _ hqr hqm hq1]
      exact hC q h0 h1 (by omega) h3

/-- Closing a complete table under a step by `g` makes it complete for the
generators with `g` added. -/
theorem complete_cons {m g : Int} {G A A1 : List Int} (hm : 0 < m) (hA : Complete m G A)
    (hI : Improves m A A1) (hC : Closed m g A1) : Complete m (g :: G) A1 := by
  have key : ∀ (k : Nat) (n : Int), Representable G (n - k * g) →
      ent A1 (n % m) ≠ -1 ∧ ent A1 (n % m) ≤ n := by
    intro k
    induction k with
    | zero =>
      intro n hn
      simp only [Nat.cast_zero, zero_mul, sub_zero] at hn
      obtain ⟨h1, h2⟩ := hA n hn
      obtain ⟨h3, h4⟩ := hI _ (Int.emod_nonneg n (by omega)) (Int.emod_lt_of_pos n hm) h1
      exact ⟨h3, le_trans h4 h2⟩
    | succ k ih =>
      intro n hn
      have hn1 : Representable G (n - g - k * g) := by
        have : n - g - k * g = n - (k + 1 : Nat) * g := by push_cast; ring
        rw [this]; exact hn
      obtain ⟨h1, h2⟩ := ih (n - g) hn1
      obtain ⟨h3, h4⟩ := hC _ (Int.emod_nonneg (n - g) (by omega))
        (Int.emod_lt_of_pos (n - g) hm) h1
      rw [Int.emod_add_emod, sub_add_cancel] at h3 h4
      exact ⟨h3, by omega⟩
  intro n hn
  obtain ⟨k, hk⟩ := hn
  exact key k n hk

/-! ## The generator loop -/

theorem Representable.cons_of {G : List Int} {x : Int} (g : Int) (h : Representable G x) :
    Representable (g :: G) x :=
  ⟨0, by simpa using h⟩

theorem Representable.add_head {G : List Int} {g x : Int} (h : Representable (g :: G) x) :
    Representable (g :: G) (x + g) := by
  obtain ⟨k, hk⟩ := h
  refine ⟨k + 1, ?_⟩
  have : x + g - ((k + 1 : Nat) : Int) * g = x - k * g := by push_cast; ring
  rw [this]; exact hk

/-- One generator: the round over all residue classes turns the table of the
generators `G` into the table of `g :: G`. -/
theorem generator_spec {m g : Int} {fuel : Nat} {G A : List Int} (hm : 0 < m) (hg : 0 < g)
    (hfm : m.toNat < fuel) (hI : TableInv m G A) :
    ∃ A1, forR fuel m g (Int.gcd m g) (Int.gcd m g : Int).toNat 0 A = some A1 ∧
      TableInv m (g :: G) A1 ∧ Improves m A A1 := by
  have hW := walkData_gcd (g := g) hm
  have hS : Sound m (g :: G) A := fun q h0 h1 h2 =>
    ⟨(hI.sound q h0 h1 h2).1, (hI.sound q h0 h1 h2).2.1, (hI.sound q h0 h1 h2).2.2.cons_of g⟩
  obtain ⟨A1, hrun, hlen1, hS1, hI1, hC1⟩ :=
    forR_spec (g :: G) A hm hg hW rfl (fun x hx => hx.add_head) hI.zero hfm
      (Int.gcd m g : Int).toNat 0 A le_rfl (by simp) hI.len hS (Improves.refl m A)
      (fun q _ _ h => by have := Int.emod_nonneg q (show ((Int.gcd m g : Nat) : Int) ≠ 0 by
        have := hW.dpos; omega); omega)
  refine ⟨A1, hrun, ⟨hlen1, hS1, complete_cons hm hI.complete hI1 hC1, ?_⟩, hI1⟩
  have h1 := hI1 0 le_rfl hm (by rw [hI.zero]; omega)
  have h2 := hS1 0 le_rfl hm h1.1
  rw [hI.zero] at h1
  omega

/-- The loop of lines 79-111 over the generators `gs`. -/
theorem forIdx_spec {m : Int} {fuel : Nat} (hm : 0 < m) (hfm : m.toNat < fuel) :
    ∀ (gs G A : List Int), (∀ g ∈ gs, 0 < g) → (∀ g ∈ gs, g.natAbs < fuel) → TableInv m G A →
      ∃ A1, forIdx fuel m gs A = some A1 ∧ TableInv m (gs.reverse ++ G) A1 ∧
        Improves m A A1 := by
  intro gs
  induction gs with
  | nil => intro G A _ _ hI; exact ⟨A, rfl, by simpa using hI, Improves.refl m A⟩
  | cons g gs ih =>
    intro G A hpos hfuel hI
    have hg : 0 < g := hpos g (List.mem_cons_self _ _)
    obtain ⟨A1, hrun, hI1, himp1⟩ := generator_spec (g := g) hm hg hfm hI
    obtain ⟨A2, hrun2, hI2, himp2⟩ := ih (g :: G) A1
      (fun x hx => hpos x (List.mem_cons_of_mem _ hx))
      (fun x hx => hfuel x (List.mem_cons_of_mem _ hx)) hI1
    refine ⟨A2, ?_, by simpa using hI2, himp1.trans himp2⟩
    unfold forIdx
    rw [GCD_nonneg fuel m g hm.le hg.le (hfuel g (List.mem_cons_self _ _)), Option.some_bind,
      hrun, Option.some_bind, hrun2]

/-- The table of lines 76-77: all entries unreached but `array[0] = 0`. -/
theorem init_spec {m : Int} (hm : 0 < m) :
    ∃ A0, wr (List.replicate m.toNat (-1)) 0 0 = some A0 ∧ TableInv m [] A0 ∧
      ∀ q, 0 < q → ent A0 q = -1 := by
  obtain ⟨A0, hwr, hlen, hent⟩ := wr_spec (A := List.replicate m.toNat (-1)) (i := 0) 0 le_rfl
    (by simp; omega)
  have hrep : ∀ q : Int, ent (List.replicate m.toNat (-1)) q = -1 := by
    intro q
    unfold ent
    rw [List.getD_eq_getElem?_getD, List.getElem?_replicate]
    split_ifs <;> rfl
  have hA0 : ∀ q, 0 ≤ q → ent A0 q = if q = 0 then 0 else -1 := by
    intro q hq
    rw [hent q hq, hrep]
  refine ⟨A0, hwr, ⟨?_, ?_, ?_, ?_⟩, ?_⟩
  · rw [hlen]; simp; omega
  · intro q h0 _ h1
    rw [hA0 q h0] at h1 ⊢
    split_ifs at h1 ⊢ with h
    · subst h
      exact ⟨le_rfl, by simp, rfl⟩
    · exact absurd rfl h1
  · intro n hn
    have : n = 0 := hn
    subst this
    simp [hA0]
  · simp [hA0]
  · intro q hq
    rw [hA0 q hq.le, if_neg (by omega)]

/-! ## Every residue class is reached -/

/-- Modulo `m`, the combinations of `G` cover every multiple of the greatest
common divisor of `m` and `G`. -/
theorem reach {m : Int} (hm : 0 < m) :
    ∀ (G : List Int) (x : Int), (Int.gcd m (listGcd G) : Int) ∣ x →
      ∃ n, Representable G n ∧ n % m = x % m := by
  intro G
  induction G with
  | nil =>
    intro x hx
    refine ⟨0, rfl, ?_⟩
    have : m ∣ x := by
      simp only [listGcd, List.foldr_nil, Nat.cast_zero, Int.gcd_zero_right] at hx
      exact Int.natAbs_dvd.mp hx
    rw [Int.emod_eq_zero_of_dvd this]; simp
  | cons g G ih =>
    intro x hx
    have hlg : listGcd (g :: G) = Int.gcd g (listGcd G) := rfl
    have hD : (Int.gcd g (Int.gcd m (listGcd G)) : Int) ∣ x := by
      refine dvd_trans (Int.dvd_gcd ?_ ?_) hx
      · exact dvd_trans Int.gcd_dvd_right Int.gcd_dvd_left
      · rw [hlg]
        exact Int.dvd_gcd Int.gcd_dvd_left (dvd_trans Int.gcd_dvd_right Int.gcd_dvd_right)
    obtain ⟨t, ht⟩ := hD
    have hbez := Int.gcd_eq_gcd_ab g (Int.gcd m (listGcd G))
    set e : Int := (Int.gcd m (listGcd G) : Int) with he
    set a := Int.gcdA g e * t with ha
    set b := Int.gcdB g e * t with hb
    have hx2 : x = g * a + e * b := by
      rw [ht, hbez, ha, hb]; ring
    obtain ⟨n1, hn1, hn1m⟩ := ih (e * b) (Dvd.intro b rfl)
    have hk0 : 0 ≤ a % m := Int.emod_nonneg a (by omega)
    refine ⟨n1 + (a % m) * g, ⟨(a % m).toNat, ?_⟩, ?_⟩
    · rw [Int.toNat_of_nonneg hk0]; simpa using hn1
    · have h1 : n1 ≡ e * b [ZMOD m] := hn1m
      have h2 : a % m ≡ a [ZMOD m] := Int.mod_modEq a m
      have h3 := h1.add (h2.mul_right g)
      have h4 : e * b + a * g = x := by rw [hx2]; ring
      rw [h4] at h3
      exact h3

/-! ## The maximum scan and the result -/

/-- The loop of lines 114-118 on a table with all `m` entries reached yields
the maximum of the entries. -/
theorem maxLoop_spec {m : Int} {A : List Int} (hlen : (A.length : Int) = m)
    (hpos : ∀ q, 0 ≤ q → q < m → 0 ≤ ent A q) :
    ∀ (k : Nat) (idx mx : Int), 0 ≤ idx → idx + k = m → 0 ≤ mx →
      (∀ q, 0 ≤ q → q < idx → ent A q ≤ mx) →
      (mx = 0 ∨ ∃ q, 0 ≤ q ∧ q < idx ∧ ent A q = mx) →
      ∃ M, maxLoop A k idx mx = some M ∧ 0 ≤ M ∧ (∀ q, 0 ≤ q → q < m → ent A q ≤ M) ∧
        (M = 0 ∨ ∃ q, 0 ≤ q ∧ q < m ∧ ent A q = M) := by
  intro k
  induction k with
  | zero =>
    intro idx mx _ hk hmx hle hex
    have : idx = m := by simpa using hk
    subst this
    exact ⟨mx, rfl, hmx, hle, hex⟩
  | succ k ih =>
    intro idx mx hidx hk hmx hle hex
    push_cast at hk
    have ha := hpos idx hidx (by omega)
    unfold maxLoop
    rw [rd_ent hidx (by omega), Option.some_bind]
    by_cases hc : ent A idx = -1 ∨ ent A idx > mx
    · rw [if_pos hc]
      have hgt : ent A idx > mx := by omega
      apply ih (idx + 1) _ (by omega) (by omega) ha
      · intro q h0 h1
        rcases (show q < idx ∨ q = idx by omega) with h | h
        · have := hle q h0 h; omega
        · rw [h]
      · exact Or.inr ⟨idx, hidx, by omega, rfl⟩
    · rw [if_neg hc]
      push_neg at hc
      apply ih (idx + 1) _ (by omega) (by omega) hmx
      · intro q h0 h1
        rcases (show q < idx ∨ q = idx by omega) with h | h
        · exact hle q h0 h
        · rw [h]; omega
      · rcases hex with h | ⟨q, h0, h1, h2⟩
        · exact Or.inl h
        · exact Or.inr ⟨q, h0, by omega, h2⟩

/-- With every residue class reached, the greatest entry of the table less
`m` is the Frobenius number of `m :: G`. -/
theorem table_frobenius {m M : Int} {G A : List Int} (hm : 0 < m) (hI : TableInv m G A)
    (hreach : ∀ q, 0 ≤ q → q < m → ent A q ≠ -1)
    (hmax : ∀ q, 0 ≤ q → q < m → ent A q ≤ M)
    (hex : M = 0 ∨ ∃ q, 0 ≤ q ∧ q < m ∧ ent A q = M) :
    ¬ Representable (m :: G) (M - m) ∧ ∀ n, M - m < n → Representable (m :: G) n := by
  have hex1 : ∃ q, 0 ≤ q ∧ q < m ∧ ent A q = M := by
    rcases hex with h | h
    · exact ⟨0, le_rfl, hm, by rw [hI.zero, h]⟩
    · exact h
  constructor
  · rintro ⟨k, hk⟩
    obtain ⟨q, h0, h1, h2⟩ := hex1
    have hs := hI.sound q h0 h1 (hreach q h0 h1)
    have hc := hI.complete _ hk
    have hmod : (M - m - k * m) % m = q := by
      have : M - m - k * m = M + m * (-1 - k) := by ring
      rw [this, Int.add_mul_emod_self_left, ← h2]
      exact hs.2.1
    rw [hmod, h2] at hc
    have : 0 ≤ (k : Int) * m := by positivity
    omega
  · intro n hn
    have hr0 := Int.emod_nonneg n (show m ≠ 0 by omega)
    have hrm := Int.emod_lt_of_pos n hm
    have hs := hI.sound _ hr0 hrm (hreach _ hr0 hrm)
    have hle := hmax _ hr0 hrm
    have hdvd : m ∣ n - ent A (n % m) := by
      apply Int.dvd_of_emod_eq_zero
      rw [← Int.emod_eq_emod_iff_emod_sub_eq_zero, hs.2.1]
    obtain ⟨t, ht⟩ := hdvd
    have ht0 : 0 ≤ t := by
      by_contra hneg
      have : m * t ≤ m * (-1) := Int.mul_le_mul_of_nonneg_left (by omega) hm.le
      omega
    refine ⟨t.toNat, ?_⟩
    rw [Int.toNat_of_nonneg ht0]
    have : n - t * m = ent A (n % m) := by linear_combination ht
    rw [this]
    exact hs.2.2

/-! ## Combinations -/

theorem Representable.zero : ∀ L : List Int, Representable L 0 := by
  intro L
  induction L with
  | nil => rfl
  | cons x L ih => exact ⟨0, by simpa using ih⟩

theorem Representable.nonneg : ∀ (L : List Int), (∀ x ∈ L, 0 ≤ x) → ∀ n, Representable L n →
    0 ≤ n := by
  intro L
  induction L with
  | nil => intro _ n hn; exact (show n = 0 from hn) ▸ le_rfl
  | cons x L ih =>
    intro hL n hn
    obtain ⟨k, hk⟩ := hn
    have h1 := ih (fun y hy => hL y (List.mem_cons_of_mem _ hy)) _ hk
    have h2 : 0 ≤ (k : Int) * x := mul_nonneg (by positivity) (hL x (List.mem_cons_self _ _))
    omega

/-- Being a combination does not depend on the order of the generators. -/
theorem Representable.perm {L1 L2 : List Int} (h : L1.Perm L2) :
    ∀ n, Representable L1 n ↔ Representable L2 n := by
  induction h with
  | nil => intro n; rfl
  | cons x _ ih =>
    intro n
    exact ⟨fun ⟨k, hk⟩ => ⟨k, (ih _).mp hk⟩, fun ⟨k, hk⟩ => ⟨k, (ih _).mpr hk⟩⟩
  | swap x y l =>
    intro n
    constructor
    · rintro ⟨k, j, h⟩
      refine ⟨j, k, ?_⟩
      have : n - j * x - k * y = n - k * y - j * x := by ring
      rw [this]; exact h
    · rintro ⟨k, j, h⟩
      refine ⟨j, k, ?_⟩
      have : n - j * y - k * x = n - k * x - j * y := by ring
      rw [this]; exact h
  | trans _ _ ih1 ih2 => intro n; exact (ih1 n).trans (ih2 n)

theorem Representable.pair {a b n : Int} :
    Representable [a, b] n ↔ ∃ k j : Nat, n = k * a + j * b := by
  constructor
  · rintro ⟨k, j, h⟩
    have h0 : n - k * a - j * b = 0 := h
    exact ⟨k, j, by linear_combination h0⟩
  · rintro ⟨k, j, h⟩
    refine ⟨k, j, ?_⟩
    show n - k * a - j * b = 0
    linear_combination h

/-! ## The sorted vector -/

theorem sort_perm (L : List Int) : (sort L).Perm L :=
  List.perm_insertionSort _ L

theorem sort_sorted (L : List Int) : (sort L).Sorted (fun a b => a ≤ b) :=
  List.sorted_insertionSort _ L

/-- The sorted vector starts with a least element of the vector. -/
theorem sort_head {L : List Int} {m0 : Int} {gs : List Int} (h : sort L = m0 :: gs) :
    m0 ∈ L ∧ (∀ x ∈ L, m0 ≤ x) ∧ (∀ x ∈ gs, x ∈ L) ∧ gs.length + 1 = L.length := by
  have hp := sort_perm L
  have hs := sort_sorted L
  rw [h] at hp hs
  refine ⟨hp.mem_iff.mp (List.mem_cons_self _ _), ?_, ?_, ?_⟩
  · intro x hx
    rcases List.mem_cons.mp (hp.mem_iff.mpr hx) with rfl | hx1
    · exact le_rfl
    · exact List.rel_of_sorted_cons hs x hx1
  · intro x hx
    exact hp.mem_iff.mp (List.mem_cons_of_mem _ hx)
  · rw [← hp.length_eq]; rfl

theorem sort_cons_of_length {L : List Int} (h : 1 ≤ L.length) :
    ∃ m0 gs, sort L = m0 :: gs := by
  have hl := (sort_perm L).length_eq
  cases hs : sort L with
  | nil => rw [hs] at hl; simp at hl; omega
  | cons m0 gs => exact ⟨m0, gs, rfl⟩

theorem natAbs_lt_fuel {L : List Int} {fuel : Nat} (hlen : 1 ≤ L.length)
    (hfuel : L.length + (L.map Int.natAbs).sum ≤ fuel) {x : Int} (hx : x ∈ L) :
    x.natAbs < fuel := by
  have := natAbs_le_sum L x hx
  omega

/-! ## The solver -/

/-- The path of the solver through the residue table (lines 76-119): on a
vector of at least three integers, each at least `2`, with greatest common
divisor `1`, the table after the generator loop holds the least combination
of every residue class, all classes are reached, and the value returned is
the Frobenius number of the vector. -/
theorem FrobeniusNumber_table (L : List Int) (hlen : 3 ≤ L.length) (h2 : ∀ x ∈ L, 2 ≤ x)
    (hg : listGcd L = 1) (fuel : Nat) (hfuel : L.length + (L.map Int.natAbs).sum ≤ fuel) :
    ∃ m0 gs A0 A M, sort L = m0 :: gs ∧ 2 ≤ m0 ∧
      wr (List.replicate m0.toNat (-1)) 0 0 = some A0 ∧
      forIdx fuel m0 gs A0 = some A ∧ TableInv m0 gs.reverse A ∧ Improves m0 A0 A ∧
      (∀ q, 0 ≤ q → q < m0 → ent A q ≠ -1) ∧
      maxLoop A m0.toNat 0 0 = some M ∧ 0 ≤ M ∧
      FrobeniusNumber fuel L = some (M - m0, sort L) ∧
      ¬ Representable L (M - m0) ∧ ∀ n, M - m0 < n → Representable L n := by
  obtain ⟨c, hc, _, hc1⟩ := CommonGCD_all L (by omega) fuel hfuel
  have hc2 : c = 1 := by rw [hc1 (fun x hx => by have := h2 x hx; omega), hg]; rfl
  subst hc2
  obtain ⟨m0, gs, hs⟩ := sort_cons_of_length (L := L) (by omega)
  obtain ⟨hm0L, hmin, hgsL, hgslen⟩ := sort_head hs
  have hm2 : 2 ≤ m0 := h2 m0 hm0L
  have hm : 0 < m0 := by omega
  have hfm : m0.toNat < fuel := by
    have := natAbs_lt_fuel (by omega) hfuel hm0L
    omega
  obtain ⟨A0, hA0, hI0, _⟩ := init_spec hm
  obtain ⟨A, hA, hI, himp⟩ := forIdx_spec hm hfm gs [] A0
    (fun g hgm => by have := h2 g (hgsL g hgm); omega)
    (fun g hgm => natAbs_lt_fuel (by omega) hfuel (hgsL g hgm)) hI0
  rw [List.append_nil] at hI
  -- every residue class is reached
  have hone : Int.gcd m0 (listGcd gs.reverse) = 1 := by
    have hd : ((Int.gcd m0 (listGcd gs.reverse) : Nat) : Int) ∣ (listGcd L : Int) := by
      apply dvd_listGcd
      intro x hx
      rcases List.mem_cons.mp (hs ▸ (sort_perm L).mem_iff.mpr hx) with rfl | hx1
      · exact Int.gcd_dvd_left
      · exact dvd_trans Int.gcd_dvd_right (listGcd_dvd _ x (List.mem_reverse.mpr hx1))
    rw [hg] at hd
    exact Nat.eq_one_of_dvd_one (Int.natCast_dvd_natCast.mp hd)
  have hreach : ∀ q, 0 ≤ q → q < m0 → ent A q ≠ -1 := by
    intro q h0 h1
    obtain ⟨n, hn, hnq⟩ := reach hm gs.reverse q (by rw [hone]; simp)
    have := (hI.complete n hn).1
    rwa [hnq, Int.emod_eq_of_lt h0 h1] at this
  obtain ⟨M, hM, hM0, hmax, hex⟩ := maxLoop_spec hI.len
    (fun q h0 h1 => (hI.sound q h0 h1 (hreach q h0 h1)).1) m0.toNat 0 0 le_rfl
    (by rw [Int.toNat_of_nonneg hm.le]; simp) le_rfl (fun q h0 h1 => by omega) (Or.inl rfl)
  obtain ⟨hF1, hF2⟩ := table_frobenius hm hI hreach hmax hex
  have hperm : L.Perm (m0 :: gs.reverse) :=
    ((sort_perm L).symm.trans (hs ▸ List.Perm.refl _)).trans
      (List.Perm.cons m0 (List.reverse_perm gs).symm)
  refine ⟨m0, gs, A0, A, M, hs, hm2, hA0, hA, hI, himp, hreach, hM, hM0, ?_,
    fun h => hF1 ((Representable.perm hperm _).mp h),
    fun n hn => (Representable.perm hperm n).mpr (hF2 n hn)⟩
  unfold FrobeniusNumber
  rw [hc, Option.some_bind, if_pos rfl]
  simp only [hs]
  have hrd0 : rd (m0 :: gs) 0 = some m0 := by simp [rd]
  have hlen2 : (m0 :: gs).length ≠ 2 := by simp; omega
  rw [hrd0, Option.some_bind, if_neg (by omega), if_neg (by omega), if_neg hlen2, hA0,
    Option.some_bind, List.tail_cons, hA, Option.some_bind, hM, Option.some_bind,
    if_neg (by omega)]

/-! ## Two generators -/

theorem Representable.of_mem : ∀ (L : List Int) (x : Int), x ∈ L → ∀ k : Nat,
    Representable L (k * x) := by
  intro L
  induction L with
  | nil => intro x h; cases h
  | cons y L ih =>
    intro x hx k
    rcases List.mem_cons.mp hx with rfl | h
    · exact ⟨k, by simpa using Representable.zero L⟩
    · exact (ih x h k).cons_of y

/-- The theorem of Sylvester for the model: for coprime `a`, `b`, both at
least `2`, the value `a * b - a - b` is no combination of `a` and `b`, and
every larger integer is one. -/
theorem pair_frobenius {a b : Int} (ha : 2 ≤ a) (hb : 2 ≤ b) (hg : Int.gcd a b = 1) :
    ¬ Representable [a, b] (a * b - a - b) ∧
      ∀ n, a * b - a - b < n → Representable [a, b] n := by
  obtain ⟨m, rfl⟩ := Int.eq_ofNat_of_zero_le (show 0 ≤ a by omega)
  obtain ⟨n, rfl⟩ := Int.eq_ofNat_of_zero_le (show 0 ≤ b by omega)
  have hm : 1 < m := by omega
  have hn : 1 < n := by omega
  have cop : Nat.Coprime m n := by simpa [Int.gcd_natCast_natCast] using hg
  obtain ⟨h1, h2⟩ := frobeniusNumber_pair cop hm hn
  have hmn : m + n ≤ m * n := add_le_mul hm hn
  have hcast : ((m * n - m - n : Nat) : Int) = (m : Int) * n - m - n := by
    rw [Nat.sub_sub, Nat.cast_sub hmn]; push_cast; ring
  constructor
  · intro hrep
    obtain ⟨k, j, hkj⟩ := Representable.pair.mp hrep
    apply h1
    rw [AddSubmonoid.mem_closure_pair]
    refine ⟨k, j, ?_⟩
    have : ((k * m + j * n : Nat) : Int) = ((m * n - m - n : Nat) : Int) := by
      rw [hcast, hkj]; push_cast; ring
    simpa using Int.ofNat_inj.mp this
  · intro z hz
    have hz0 : 0 ≤ z := by rw [← hcast] at hz; omega
    obtain ⟨t, rfl⟩ := Int.eq_ofNat_of_zero_le hz0
    have ht : m * n - m - n < t := by rw [← hcast] at hz; exact_mod_cast hz
    have hmem : t ∈ AddSubmonoid.closure ({m, n} : Set Nat) := by
      by_contra hc
      have := h2 hc
      omega
    rw [AddSubmonoid.mem_closure_pair] at hmem
    obtain ⟨k, j, hkj⟩ := hmem
    apply Representable.pair.mpr
    refine ⟨k, j, ?_⟩
    rw [← hkj]; simp

/-! ## The early exits of the solver -/

/-- The gate fails: line 121, the vector is left as it was. -/
theorem FrobeniusNumber_fail {L : List Int} {fuel : Nat} {c : Int}
    (hc : CommonGCD L fuel 0 ((L.length : Int) - 1) = some c) (h1 : c ≠ 1) :
    FrobeniusNumber fuel L = some (infinity, L) := by
  unfold FrobeniusNumber
  rw [hc, Option.some_bind, if_neg h1]

/-- The gate passes and the least element is not positive: line 70. -/
theorem FrobeniusNumber_nonpos {L : List Int} {fuel : Nat} {m0 : Int} {gs : List Int}
    (hc : CommonGCD L fuel 0 ((L.length : Int) - 1) = some 1) (hs : sort L = m0 :: gs)
    (hm : m0 ≤ 0) : FrobeniusNumber fuel L = some (infinity, sort L) := by
  unfold FrobeniusNumber
  rw [hc, Option.some_bind, if_pos rfl]
  simp only [hs]
  have hrd0 : rd (m0 :: gs) 0 = some m0 := by simp [rd]
  rw [hrd0, Option.some_bind, if_pos hm]

/-- The gate passes and the least element is `1`: line 71. -/
theorem FrobeniusNumber_one {L : List Int} {fuel : Nat} {gs : List Int}
    (hc : CommonGCD L fuel 0 ((L.length : Int) - 1) = some 1) (hs : sort L = 1 :: gs) :
    FrobeniusNumber fuel L = some (-1, sort L) := by
  unfold FrobeniusNumber
  rw [hc, Option.some_bind, if_pos rfl]
  simp only [hs]
  have hrd0 : rd (1 :: gs) 0 = some 1 := by simp [rd]
  rw [hrd0, Option.some_bind, if_neg (by omega), if_pos rfl]

/-- The gate passes on two elements, the lesser at least `2`: lines 72-74. -/
theorem FrobeniusNumber_two {L : List Int} {fuel : Nat} {m0 b : Int}
    (hc : CommonGCD L fuel 0 ((L.length : Int) - 1) = some 1) (hs : sort L = [m0, b])
    (hm : 2 ≤ m0) : FrobeniusNumber fuel L = some (m0 * b - m0 - b, sort L) := by
  unfold FrobeniusNumber
  rw [hc, Option.some_bind, if_pos rfl]
  simp only [hs]
  have hrd0 : rd [m0, b] 0 = some m0 := by simp [rd]
  have hrd1 : rd [m0, b] 1 = some b := by simp [rd]
  have hlen2 : [m0, b].length = 2 := rfl
  rw [hrd0, Option.some_bind, if_neg (by omega), if_neg (by omega), if_pos hlen2, hrd1,
    Option.some_bind]

/-- On a vector of at least two positive integers with greatest common
divisor `1` the solver returns the Frobenius number of the vector (`-1` when
every non-negative integer is a combination) and leaves the vector sorted. -/
theorem FrobeniusNumber_pos (L : List Int) (hlen : 2 ≤ L.length) (hpos : ∀ x ∈ L, 0 < x)
    (hg : listGcd L = 1) (fuel : Nat) (hfuel : L.length + (L.map Int.natAbs).sum ≤ fuel) :
    ∃ F, FrobeniusNumber fuel L = some (F, sort L) ∧ ¬ Representable L F ∧
      ∀ n, F < n → Representable L n := by
  obtain ⟨c, hc, _, hc1⟩ := CommonGCD_all L hlen fuel hfuel
  have hc2 : c = 1 := by rw [hc1 (fun x hx => (hpos x hx).le), hg]; rfl
  subst hc2
  obtain ⟨m0, gs, hs⟩ := sort_cons_of_length (L := L) (by omega)
  obtain ⟨hm0L, hmin, hgsL, hgslen⟩ := sort_head hs
  have hnn : ∀ x ∈ L, 0 ≤ x := fun x hx => (hpos x hx).le
  by_cases h1 : m0 = 1
  · subst h1
    refine ⟨-1, FrobeniusNumber_one hc hs, ?_, ?_⟩
    · intro h
      have := Representable.nonneg L hnn _ h
      omega
    · intro n hn
      have := Representable.of_mem L 1 hm0L n.toNat
      rwa [Int.toNat_of_nonneg (by omega), mul_one] at this
  · have hm2 : 2 ≤ m0 := by have := hpos m0 hm0L; omega
    by_cases hl : L.length = 2
    · obtain ⟨b, rfl⟩ : ∃ b, gs = [b] := by
        match gs, hgslen with
        | [b], _ => exact ⟨b, rfl⟩
        | [], h => simp at h; omega
        | _ :: _ :: _, h => simp at h; omega
      have hp : L.Perm [m0, b] := (sort_perm L).symm.trans (hs ▸ List.Perm.refl _)
      have hb2 : 2 ≤ b := le_trans hm2 (hmin b (hgsL b (List.mem_singleton_self b)))
      have hgcd : Int.gcd m0 b = 1 := by
        have hd : ((Int.gcd m0 b : Nat) : Int) ∣ (listGcd L : Int) := by
          apply dvd_listGcd
          intro x hx
          have hx1 : x = m0 ∨ x = b := by simpa using hp.mem_iff.mp hx
          rcases hx1 with rfl | rfl
          · exact Int.gcd_dvd_left
          · exact Int.gcd_dvd_right
        rw [hg] at hd
        exact Nat.eq_one_of_dvd_one (Int.natCast_dvd_natCast.mp hd)
      obtain ⟨hF1, hF2⟩ := pair_frobenius hm2 hb2 hgcd
      exact ⟨m0 * b - m0 - b, FrobeniusNumber_two hc hs hm2,
        fun h => hF1 ((Representable.perm hp _).mp h),
        fun n hn => (Representable.perm hp n).mpr (hF2 n hn)⟩
    · obtain ⟨m1, gs1, A0, A, M, hs1, _, _, _, _, _, _, _, _, hrun, hF1, hF2⟩ :=
        FrobeniusNumber_table L (by omega) (fun x hx => le_trans hm2 (hmin x hx)) hg fuel hfuel
      rw [hs] at hs1
      obtain ⟨rfl, rfl⟩ := List.cons.inj hs1
      exact ⟨M - m0, hrun, hF1, hF2⟩

theorem FrobeniusValue_eq {L S : List Int} {fuel : Nat} {F : Int}
    (h : FrobeniusNumber fuel L = some (F, S)) : FrobeniusValue fuel L = some F := by
  unfold FrobeniusValue
  rw [h]; rfl

/-! ## The claims -/

/-- C1: on a list of at least three integers, each at least `2`, whose
greatest common divisor is `1`, `FrobeniusNumber` returns (with enough fuel
for its recursions and its `while` loop) the Frobenius number of the list:
the returned value is not a non-negative integer combination of the elements,
and every greater integer is one. -/
theorem frobeniusNumber_three_or_more (L : List Int) (hlen : 3 ≤ L.length)
    (h2 : ∀ x ∈ L, 2 ≤ x) (hg : listGcd L = 1) (fuel : Nat)
    (hfuel : L.length + (L.map Int.natAbs).sum ≤ fuel) :
    ∃ F, FrobeniusValue fuel L = some F ∧ ¬ Representable L F ∧
      ∀ n, F < n → Representable L n := by
  obtain ⟨F, hF, h1, h3⟩ := FrobeniusNumber_pos L (by omega)
    (fun x hx => by have := h2 x hx; omega) hg fuel hfuel
  exact ⟨F, FrobeniusValue_eq hF, h1, h3⟩

/-- The list `[6, 9, 20]` gives `43`, which is its Frobenius number. -/
theorem frobeniusNumber_three_or_more_witness :
    FrobeniusValue 38 [6, 9, 20] = some 43 ∧
      ∃ F, FrobeniusValue 38 [6, 9, 20] = some F ∧ ¬ Representable [6, 9, 20] F ∧
        ∀ n, F < n → Representable [6, 9, 20] n :=
  ⟨by decide, frobeniusNumber_three_or_more [6, 9, 20] (by decide) (by decide) (by decide) 38
    (by decide)⟩

/-- C3, as the specification states it, fails: on `[5, 7, 11]` the solver
returns `13`, not `23` (indeed `23 = 5 + 7 + 11`). -/
theorem frobeniusNumber_5_7_11_ne_23 :
    FrobeniusValue 26 [5, 7, 11] = some 13 ∧ FrobeniusValue 26 [5, 7, 11] ≠ some 23 := by
  decide

/-- C3, amended: `FrobeniusNumber` applied to the list `[5, 7, 11]` returns
`13`. -/
theorem frobeniusNumber_5_7_11 (fuel : Nat) (hfuel : 26 ≤ fuel) :
    FrobeniusValue fuel [5, 7, 11] = some 13 := by
  obtain ⟨F, hF, h1, h3⟩ := FrobeniusNumber_pos [5, 7, 11] (by decide) (by decide) (by decide)
    fuel (by simpa using hfuel)
  have h13 : ¬ Representable [5, 7, 11] 13 := by
    rintro ⟨k, j, l, h⟩
    have h0 : (13 : Int) - k * 5 - j * 7 - l * 11 = 0 := h
    have hl : l ≤ 1 := by omega
    have hj : j ≤ 1 := by omega
    interval_cases l <;> interval_cases j <;> omega
  have hbig : ∀ n : Int, 14 ≤ n → Representable [5, 7, 11] n := by
    intro n hn
    have mk : ∀ k j l : Int, 0 ≤ k → 0 ≤ j → 0 ≤ l → n = k * 5 + j * 7 + l * 11 →
        Representable [5, 7, 11] n := by
      intro k j l hk hj hl h
      refine ⟨k.toNat, j.toNat, l.toNat, ?_⟩
      show n - k.toNat * 5 - j.toNat * 7 - l.toNat * 11 = 0
      rw [Int.toNat_of_nonneg hk, Int.toNat_of_nonneg hj, Int.toNat_of_nonneg hl]
      omega
    rcases (show n % 5 = 0 ∨ n % 5 = 1 ∨ n % 5 = 2 ∨ n % 5 = 3 ∨ n % 5 = 4 by omega) with
      h | h | h | h | h
    · exact mk (n / 5) 0 0 (by omega) le_rfl le_rfl (by omega)
    · exact mk ((n - 11) / 5) 0 1 (by omega) le_rfl (by omega) (by omega)
    · exact mk ((n - 7) / 5) 1 0 (by omega) (by omega) le_rfl (by omega)
    · exact mk ((n - 18) / 5) 1 1 (by omega) (by omega) (by omega) (by omega)
    · exact mk ((n - 14) / 5) 2 0 (by omega) (by omega) le_rfl (by omega)
  have hF13 : F = 13 := by
    have hle : F ≤ 13 := by
      by_contra hc
      exact h1 (hbig F (by omega))
    have hge : 13 ≤ F := by
      by_contra hc
      exact h13 (h3 13 (by omega))
    omega
  rw [FrobeniusValue_eq hF, hF13]

/-- The amended C3 at the least fuel of its statement. -/
theorem frobeniusNumber_5_7_11_witness : FrobeniusValue 26 [5, 7, 11] = some 13 :=
  frobeniusNumber_5_7_11 26 (by decide)

/-- C4: on a list of at least two integers whose greatest common divisor is
not `1` the gate `CommonGCD(...) == Type(1)` fails, so that the block of the
residue table is not entered, and `FrobeniusNumber` returns the value of
`std::numeric_limits<Type>::infinity()` of line 121, the list untouched. -/
theorem frobeniusNumber_not_coprime (L : List Int) (hlen : 2 ≤ L.length)
    (hg : listGcd L ≠ 1) (fuel : Nat) (hfuel : L.length + (L.map Int.natAbs).sum ≤ fuel) :
    (∃ c, CommonGCD L fuel 0 ((L.length : Int) - 1) = some c ∧ c ≠ 1) ∧
      FrobeniusNumber fuel L = some (infinity, L) := by
  obtain ⟨c, hc, hc1, _⟩ := CommonGCD_all L hlen fuel hfuel
  have hne : c ≠ 1 := by
    rintro rfl
    exact hg hc1.symm
  exact ⟨⟨c, hc, hne⟩, FrobeniusNumber_fail hc hne⟩

/-- The list `[2, 4, 6]` is sent to the sentinel. -/
theorem frobeniusNumber_not_coprime_witness :
    (∃ c, CommonGCD [2, 4, 6] 15 0 (([2, 4, 6] : List Int).length - 1) = some c ∧ c ≠ 1) ∧
      FrobeniusNumber 15 [2, 4, 6] = some (infinity, [2, 4, 6]) :=
  frobeniusNumber_not_coprime [2, 4, 6] (by decide) (by decide) 15 (by decide)

/-- C6: on a list of at least two positive integers whose least element is
`1`, `FrobeniusNumber` returns `-1`. -/
theorem frobeniusNumber_with_one (L : List Int) (hlen : 2 ≤ L.length)
    (hpos : ∀ x ∈ L, 0 < x) (h1 : (1 : Int) ∈ L) (fuel : Nat)
    (hfuel : L.length + (L.map Int.natAbs).sum ≤ fuel) :
    FrobeniusValue fuel L = some (-1) := by
  obtain ⟨c, hc, _, hc1⟩ := CommonGCD_all L hlen fuel hfuel
  have hg : listGcd L = 1 := by
    have := listGcd_dvd L 1 h1
    exact Nat.eq_one_of_dvd_one (Int.natCast_dvd_natCast.mp (by simpa using this))
  have hc2 : c = 1 := by rw [hc1 (fun x hx => (hpos x hx).le), hg]; rfl
  subst hc2
  obtain ⟨m0, gs, hs⟩ := sort_cons_of_length (L := L) (by omega)
  obtain ⟨hm0L, hmin, _, _⟩ := sort_head hs
  have hm0 : m0 = 1 := by
    have := hmin 1 h1
    have := hpos m0 hm0L
    omega
  subst hm0
  exact FrobeniusValue_eq (FrobeniusNumber_one hc hs)

/-- The lists `[1, 5]` and `[5, 1]` give `-1`. -/
theorem frobeniusNumber_with_one_witness :
    FrobeniusValue 8 [1, 5] = some (-1) ∧ FrobeniusValue 8 [5, 1] = some (-1) :=
  ⟨frobeniusNumber_with_one [1, 5] (by decide) (by decide) (by decide) 8 (by decide),
    frobeniusNumber_with_one [5, 1] (by decide) (by decide) (by decide) 8 (by decide)⟩

/-- C10: on a list of at least two non-negative integers the call of the
solver, `CommonGCD(begin, end - 1)`, returns the greatest common divisor of
all elements of the list: it divides every element, and every common divisor
of the elements divides it. -/
theorem CommonGCD_correct (L : List Int) (hlen : 2 ≤ L.length) (hnn : ∀ x ∈ L, 0 ≤ x)
    (fuel : Nat) (hfuel : L.length + (L.map Int.natAbs).sum ≤ fuel) :
    CommonGCD L fuel 0 ((L.length : Int) - 1) = some (listGcd L : Int) ∧
      (∀ x ∈ L, (listGcd L : Int) ∣ x) ∧
      ∀ c : Int, (∀ x ∈ L, c ∣ x) → c ∣ (listGcd L : Int) := by
  obtain ⟨c, hc, _, hc1⟩ := CommonGCD_all L hlen fuel hfuel
  rw [hc1 hnn] at hc
  exact ⟨hc, listGcd_dvd L, dvd_listGcd L⟩

/-- The list `[12, 18, 30, 42, 54]`, whose greatest common divisor is `6`. -/
theorem CommonGCD_correct_witness :
    CommonGCD [12, 18, 30, 42, 54] 161 0 (([12, 18, 30, 42, 54] : List Int).length - 1)
        = some (listGcd [12, 18, 30, 42, 54] : Int) ∧
      (∀ x ∈ ([12, 18, 30, 42, 54] : List Int), (listGcd [12, 18, 30, 42, 54] : Int) ∣ x) ∧
      ∀ c : Int, (∀ x ∈ ([12, 18, 30, 42, 54] : List Int), c ∣ x) →
        c ∣ (listGcd [12, 18, 30, 42, 54] : Int) :=
  CommonGCD_correct [12, 18, 30, 42, 54] (by decide) (by decide) 161 (by decide)

/-! ## The fold of the specification, and the order of the operands -/

/-- With more fuel than the absolute value of every element, the fold over
`GCD` answers, with a greatest common divisor, up to sign, of the accumulator
and the elements. -/
theorem foldGCD_spec (fuel : Nat) : ∀ (xs : List Int) (acc : Int),
    (∀ x ∈ xs, x.natAbs < fuel) →
    ∃ r, foldGCD fuel acc xs = some r ∧ r.natAbs = Int.gcd acc (listGcd xs) ∧
      (0 ≤ acc → (∀ x ∈ xs, 0 ≤ x) → 0 ≤ r) := by
  intro xs
  induction xs with
  | nil =>
    intro acc _
    exact ⟨acc, rfl, by simp [listGcd], fun h _ => h⟩
  | cons x xs ih =>
    intro acc hf
    obtain ⟨a, ha, ha2, ha3⟩ := GCD_spec fuel acc x (hf x (List.mem_cons_self _ _))
    obtain ⟨r, hr, hr2, hr3⟩ := ih a fun y hy => hf y (List.mem_cons_of_mem _ hy)
    refine ⟨r, by simp [foldGCD, ha, hr], ?_, fun h0 hx =>
      hr3 (ha3 h0 (hx x (List.mem_cons_self _ _))) fun y hy => hx y (List.mem_cons_of_mem _ hy)⟩
    have hl : listGcd (x :: xs) = Int.gcd x (listGcd xs) := rfl
    rw [hr2, hl, Int.gcd_def a, ha2, Int.gcd_def acc x, Int.gcd_def x, Int.gcd_def acc,
      Int.natAbs_ofNat, Int.natAbs_ofNat, Nat.gcd_assoc]

theorem leftFoldGCD_spec (fuel : Nat) (L : List Int) (hlen : 1 ≤ L.length)
    (hfuel : L.length + (L.map Int.natAbs).sum ≤ fuel) :
    ∃ r, leftFoldGCD fuel L = some r ∧ r.natAbs = listGcd L ∧
      ((∀ x ∈ L, 0 ≤ x) → r = listGcd L) := by
  match L, hlen with
  | x0 :: xs, _ =>
    obtain ⟨r, hr, hr2, hr3⟩ := foldGCD_spec fuel xs x0 fun x hx =>
      natAbs_lt_fuel (L := x0 :: xs) (by simp) hfuel (List.mem_cons_of_mem _ hx)
    refine ⟨r, hr, hr2, fun h => ?_⟩
    have h0 := hr3 (h x0 (List.mem_cons_self _ _)) fun y hy => h y (List.mem_cons_of_mem _ hy)
    have hl : listGcd (x0 :: xs) = Int.gcd x0 (listGcd xs) := rfl
    rw [hl, ← hr2, Int.natAbs_of_nonneg h0]

/-- The greatest common divisor of a list does not depend on the order. -/
theorem listGcd_perm {L1 L2 : List Int} (hp : L1.Perm L2) : listGcd L1 = listGcd L2 := by
  apply Nat.dvd_antisymm
  · exact Int.natCast_dvd_natCast.mp
      (dvd_listGcd L2 _ fun x hx => listGcd_dvd L1 x (hp.mem_iff.mpr hx))
  · exact Int.natCast_dvd_natCast.mp
      (dvd_listGcd L1 _ fun x hx => listGcd_dvd L2 x (hp.mem_iff.mp hx))

theorem fuel_perm {L1 L2 : List Int} (hp : L1.Perm L2) :
    L2.length + (L2.map Int.natAbs).sum = L1.length + (L1.map Int.natAbs).sum := by
  rw [hp.length_eq, (hp.map Int.natAbs).sum_eq]

/-- On one element the recursion of `CommonGCD` does not end: `size` is `0`,
`h` is `0`, and the first inner call is the call itself. -/
theorem CommonGCD_single (x : Int) : ∀ fuel : Nat, CommonGCD [x] fuel 0 0 = none := by
  intro fuel
  induction fuel with
  | zero => rfl
  | succ n ih =>
    unfold CommonGCD
    simp only []
    rw [if_neg (by decide)]
    have h0 : (0 : Int) + Int.tdiv (0 - 0) 2 = 0 := by decide
    rw [h0, ih]
    rfl

/-! ## The claims on the utilities -/

/-- C13 fails on the code: on a vector of one element `x` the call
`CommonGCD(begin, end - 1)` has `size == 0` and recurses on itself, so that it
yields no value whatever the fuel, and `FrobeniusNumber` does not get past
its gate. -/
theorem commonGCD_single_no_value (x : Int) (fuel : Nat) :
    CommonGCD [x] fuel 0 (([x] : List Int).length - 1) = none ∧
      FrobeniusNumber fuel [x] = none := by
  have h : CommonGCD [x] fuel 0 (([x] : List Int).length - 1) = none := CommonGCD_single x fuel
  refine ⟨h, ?_⟩
  unfold FrobeniusNumber
  rw [h]
  rfl

/-! ## The history of the table -/

theorem Steps.append {R : List Int → List Int → Prop} :
    ∀ (H1 H2 : List (List Int)) (A B C : List Int), Steps R A H1 B → Steps R B H2 C →
      Steps R A (H1 ++ H2) C := by
  intro H1
  induction H1 with
  | nil =>
    intro H2 A B C h1 h2
    have : A = B := h1
    subst this
    exact h2
  | cons X H1 ih =>
    intro H2 A B C h1 h2
    exact ⟨h1.1, ih H2 X B C h1.2 h2⟩

/-- Each write of the `jdx` loop keeps `array[0] = 0` and worsens no entry;
the history `relaxH` ends in the table `relax` returns. -/
theorem relaxH_spec {m g : Int} (hm : 0 < m) (hg : 0 < g) :
    ∀ (k : Nat) (n : Int) (A : List Int), Tab m A → 0 ≤ n →
      ∃ H A1, relax m g k n A = some A1 ∧ relaxH m g k n A = some H ∧
        Steps WriteOk A H A1 ∧ Tab m A1 := by
  intro k
  induction k with
  | zero => intro n A hT _; exact ⟨[], A, rfl, rfl, rfl, hT⟩
  | succ k ih =>
    intro n A hT hn
    obtain ⟨hlen, h00, hge⟩ := hT
    have hn1 : 0 ≤ n + g := by omega
    have hp : Int.tmod (n + g) m = (n + g) % m := Int.tmod_eq_emod hn1 hm.le
    have hp0 : 0 ≤ (n + g) % m := Int.emod_nonneg _ (by omega)
    have hpm : (n + g) % m < m := Int.emod_lt_of_pos _ hm
    have hrd : rd A ((n + g) % m) = some (ent A ((n + g) % m)) :=
      rd_ent hp0 (by rw [hlen]; exact hpm)
    obtain ⟨n2, hn2⟩ : ∃ n2, n2 = if ent A ((n + g) % m) ≠ -1 ∧
        (ent A ((n + g) % m) < n + g ∨ n + g = -1) then ent A ((n + g) % m) else n + g :=
      ⟨_, rfl⟩
    obtain ⟨A1, hwr, hlen1, hent1⟩ := wr_spec (A := A) n2 hp0 (by rw [hlen]; exact hpm)
    have hgep := hge _ hp0
    have hn2ge : 0 ≤ n2 := by
      rw [hn2]
      split_ifs with h
      · omega
      · exact hn1
    have hn2le : ent A ((n + g) % m) ≠ -1 → n2 ≤ ent A ((n + g) % m) := by
      intro h
      rw [hn2]
      split_ifs with h1
      · exact le_rfl
      · have : ¬ (ent A ((n + g) % m) < n + g) := fun hc => h1 ⟨h, Or.inl hc⟩
        omega
    have h01 : ent A1 0 = 0 := by
      rw [hent1 0 le_rfl]
      split_ifs with h0
      · rw [hn2, ← h0, h00, if_pos ⟨by omega, Or.inl (by omega)⟩]
      · exact h00
    have hT1 : Tab m A1 := by
      refine ⟨by rw [hlen1]; exact hlen, h01, ?_⟩
      intro q hq
      rw [hent1 q hq]
      split_ifs
      · omega
      · exact hge q hq
    have hW : WriteOk A A1 := by
      refine ⟨hlen1, h01, ?_⟩
      intro q hq hne
      rw [hent1 q hq]
      split_ifs with h
      · subst h
        exact ⟨by omega, hn2le hne⟩
      · exact ⟨hne, le_rfl⟩
    obtain ⟨H, A2, hrun, hrunH, hsteps, hT2⟩ := ih n2 A1 hT1 hn2ge
    refine ⟨A1 :: H, A2, ?_, ?_, ⟨hW, hsteps⟩, hT2⟩
    · simp only [relax, hp, hrd, Option.some_bind]
      rw [← hn2, hwr, Option.some_bind, hrun]
    · simp only [relaxH, hp, hrd, Option.some_bind]
      rw [← hn2, hwr, Option.some_bind, hrunH, Option.some_bind]

/-- The history of one residue class. -/
theorem classStepH_spec {m g d r : Int} {fuel : Nat} {A : List Int} (hm : 0 < m) (hg : 0 < g)
    (hT : Tab m A) (hr : 0 ≤ r) (hrd : r < d) (hfuel : m.toNat < fuel) :
    ∃ H A1, classStep fuel m g d A r = some A1 ∧ classStepH fuel m g d A r = some H ∧
      Steps WriteOk A H A1 ∧ Tab m A1 := by
  have hphase : ∃ n, (if r = 0 then some 0 else scan A m d fuel r (-1)) = some n ∧
      (n = -1 ∨ 0 ≤ n) := by
    by_cases h0 : r = 0
    · exact ⟨0, by rw [if_pos h0], Or.inr le_rfl⟩
    · rw [if_neg h0]
      obtain ⟨n, hn, hI⟩ := scan_spec hT.1 (show 0 < d by omega) hr fuel r (-1) le_rfl
        (Int.emod_eq_of_lt hr hrd) (by omega) (Or.inl ⟨rfl, by
          intro q1 h1 h2 _ h3
          rw [Int.emod_eq_of_lt h1 (by omega)] at h3
          omega⟩)
      refine ⟨n, hn, ?_⟩
      rcases hI with ⟨h, _⟩ | ⟨h, ⟨q1, hq0, _, _, _, hq⟩, _⟩
      · exact Or.inl h
      · have := hT.2.2 q1 hq0
        rw [hq] at this
        exact Or.inr (by omega)
  obtain ⟨n, hn, hn1⟩ := hphase
  unfold classStep classStepH
  rw [hn, Option.some_bind, Option.some_bind]
  by_cases hne : n ≠ -1
  · rw [if_pos hne, if_pos hne]
    exact relaxH_spec hm hg _ n A hT (by omega)
  · rw [if_neg hne, if_neg hne]
    exact ⟨[], A, rfl, rfl, rfl, hT⟩

/-- The history of the `r` loop. -/
theorem forRH_spec {m g d : Int} {fuel : Nat} (hm : 0 < m) (hg : 0 < g)
    (hfuel : m.toNat < fuel) :
    ∀ (k : Nat) (r : Int) (A : List Int), 0 ≤ r → r + k = d → Tab m A →
      ∃ H A1, forR fuel m g d k r A = some A1 ∧ forRH fuel m g d k r A = some H ∧
        Steps WriteOk A H A1 ∧ Tab m A1 := by
  intro k
  induction k with
  | zero => intro r A _ _ hT; exact ⟨[], A, rfl, rfl, rfl, hT⟩
  | succ k ih =>
    intro r A hr hrk hT
    push_cast at hrk
    obtain ⟨H1, A1, hstep, hstepH, hs1, hT1⟩ :=
      classStepH_spec (d := d) hm hg hT hr (by omega) hfuel
    obtain ⟨H2, A2, hrun, hrunH, hs2, hT2⟩ := ih (r + 1) A1 (by omega) (by omega) hT1
    refine ⟨H1 ++ H2, A2, ?_, ?_, Steps.append H1 H2 A A1 A2 hs1 hs2, hT2⟩
    · unfold forR
      rw [hstep, Option.some_bind, hrun]
    · unfold forRH
      rw [hstepH, Option.some_bind, hstep, Option.some_bind, hrunH, Option.some_bind]

/-- The history of the generator loop. -/
theorem forIdxH_spec {m : Int} {fuel : Nat} (hm : 0 < m) (hfuel : m.toNat < fuel) :
    ∀ (gs A : List Int), (∀ g ∈ gs, 0 < g) → (∀ g ∈ gs, g.natAbs < fuel) → Tab m A →
      ∃ H A1, forIdx fuel m gs A = some A1 ∧ forIdxH fuel m gs A = some H ∧
        Steps WriteOk A H A1 ∧ Tab m A1 := by
  intro gs
  induction gs with
  | nil => intro A _ _ hT; exact ⟨[], A, rfl, rfl, rfl, hT⟩
  | cons g gs ih =>
    intro A hpos hf hT
    have hg : 0 < g := hpos g (List.mem_cons_self _ _)
    have hgcd := GCD_nonneg fuel m g hm.le hg.le (hf g (List.mem_cons_self _ _))
    obtain ⟨H1, A1, hrun1, hrunH1, hs1, hT1⟩ := forRH_spec (d := (Int.gcd m g : Int)) hm hg hfuel
      (Int.gcd m g : Int).toNat 0 A le_rfl (by simp) hT
    obtain ⟨H2, A2, hrun2, hrunH2, hs2, hT2⟩ := ih A1
      (fun x hx => hpos x (List.mem_cons_of_mem _ hx))
      (fun x hx => hf x (List.mem_cons_of_mem _ hx)) hT1
    refine ⟨H1 ++ H2, A2, ?_, ?_, Steps.append H1 H2 A A1 A2 hs1 hs2, hT2⟩
    · unfold forIdx
      rw [hgcd, Option.some_bind, hrun1, Option.some_bind, hrun2]
    · unfold forIdxH
      rw [hgcd, Option.some_bind, hrunH1, Option.some_bind, hrun1, Option.some_bind, hrunH2,
        Option.some_bind]

/-! ## The solver on every vector of at least two elements -/

/-- Past a passed gate the solver returns, and leaves the vector sorted. -/
theorem FrobeniusNumber_passed (L : List Int) (hlen : 2 ≤ L.length) (fuel : Nat)
    (hfuel : L.length + (L.map Int.natAbs).sum ≤ fuel)
    (hc : CommonGCD L fuel 0 ((L.length : Int) - 1) = some 1) :
    ∃ F, FrobeniusNumber fuel L = some (F, sort L) := by
  have hg : listGcd L = 1 := by
    obtain ⟨c, hc1, hc2, _⟩ := CommonGCD_all L hlen fuel hfuel
    rw [hc] at hc1
    cases hc1
    exact hc2.symm
  obtain ⟨m0, gs, hs⟩ := sort_cons_of_length (L := L) (by omega)
  obtain ⟨_, hmin, _, hgslen⟩ := sort_head hs
  by_cases h0 : m0 ≤ 0
  · exact ⟨_, FrobeniusNumber_nonpos hc hs h0⟩
  · by_cases h1 : m0 = 1
    · subst h1
      exact ⟨_, FrobeniusNumber_one hc hs⟩
    · have hm2 : 2 ≤ m0 := by omega
      by_cases hl : L.length = 2
      · obtain ⟨b, rfl⟩ : ∃ b, gs = [b] := by
          match gs, hgslen with
          | [b], _ => exact ⟨b, rfl⟩
          | [], h => simp at h; omega
          | _ :: _ :: _, h => simp at h; omega
        exact ⟨_, FrobeniusNumber_two hc hs hm2⟩
      · obtain ⟨m1, gs1, A0, A, M, _, _, _, _, _, _, _, _, _, hrun, _, _⟩ :=
          FrobeniusNumber_table L (by omega) (fun x hx => le_trans hm2 (hmin x hx)) hg fuel hfuel
        exact ⟨_, hrun⟩

/-- A vector with an element `<= 0` is sent to the sentinel. -/
theorem FrobeniusValue_of_nonpos (L : List Int) (hlen : 2 ≤ L.length) (x : Int)
    (hx : x ∈ L) (hx0 : x ≤ 0) (fuel : Nat)
    (hfuel : L.length + (L.map Int.natAbs).sum ≤ fuel) :
    FrobeniusValue fuel L = some infinity := by
  obtain ⟨c, hc, _, _⟩ := CommonGCD_all L hlen fuel hfuel
  by_cases h1 : c = 1
  · subst h1
    obtain ⟨m0, gs, hs⟩ := sort_cons_of_length (L := L) (by omega)
    obtain ⟨_, hmin, _, _⟩ := sort_head hs
    exact FrobeniusValue_eq (FrobeniusNumber_nonpos hc hs (le_trans (hmin x hx) hx0))
  · exact FrobeniusValue_eq (FrobeniusNumber_fail hc h1)

/-- A list has at most one Frobenius number. -/
theorem frobenius_unique {L : List Int} {F F1 : Int}
    (h1 : ¬ Representable L F) (h2 : ∀ n, F < n → Representable L n)
    (h3 : ¬ Representable L F1) (h4 : ∀ n, F1 < n → Representable L n) : F = F1 := by
  rcases lt_trichotomy F F1 with h | h | h
  · exact absurd (h2 F1 h) h3
  · exact h
  · exact absurd (h4 F h) h1

/-- The scan of lines 114-118 ends in `-1` when the last entry is
unreached. -/
theorem maxLoop_last {m : Int} {A : List Int} (hlen : (A.length : Int) = m)
    (hlast : ent A (m - 1) = -1) :
    ∀ (k : Nat) (idx mx : Int), 1 ≤ k → 0 ≤ idx → idx + k = m →
      maxLoop A k idx mx = some (-1) := by
  intro k
  induction k with
  | zero => intro idx mx h; omega
  | succ k ih =>
    intro idx mx _ hidx hk
    push_cast at hk
    unfold maxLoop
    rw [rd_ent hidx (by omega), Option.some_bind]
    rcases Nat.eq_zero_or_pos k with h0 | h0
    · subst h0
      have : idx = m - 1 := by simp at hk; omega
      rw [this, hlast, if_pos (Or.inl rfl)]
      rfl
    · exact ih (idx + 1) _ h0 (by omega) (by omega)

/-- The last step of the solver is `finalStep` on the table the generator
loop leaves. -/
theorem FrobeniusNumber_finalStep {L : List Int} {fuel : Nat} {m0 : Int} {gs A0 A : List Int}
    (hc : CommonGCD L fuel 0 ((L.length : Int) - 1) = some 1) (hs : sort L = m0 :: gs)
    (hm : 2 ≤ m0) (hl : gs.length ≠ 1)
    (hA0 : wr (List.replicate m0.toNat (-1)) 0 0 = some A0)
    (hA : forIdx fuel m0 gs A0 = some A) :
    FrobeniusNumber fuel L = (finalStep m0 A).bind fun v => some (v, sort L) := by
  unfold FrobeniusNumber finalStep
  rw [hc, Option.some_bind, if_pos rfl]
  simp only [hs]
  have hrd0 : rd (m0 :: gs) 0 = some m0 := by simp [rd]
  have hlen2 : (m0 :: gs).length ≠ 2 := by simpa using hl
  rw [hrd0, Option.some_bind, if_neg (by omega), if_neg (by omega), if_neg hlen2, hA0,
    Option.some_bind, List.tail_cons, hA, Option.some_bind]
  cases maxLoop A m0.toNat 0 0 <;> rfl

/-! ## The claims on the solver's table, its vector and its order -/

/-- C19, as the specification states it, fails: on the table `[0, -1, 5]`
the final step returns `5 - 3 = 2`, and on the table `[0, -1]` it returns
`-1`; neither is the value of `infinity()`. -/
theorem finalStep_not_sentinel :
    finalStep 3 [0, -1, 5] = some 2 ∧ (2 : Int) ≠ infinity ∧
      finalStep 2 [0, -1] = some (-1) ∧ (-1 : Int) ≠ infinity := by
  decide

/-- C19, amended: on a residue table of length `m0 >= 2` whose last entry
`array[m0 - 1]` is the unreached marker `-1`, the final step (lines 113-119)
returns `-1`, the unreached marker itself, which is not the value of
`infinity()`. -/
theorem finalStep_last_unreached (m0 : Int) (A : List Int) (hm : 2 ≤ m0)
    (hlen : (A.length : Int) = m0) (hlast : ent A (m0 - 1) = -1) :
    finalStep m0 A = some (-1) ∧ (-1 : Int) ≠ infinity := by
  refine ⟨?_, by decide⟩
  unfold finalStep
  rw [maxLoop_last hlen hlast m0.toNat 0 0 (by omega) le_rfl (by omega), Option.some_bind,
    if_pos rfl]

/-- The tables `[0, -1]` and `[0, 5, -1]`. -/
theorem finalStep_last_unreached_witness :
    (finalStep 2 [0, -1] = some (-1) ∧ (-1 : Int) ≠ infinity) ∧
      (finalStep 3 [0, 5, -1] = some (-1) ∧ (-1 : Int) ≠ infinity) :=
  ⟨finalStep_last_unreached 2 [0, -1] (by decide) (by decide) (by decide),
    finalStep_last_unreached 3 [0, 5, -1] (by decide) (by decide) (by decide)⟩

/-! ## The machine model: arithmetic and `GCD` -/

theorem wrap_eq {T x : Int} (h0 : -T ≤ x) (h1 : x < T) : wrap T x = x := by
  unfold wrap
  rw [Int.emod_eq_of_lt (by omega) (by omega)]
  omega

theorem wrap_range {T : Int} (hT : 0 < T) (x : Int) : InRange T (wrap T x) := by
  unfold wrap InRange
  have h1 := Int.emod_nonneg (x + T) (show 2 * T ≠ 0 by omega)
  have h2 := Int.emod_lt_of_pos (x + T) (show 0 < 2 * T by omega)
  constructor <;> omega

theorem wrap_dvd (T x : Int) : 2 * T ∣ wrap T x - x := by
  unfold wrap
  refine ⟨-((x + T) / (2 * T)), ?_⟩
  have := Int.emod_add_ediv (x + T) (2 * T)
  linear_combination this

theorem remW_eq {T a b : Int} (hb : b ≠ 0) (h : ¬ (a = -T ∧ b = -1)) :
    remW T a b = Res.val (Int.tmod a b) := by
  unfold remW
  rw [if_neg]
  rintro (h1 | h1)
  · exact hb h1
  · exact h h1

theorem divW_eq {T a b : Int} (hb : b ≠ 0) (h : ¬ (a = -T ∧ b = -1)) :
    divW T a b = Res.val (Int.tdiv a b) := by
  unfold divW
  rw [if_neg]
  rintro (h1 | h1)
  · exact hb h1
  · exact h h1

/-- The recursive call of `GCD` on a safe pair is on a safe pair. -/
theorem SafePair.step {T a b : Int} (hT : 0 < T) (h : SafePair T a b) (hb : b ≠ 0) :
    SafePair T b (Int.tmod a b) := by
  obtain ⟨ha, hbr, h1, h2⟩ := h
  unfold InRange at ha hbr
  have hlt : (Int.tmod a b).natAbs < b.natAbs := by
    rw [natAbs_tmod]; exact Nat.mod_lt _ (by omega)
  refine ⟨hbr, ⟨by omega, by omega⟩, ?_, ?_⟩
  · rintro ⟨rfl, h3⟩
    by_cases ha0 : 0 ≤ a
    · have := Int.tmod_nonneg (-T) ha0
      omega
    · by_cases haT : a = -T
      · rw [haT, Int.tmod_self] at h3
        omega
      · have hm : (Int.tmod a (-T)).natAbs = a.natAbs % (-T).natAbs := natAbs_tmod a (-T)
        have hlt2 : a.natAbs < (-T).natAbs := by omega
        rw [Nat.mod_eq_of_lt hlt2, h3] at hm
        have : a = -1 := by
          have h5 : a.natAbs = 1 := by simpa using hm.symm
          omega
        exact h2 ⟨this, rfl⟩
  · rintro ⟨rfl, h3⟩
    rw [h3] at hlt
    simp at hlt
    omega

/-- On a safe pair the machine `GCD` returns what the exact one returns. -/
theorem GCDW_eq {T : Int} (hT : 0 < T) : ∀ (fuel : Nat) (a b r : Int), SafePair T a b →
    GCD fuel a b = some r → GCDW T fuel a b = Res.val r := by
  intro fuel
  induction fuel with
  | zero => intro a b r _ h; simp [GCD] at h
  | succ n ih =>
    intro a b r hs h
    unfold GCD at h
    unfold GCDW
    by_cases hb : b = 0
    · rw [if_pos hb] at h ⊢
      cases h
      rfl
    · rw [if_neg hb] at h ⊢
      rw [remW_eq hb hs.2.2.1]
      exact ih _ _ _ (hs.step hT hb) h

theorem SafePair.of_natAbs {T a b : Int} {B : Nat} (hBT : (B : Int) < T)
    (ha : a.natAbs ≤ B) (hb : b.natAbs ≤ B) : SafePair T a b := by
  unfold SafePair InRange
  refine ⟨⟨by omega, by omega⟩, ⟨by omega, by omega⟩, ?_, ?_⟩
  · rintro ⟨rfl, _⟩; omega
  · rintro ⟨_, rfl⟩; omega

/-- On a vector without the least value of `Type` the machine `CommonGCD`
returns what the exact one returns. -/
theorem CommonGCDW_eq {T : Int} (hT : 0 < T) (v : List Int) (B : Nat)
    (hB : ∀ x ∈ v, x.natAbs ≤ B) (hBT : (B : Int) < T) :
    ∀ (n : Nat) (first last : Int), 0 ≤ first → last < v.length → 1 ≤ last - first →
      (last - first).toNat + B < n →
      ∃ r, CommonGCD v n first last = some r ∧ CommonGCDW T v n first last = Res.val r ∧
        r.natAbs ≤ B := by
  intro n
  induction n with
  | zero => intro first last _ _ _ h; omega
  | succ n ih =>
    intro first last h0 h1 hs hn
    unfold CommonGCD CommonGCDW
    simp only []
    by_cases hsz : last - first = 1
    · rw [if_pos hsz, if_pos hsz]
      obtain ⟨a, ha, ham⟩ := rd_of_lt h0 (show first < v.length by omega)
      obtain ⟨b, hb, hbm⟩ := rd_of_lt (show 0 ≤ last by omega) h1
      obtain ⟨r, hr, hr2, _⟩ := GCD_spec (n + 1) a b (by have := hB b hbm; omega)
      refine ⟨r, by simp [ha, hb, hr], ?_, ?_⟩
      · rw [ha, hb]
        exact GCDW_eq hT _ _ _ _ (SafePair.of_natAbs hBT (hB a ham) (hB b hbm)) hr
      · rw [hr2]; exact gcd_le_of_le a b B (hB a ham) (hB b hbm)
    · rw [if_neg hsz, if_neg hsz]
      have hh : Int.tdiv (last - first) 2 = (last - first) / 2 :=
        Int.tdiv_eq_ediv (by omega) (by omega)
      rw [hh]
      obtain ⟨a, ha, haW, haB⟩ := ih first (first + (last - first) / 2) h0
        (by omega) (by omega) (by omega)
      obtain ⟨b, hb, hbW, hbB⟩ := ih (first + (last - first) / 2) last (by omega) h1
        (by omega) (by omega)
      obtain ⟨r, hr, hr2, _⟩ := GCD_spec (n + 1) a b (by omega)
      refine ⟨r, by simp [ha, hb, hr], ?_, ?_⟩
      · rw [haW, hbW]
        exact GCDW_eq hT _ _ _ _ (SafePair.of_natAbs hBT haB hbB) hr
      · rw [hr2]; exact gcd_le_of_le a b B haB hbB

/-- The largest absolute value in a list, as a bound. -/
theorem NoMin.bound {T : Int} {L : List Int} (h : NoMin T L) :
    ∀ x ∈ L, x.natAbs ≤ (T - 1).toNat := by
  intro x hx
  have := h x hx
  omega

/-- The gate of the solver in the machine model, on a vector of at least two
values of `Type` other than the least: it returns what the exact gate
returns. -/
theorem CommonGCDW_all {T : Int} (hT : 0 < T) (L : List Int) (hlen : 2 ≤ L.length)
    (hL : NoMin T L) (fuel : Nat) (hfuel : L.length + (L.map Int.natAbs).sum ≤ fuel) :
    ∃ r, CommonGCD L fuel 0 ((L.length : Int) - 1) = some r ∧
      CommonGCDW T L fuel 0 ((L.length : Int) - 1) = Res.val r ∧
      r.natAbs = listGcd L ∧ ((∀ x ∈ L, 0 ≤ x) → r = listGcd L) := by
  obtain ⟨r, hr, hr2, hr3⟩ := CommonGCD_all L hlen fuel hfuel
  have hsub : ∀ (l : List Int), (∀ x ∈ l, x ∈ L) →
      ∀ x ∈ l, x.natAbs ≤ (T - 1).toNat := fun l hl x hx => hL.bound x (hl x hx)
  obtain ⟨B, hB, hBT, hBs⟩ : ∃ B : Nat, (∀ x ∈ L, x.natAbs ≤ B) ∧ (B : Int) < T ∧
      B ≤ (L.map Int.natAbs).sum := by
    refine ⟨min (T - 1).toNat (L.map Int.natAbs).sum, fun x hx => ?_, ?_, Nat.min_le_right _ _⟩
    · exact Nat.le_min.mpr ⟨hL.bound x hx, natAbs_le_sum L x hx⟩
    · have : (min (T - 1).toNat (L.map Int.natAbs).sum : Nat) ≤ (T - 1).toNat :=
        Nat.min_le_left _ _
      omega
  obtain ⟨r1, hr1, hr1W, _⟩ := CommonGCDW_eq hT L B hB hBT fuel 0 ((L.length : Int) - 1)
    le_rfl (by omega) (by omega) (by omega)
  rw [hr] at hr1
  cases hr1
  exact ⟨r, hr, hr1W, hr2, hr3⟩

/-- The fold of the specification in the machine model returns what the
exact fold returns when no operand is the least value of `Type`. -/
theorem foldGCDW_eq {T : Int} (hT : 0 < T) (fuel : Nat) (B : Nat) (hBT : (B : Int) < T) :
    ∀ (xs : List Int) (acc : Int), acc.natAbs ≤ B → (∀ x ∈ xs, x.natAbs ≤ B) →
      (∀ x ∈ xs, x.natAbs < fuel) →
      ∃ r, foldGCD fuel acc xs = some r ∧ foldGCDW T fuel acc xs = Res.val r := by
  intro xs
  induction xs with
  | nil => intro acc _ _ _; exact ⟨acc, rfl, rfl⟩
  | cons x xs ih =>
    intro acc hacc hB hf
    obtain ⟨a, ha, ha2, _⟩ := GCD_spec fuel acc x (hf x (List.mem_cons_self _ _))
    have haB : a.natAbs ≤ B := by
      rw [ha2]; exact gcd_le_of_le acc x B hacc (hB x (List.mem_cons_self _ _))
    obtain ⟨r, hr, hrW⟩ := ih a haB (fun y hy => hB y (List.mem_cons_of_mem _ hy))
      (fun y hy => hf y (List.mem_cons_of_mem _ hy))
    refine ⟨r, by simp [foldGCD, ha, hr], ?_⟩
    unfold foldGCDW
    rw [GCDW_eq hT _ _ _ _ (SafePair.of_natAbs hBT hacc (hB x (List.mem_cons_self _ _))) ha]
    exact hrW

/-! ## The machine model: the residue table without overflow -/

theorem Res.val_bind {α β : Type} (a : α) (f : α → Res β) : (Res.val a).bind f = f a := rfl

theorem ofOpt_some {α : Type} (a : α) : ofOpt (some a) = Res.val a := rfl

/-- The `while` loop in `Type` returns what the exact one returns as long as
`q + d` stays inside `Type`. -/
theorem scanW_eq {T m d : Int} {A : List Int} (hd : 0 < d) (hmd : m + d ≤ T) :
    ∀ (fuel : Nat) (q n r : Int), 0 ≤ q → scan A m d fuel q n = some r →
      scanW T A m d fuel q n = Res.val r := by
  intro fuel
  induction fuel with
  | zero => intro q n r _ h; simp [scan] at h
  | succ fuel ih =>
    intro q n r hq h
    unfold scan at h
    unfold scanW
    by_cases hqm : q < m
    · rw [if_pos hqm] at h ⊢
      cases hrd : rd A q with
      | none => rw [hrd] at h; simp at h
      | some aq =>
        rw [hrd, Option.some_bind] at h
        rw [ofOpt_some, Res.val_bind, wrap_eq (by omega) (by omega)]
        exact ih _ _ _ (by omega) h
    · rw [if_neg hqm] at h ⊢
      cases h
      rfl

/-- The `jdx` loop in `Type`, with its history, returns what the exact one
returns as long as the running value stays inside `Type`; `V` bounds the
entries and the running value. -/
theorem relaxW_sim {T m g : Int} (hm : 0 < m) (hg : 0 < g) :
    ∀ (k : Nat) (n V : Int) (A : List Int), Tab m A → 0 ≤ n → n ≤ V →
      (∀ q, 0 ≤ q → ent A q ≤ V) → V + k * g < T →
      ∃ A1 H, relax m g k n A = some A1 ∧ relaxH m g k n A = some H ∧
        relaxW T m g k n A = Res.val A1 ∧ relaxHW T m g k n A = Res.val H ∧ Tab m A1 ∧
        ∀ q, 0 ≤ q → ent A1 q ≤ V + k * g := by
  intro k
  induction k with
  | zero =>
    intro n V A hT _ _ hV _
    exact ⟨A, [], rfl, rfl, rfl, rfl, hT, fun q hq => by simpa using hV q hq⟩
  | succ k ih =>
    intro n V A hT hn hnV hV hVT
    obtain ⟨hlen, h00, hge⟩ := hT
    push_cast at hVT
    have hkg : 0 ≤ (k : Int) * g := mul_nonneg (by positivity) hg.le
    have hn1 : 0 ≤ n + g := by omega
    have hexp : ((k : Int) + 1) * g = k * g + g := by ring
    rw [hexp] at hVT
    have hwrap : wrap T (n + g) = n + g := wrap_eq (by omega) (by omega)
    have hp : Int.tmod (n + g) m = (n + g) % m := Int.tmod_eq_emod hn1 hm.le
    have hrem : remW T (n + g) m = Res.val ((n + g) % m) := by
      rw [remW_eq (by omega) (by omega), hp]
    have hp0 : 0 ≤ (n + g) % m := Int.emod_nonneg _ (by omega)
    have hpm : (n + g) % m < m := Int.emod_lt_of_pos _ hm
    have hrd : rd A ((n + g) % m) = some (ent A ((n + g) % m)) :=
      rd_ent hp0 (by rw [hlen]; exact hpm)
    obtain ⟨n2, hn2⟩ : ∃ n2, n2 = if ent A ((n + g) % m) ≠ -1 ∧
        (ent A ((n + g) % m) < n + g ∨ n + g = -1) then ent A ((n + g) % m) else n + g :=
      ⟨_, rfl⟩
    obtain ⟨A1, hwr, hlen1, hent1⟩ := wr_spec (A := A) n2 hp0 (by rw [hlen]; exact hpm)
    have hgep := hge _ hp0
    have hVp := hV _ hp0
    have hn2ge : 0 ≤ n2 := by
      rw [hn2]
      split_ifs with h
      · omega
      · exact hn1
    have hn2V : n2 ≤ V + g := by
      rw [hn2]
      split_ifs with h
      · omega
      · omega
    have h01 : ent A1 0 = 0 := by
      rw [hent1 0 le_rfl]
      split_ifs with h0
      · rw [hn2, ← h0, h00, if_pos ⟨by omega, Or.inl (by omega)⟩]
      · exact h00
    have hT1 : Tab m A1 := by
      refine ⟨by rw [hlen1]; exact hlen, h01, ?_⟩
      intro q hq
      rw [hent1 q hq]
      split_ifs
      · omega
      · exact hge q hq
    have hV1 : ∀ q, 0 ≤ q → ent A1 q ≤ V + g := by
      intro q hq
      rw [hent1 q hq]
      split_ifs
      · exact hn2V
      · have := hV q hq; omega
    obtain ⟨A2, H, hrun, hrunH, hrunW, hrunHW, hT2, hV2⟩ :=
      ih n2 (V + g) A1 hT1 hn2ge hn2V hV1 (by omega)
    refine ⟨A2, A1 :: H, ?_, ?_, ?_, ?_, hT2, fun q hq => ?_⟩
    · simp only [relax, hp, hrd, Option.some_bind]
      rw [← hn2, hwr, Option.some_bind, hrun]
    · simp only [relaxH, hp, hrd, Option.some_bind]
      rw [← hn2, hwr, Option.some_bind, hrunH, Option.some_bind]
    · simp only [relaxW]
      rw [hwrap, hrem, Res.val_bind, hrd, ofOpt_some, Res.val_bind, ← hn2, hwr, ofOpt_some,
        Res.val_bind, hrunW]
    · simp only [relaxHW]
      rw [hwrap, hrem, Res.val_bind, hrd, ofOpt_some, Res.val_bind, ← hn2, hwr, ofOpt_some,
        Res.val_bind, hrunHW, Res.val_bind]
    · have := hV2 q hq
      push_cast
      rw [hexp]
      omega

/-- One residue class in `Type`, without overflow. -/
theorem classStepW_sim {T m g d r V : Int} {fuel : Nat} {A : List Int} (hm : 0 < m)
    (hg : 0 < g) (hmd : m + d ≤ T) (hT : Tab m A) (hV0 : 0 ≤ V)
    (hV : ∀ q, 0 ≤ q → ent A q ≤ V) (hr : 0 ≤ r) (hrd : r < d) (hfuel : m.toNat < fuel)
    (hVT : V + ((Int.tdiv m d).toNat : Int) * g < T) :
    ∃ A1 H, classStep fuel m g d A r = some A1 ∧ classStepH fuel m g d A r = some H ∧
      classStepW T fuel m g d A r = Res.val A1 ∧ classStepHW T fuel m g d A r = Res.val H ∧
      Tab m A1 ∧ ∀ q, 0 ≤ q → ent A1 q ≤ V + ((Int.tdiv m d).toNat : Int) * g := by
  have hd : 0 < d := by omega
  have hcg : 0 ≤ ((Int.tdiv m d).toNat : Int) * g := mul_nonneg (by positivity) hg.le
  have hphase : ∃ n, (if r = 0 then some 0 else scan A m d fuel r (-1)) = some n ∧
      (if r = 0 then Res.val 0 else scanW T A m d fuel r (-1)) = Res.val n ∧
      (n = -1 ∨ (0 ≤ n ∧ n ≤ V)) := by
    by_cases h0 : r = 0
    · exact ⟨0, by rw [if_pos h0], by rw [if_pos h0], Or.inr ⟨le_rfl, hV0⟩⟩
    · rw [if_neg h0, if_neg h0]
      obtain ⟨n, hn, hI⟩ := scan_spec hT.1 hd hr fuel r (-1) le_rfl
        (Int.emod_eq_of_lt hr hrd) (by omega) (Or.inl ⟨rfl, by
          intro q1 h1 h2 _ h3
          rw [Int.emod_eq_of_lt h1 (by omega)] at h3
          omega⟩)
      refine ⟨n, hn, scanW_eq hd hmd fuel r (-1) n hr hn, ?_⟩
      rcases hI with ⟨h, _⟩ | ⟨h, ⟨q1, hq0, _, _, _, hq⟩, _⟩
      · exact Or.inl h
      · have h1 := hT.2.2 q1 hq0
        have h2 := hV q1 hq0
        rw [hq] at h1 h2
        exact Or.inr ⟨by omega, h2⟩
  obtain ⟨n, hn, hnW, hn1⟩ := hphase
  unfold classStep classStepH classStepW classStepHW
  rw [hn, hnW, Option.some_bind, Option.some_bind, Res.val_bind, Res.val_bind]
  by_cases hne : n ≠ -1
  · rw [if_pos hne, if_pos hne, if_pos hne, if_pos hne, divW_eq (by omega) (by omega),
      Res.val_bind, Res.val_bind]
    exact relaxW_sim hm hg _ n V A hT (by omega) (by omega) hV hVT
  · rw [if_neg hne, if_neg hne, if_neg hne, if_neg hne]
    exact ⟨A, [], rfl, rfl, rfl, rfl, hT, fun q hq => by have := hV q hq; omega⟩

/-- The `r` loop in `Type`, without overflow. -/
theorem forRW_sim {T m g d : Int} {fuel : Nat} (hm : 0 < m) (hg : 0 < g) (hmd : m + d ≤ T)
    (hfuel : m.toNat < fuel) :
    ∀ (k : Nat) (r V : Int) (A : List Int), 0 ≤ r → r + k = d → Tab m A → 0 ≤ V →
      (∀ q, 0 ≤ q → ent A q ≤ V) → V + k * (((Int.tdiv m d).toNat : Int) * g) < T →
      ∃ A1 H, forR fuel m g d k r A = some A1 ∧ forRH fuel m g d k r A = some H ∧
        forRW T fuel m g d k r A = Res.val A1 ∧ forRHW T fuel m g d k r A = Res.val H ∧
        Tab m A1 ∧ ∀ q, 0 ≤ q → ent A1 q ≤ V + k * (((Int.tdiv m d).toNat : Int) * g) := by
  have hcg : 0 ≤ ((Int.tdiv m d).toNat : Int) * g := mul_nonneg (by positivity) hg.le
  intro k
  induction k with
  | zero =>
    intro r V A _ _ hT _ hV _
    exact ⟨A, [], rfl, rfl, rfl, rfl, hT, fun q hq => by simpa using hV q hq⟩
  | succ k ih =>
    intro r V A hr hrk hT hV0 hV hVT
    push_cast at hrk hVT
    have hk : 0 ≤ (k : Int) * (((Int.tdiv m d).toNat : Int) * g) :=
      mul_nonneg (by positivity) hcg
    obtain ⟨A1, H1, hstep, hstepH, hstepW, hstepHW, hT1, hV1⟩ :=
      classStepW_sim (d := d) (r := r) hm hg hmd hT hV0 hV hr (by omega) hfuel (by linarith)
    obtain ⟨A2, H2, hrun, hrunH, hrunW, hrunHW, hT2, hV2⟩ :=
      ih (r + 1) (V + ((Int.tdiv m d).toNat : Int) * g) A1 (by omega) (by omega) hT1
        (by linarith) hV1 (by linarith)
    have hwrap : wrap T (r + 1) = r + 1 := wrap_eq (by omega) (by omega)
    refine ⟨A2, H1 ++ H2, ?_, ?_, ?_, ?_, hT2, fun q hq => ?_⟩
    · unfold forR
      rw [hstep, Option.some_bind, hrun]
    · unfold forRH
      rw [hstepH, Option.some_bind, hstep, Option.some_bind, hrunH, Option.some_bind]
    · unfold forRW
      rw [hstepW, Res.val_bind, hwrap, hrunW]
    · unfold forRHW
      rw [hstepHW, Res.val_bind, hstepW, Res.val_bind, hwrap, hrunHW, Res.val_bind]
    · have := hV2 q hq
      push_cast
      linarith

theorem sum_nonneg_of_pos : ∀ (gs : List Int), (∀ g ∈ gs, 0 < g) → 0 ≤ gs.sum := by
  intro gs
  induction gs with
  | nil => intro _; simp
  | cons g gs ih =>
    intro h
    rw [List.sum_cons]
    have := ih fun x hx => h x (List.mem_cons_of_mem _ hx)
    have := h g (List.mem_cons_self _ _)
    omega

theorem le_sum_of_pos : ∀ (gs : List Int), (∀ g ∈ gs, 0 < g) → ∀ x ∈ gs, x ≤ gs.sum := by
  intro gs
  induction gs with
  | nil => intro _ x hx; cases hx
  | cons g gs ih =>
    intro h x hx
    rw [List.sum_cons]
    have h1 := sum_nonneg_of_pos gs fun y hy => h y (List.mem_cons_of_mem _ hy)
    have h2 := h g (List.mem_cons_self _ _)
    rcases List.mem_cons.mp hx with rfl | hx1
    · omega
    · have := ih (fun y hy => h y (List.mem_cons_of_mem _ hy)) x hx1
      omega

/-- The generator loop in `Type`, without overflow: `m` times the sum of the
generators still to come, above the bound `V` of the entries, stays inside
`Type`. -/
theorem forIdxW_sim {T m : Int} {fuel : Nat} (hm : 0 < m) (hmT : 2 * m ≤ T)
    (hfuel : m.toNat < fuel) :
    ∀ (gs A : List Int) (V : Int), (∀ g ∈ gs, 0 < g) → (∀ g ∈ gs, g.natAbs < fuel) →
      Tab m A → 0 ≤ V → (∀ q, 0 ≤ q → ent A q ≤ V) → V + m * gs.sum < T →
      ∃ A1 H, forIdx fuel m gs A = some A1 ∧ forIdxH fuel m gs A = some H ∧
        forIdxW T fuel m gs A = Res.val A1 ∧ forIdxHW T fuel m gs A = Res.val H ∧
        Tab m A1 ∧ ∀ q, 0 ≤ q → ent A1 q ≤ V + m * gs.sum := by
  intro gs
  induction gs with
  | nil =>
    intro A V _ _ hT _ hV _
    exact ⟨A, [], rfl, rfl, rfl, rfl, hT, fun q hq => by simpa using hV q hq⟩
  | cons g gs ih =>
    intro A V hpos hf hT hV0 hV hVT
    rw [List.sum_cons] at hVT
    have hg : 0 < g := hpos g (List.mem_cons_self _ _)
    have hpos1 : ∀ x ∈ gs, 0 < x := fun x hx => hpos x (List.mem_cons_of_mem _ hx)
    have hs0 := sum_nonneg_of_pos gs hpos1
    have hms : 0 ≤ m * gs.sum := mul_nonneg hm.le hs0
    have hmg : 0 < m * g := mul_pos hm hg
    have hgT : g < T := by nlinarith
    have hgcd := GCD_nonneg fuel m g hm.le hg.le (hf g (List.mem_cons_self _ _))
    have hsafe : SafePair T m g := by
      unfold SafePair InRange
      refine ⟨⟨by omega, by omega⟩, ⟨by omega, by omega⟩, ?_, ?_⟩
      · rintro ⟨_, h⟩; omega
      · rintro ⟨h, _⟩; omega
    have hgcdW := GCDW_eq (by omega : 0 < T) fuel m g _ hsafe hgcd
    have hdpos : (0 : Int) < (Int.gcd m g : Int) := by
      have := Int.gcd_pos_of_ne_zero_left g (show m ≠ 0 by omega)
      exact_mod_cast this
    have hdm : ((Int.gcd m g : Nat) : Int) ≤ m :=
      Int.le_of_dvd hm Int.gcd_dvd_left
    have hc : ((Int.tdiv m (Int.gcd m g)).toNat : Int) = m / (Int.gcd m g : Int) := by
      rw [Int.tdiv_eq_ediv hm.le hdpos.le,
        Int.toNat_of_nonneg (Int.ediv_nonneg hm.le hdpos.le)]
    have hcd : ((Int.gcd m g : Int).toNat : Int) *
        (((Int.tdiv m (Int.gcd m g)).toNat : Int) * g) ≤ m * g := by
      rw [hc, Int.toNat_of_nonneg hdpos.le]
      have h1 : m / (Int.gcd m g : Int) * (Int.gcd m g : Int) ≤ m :=
        Int.ediv_mul_le m (by omega)
      have h2 := Int.mul_le_mul_of_nonneg_right h1 hg.le
      calc ((Int.gcd m g : Nat) : Int) * (m / (Int.gcd m g : Int) * g)
          = m / (Int.gcd m g : Int) * (Int.gcd m g : Int) * g := by ring
        _ ≤ m * g := h2
    have hmgs : m * (g + gs.sum) = m * g + m * gs.sum := by ring
    have hmd : m + ((Int.gcd m g : Nat) : Int) ≤ T := by omega
    have hVT1 : V + (((Int.gcd m g : Int).toNat : Nat) : Int) *
        (((Int.tdiv m (Int.gcd m g)).toNat : Int) * g) < T := by linarith
    obtain ⟨A1, H1, hrun1, hrunH1, hrunW1, hrunHW1, hT1, hV1⟩ :=
      forRW_sim (d := (Int.gcd m g : Int)) hm hg hmd hfuel
        (Int.gcd m g : Int).toNat 0 V A le_rfl (by simp) hT hV0 hV hVT1
    have hV1m : ∀ q, 0 ≤ q → ent A1 q ≤ V + m * g := fun q hq => by
      have := hV1 q hq
      linarith
    obtain ⟨A2, H2, hrun2, hrunH2, hrunW2, hrunHW2, hT2, hV2⟩ := ih A1 (V + m * g) hpos1
      (fun x hx => hf x (List.mem_cons_of_mem _ hx)) hT1 (by linarith) hV1m (by linarith)
    refine ⟨A2, H1 ++ H2, ?_, ?_, ?_, ?_, hT2, fun q hq => ?_⟩
    · unfold forIdx
      rw [hgcd, Option.some_bind, hrun1, Option.some_bind, hrun2]
    · unfold forIdxH
      rw [hgcd, Option.some_bind, hrunH1, Option.some_bind, hrun1, Option.some_bind, hrunH2,
        Option.some_bind]
    · unfold forIdxW
      rw [hgcdW, Res.val_bind, hrunW1, Res.val_bind, hrunW2]
    · unfold forIdxHW
      rw [hgcdW, Res.val_bind, hrunHW1, Res.val_bind, hrunW1, Res.val_bind, hrunHW2,
        Res.val_bind]
    · have := hV2 q hq
      rw [List.sum_cons]
      linarith

/-! ## The machine model: the solver -/

/-- The gate fails: line 121. -/
theorem FrobeniusNumberW_fail {T : Int} {L : List Int} {fuel : Nat} {c : Int}
    (hc : CommonGCDW T L fuel 0 ((L.length : Int) - 1) = Res.val c) (h1 : c ≠ 1) :
    FrobeniusNumberW T fuel L = Res.val (infinity, L) := by
  unfold FrobeniusNumberW
  rw [hc, Res.val_bind, if_neg h1]

/-- The gate passes and the least element is not positive: line 70. -/
theorem FrobeniusNumberW_nonpos {T : Int} {L : List Int} {fuel : Nat} {m0 : Int}
    {gs : List Int} (hc : CommonGCDW T L fuel 0 ((L.length : Int) - 1) = Res.val 1)
    (hs : sort L = m0 :: gs) (hm : m0 ≤ 0) :
    FrobeniusNumberW T fuel L = Res.val (infinity, sort L) := by
  unfold FrobeniusNumberW
  rw [hc, Res.val_bind, if_pos rfl]
  simp only [hs]
  have hrd0 : rd (m0 :: gs) 0 = some m0 := by simp [rd]
  rw [hrd0, ofOpt_some, Res.val_bind, if_pos hm]

/-- The gate passes and the least element is `1`: line 71. -/
theorem FrobeniusNumberW_one {T : Int} {L : List Int} {fuel : Nat} {gs : List Int}
    (hc : CommonGCDW T L fuel 0 ((L.length : Int) - 1) = Res.val 1)
    (hs : sort L = 1 :: gs) : FrobeniusNumberW T fuel L = Res.val (-1, sort L) := by
  unfold FrobeniusNumberW
  rw [hc, Res.val_bind, if_pos rfl]
  simp only [hs]
  have hrd0 : rd (1 :: gs) 0 = some 1 := by simp [rd]
  rw [hrd0, ofOpt_some, Res.val_bind, if_neg (by omega), if_pos rfl]

/-- The gate passes on two elements, the lesser at least `2`: lines 72-74,
with the three wraps of `m0 * b - m0 - b`. -/
theorem FrobeniusNumberW_two {T : Int} {L : List Int} {fuel : Nat} {m0 b : Int}
    (hc : CommonGCDW T L fuel 0 ((L.length : Int) - 1) = Res.val 1)
    (hs : sort L = [m0, b]) (hm : 2 ≤ m0) :
    FrobeniusNumberW T fuel L =
      Res.val (wrap T (wrap T (wrap T (m0 * b) - m0) - b), sort L) := by
  unfold FrobeniusNumberW
  rw [hc, Res.val_bind, if_pos rfl]
  simp only [hs]
  have hrd0 : rd [m0, b] 0 = some m0 := by simp [rd]
  have hrd1 : rd [m0, b] 1 = some b := by simp [rd]
  have hlen2 : [m0, b].length = 2 := rfl
  rw [hrd0, ofOpt_some, Res.val_bind, if_neg (by omega), if_neg (by omega), if_pos hlen2, hrd1,
    ofOpt_some, Res.val_bind]

/-- The closed form does not wrap when the product fits. -/
theorem wrap_closed_form {T a b : Int} (ha : 2 ≤ a) (hb : 2 ≤ b) (hab : a * b < T) :
    wrap T (wrap T (wrap T (a * b) - a) - b) = a * b - a - b := by
  have h1 : a * 2 ≤ a * b := Int.mul_le_mul_of_nonneg_left hb (by omega)
  have h2 : 2 * b ≤ a * b := Int.mul_le_mul_of_nonneg_right ha (by omega)
  rw [wrap_eq (x := a * b) (by omega) hab, wrap_eq (x := a * b - a) (by omega) (by omega),
    wrap_eq (by omega) (by omega)]

theorem FrobeniusValueW_eq {T : Int} {L S : List Int} {fuel : Nat} {F : Int}
    (h : FrobeniusNumberW T fuel L = Res.val (F, S)) : FrobeniusValueW T fuel L = Res.val F := by
  unfold FrobeniusValueW
  rw [h]
  rfl

/-- What `Fits` gives on a list of integers that are at least `2`. -/
theorem Fits.facts {T : Int} {L : List Int} (hF : Fits T L) (h2 : ∀ x ∈ L, 2 ≤ x)
    {m0 : Int} {gs : List Int} (hs : sort L = m0 :: gs) :
    m0 * L.sum < T ∧ L.sum = m0 + gs.sum ∧ 0 ≤ gs.sum ∧ NoMin T L ∧ (∀ x ∈ L, x ≤ L.sum) := by
  obtain ⟨hm0L, hmin, hgsL, _⟩ := sort_head hs
  have hpos : ∀ x ∈ L, 0 < x := fun x hx => by have := h2 x hx; omega
  have hsum : L.sum = m0 + gs.sum := by
    rw [← (sort_perm L).sum_eq, hs, List.sum_cons]
  have hgs0 : 0 ≤ gs.sum := sum_nonneg_of_pos gs fun g hg => hpos g (hgsL g hg)
  have hm2 := h2 m0 hm0L
  obtain ⟨x, hx, hxs⟩ := hF
  have hle : ∀ y ∈ L, y ≤ L.sum := le_sum_of_pos L hpos
  have hS : 0 < L.sum := by omega
  have h1 : m0 * L.sum ≤ x * L.sum := Int.mul_le_mul_of_nonneg_right (hmin x hx) hS.le
  have h3 : 1 * L.sum ≤ m0 * L.sum := Int.mul_le_mul_of_nonneg_right (by omega) hS.le
  refine ⟨by omega, hsum, hgs0, fun y hy => ?_, hle⟩
  have := hle y hy
  have := hpos y hy
  omega

/-- The initial table of lines 76-77 has the simple shape. -/
theorem init_tab {m : Int} (hm : 0 < m) :
    ∃ A0, wr (List.replicate m.toNat (-1)) 0 0 = some A0 ∧ Tab m A0 ∧ TableInv m [] A0 ∧
      ∀ q, 0 ≤ q → ent A0 q ≤ 0 := by
  obtain ⟨A0, hA0, hI0, hrest⟩ := init_spec hm
  have hval : ∀ q, 0 ≤ q → ent A0 q = 0 ∨ ent A0 q = -1 := by
    intro q hq
    rcases (show q = 0 ∨ 0 < q by omega) with h | h
    · rw [h]; exact Or.inl hI0.zero
    · exact Or.inr (hrest q h)
  refine ⟨A0, hA0, ⟨hI0.len, hI0.zero, fun q hq => ?_⟩, hI0, fun q hq => ?_⟩
  · rcases hval q hq with h | h <;> omega
  · rcases hval q hq with h | h <;> omega

/-- The path through the residue table in `Type`: when the least element
times the sum of the elements fits in `Type`, the machine run is the exact
run, step by step. -/
theorem FrobeniusNumberW_table {T : Int} (L : List Int) (hlen : 3 ≤ L.length)
    (h2 : ∀ x ∈ L, 2 ≤ x) (hg : listGcd L = 1) (hF : Fits T L) (fuel : Nat)
    (hfuel : L.length + (L.map Int.natAbs).sum ≤ fuel) :
    ∃ m0 gs A0 A H M, sort L = m0 :: gs ∧ 2 ≤ m0 ∧
      CommonGCDW T L fuel 0 ((L.length : Int) - 1) = Res.val 1 ∧
      wr (List.replicate m0.toNat (-1)) 0 0 = some A0 ∧ ent A0 0 = 0 ∧
      forIdx fuel m0 gs A0 = some A ∧ forIdxW T fuel m0 gs A0 = Res.val A ∧
      forIdxHW T fuel m0 gs A0 = Res.val H ∧ Steps WriteOk A0 H A ∧
      maxLoop A m0.toNat 0 0 = some M ∧ 0 ≤ M ∧
      FrobeniusNumber fuel L = some (M - m0, sort L) ∧
      FrobeniusNumberW T fuel L = Res.val (M - m0, sort L) := by
  obtain ⟨m0, gs, A0, A, M, hs, hm2, hA0, hA, hI, _, hreach, hM, hM0, hrun, _, _⟩ :=
    FrobeniusNumber_table L hlen h2 hg fuel hfuel
  obtain ⟨hm0L, hmin, hgsL, hgslen⟩ := sort_head hs
  obtain ⟨hfit, hsum, hgs0, hnomin, hle⟩ := hF.facts h2 hs
  have hm : 0 < m0 := by omega
  have hpos : ∀ g ∈ gs, 0 < g := fun g hgm => by have := h2 g (hgsL g hgm); omega
  -- the bounds
  have hgs2 : 2 ≤ gs.sum := by
    match gs, hgslen, hgsL, hpos with
    | g :: gs1, _, hgsL1, hpos1 =>
      have h1 := h2 g (hgsL1 g (List.mem_cons_self _ _))
      have h3 := sum_nonneg_of_pos gs1 fun y hy => hpos1 y (List.mem_cons_of_mem _ hy)
      rw [List.sum_cons]
      omega
    | [], h, _, _ => simp at h; omega
  have hT0 : 0 < T := by
    have := mul_pos hm (show 0 < L.sum by omega)
    omega
  have hmm : 0 < m0 * m0 := mul_pos hm hm
  have hexp : m0 * L.sum = m0 * m0 + m0 * gs.sum := by rw [hsum]; ring
  have hmgs : m0 * gs.sum < T := by omega
  have hmgs0 : 0 ≤ m0 * gs.sum := mul_nonneg hm.le hgs0
  have h2m : 2 * m0 ≤ T := by
    have : m0 * 2 ≤ m0 * gs.sum := Int.mul_le_mul_of_nonneg_left hgs2 hm.le
    omega
  have hfm : m0.toNat < fuel := by
    have := natAbs_lt_fuel (by omega) hfuel hm0L
    omega
  -- the gate
  obtain ⟨c, hc, hcW, _, hc1⟩ := CommonGCDW_all hT0 L (by omega) hnomin fuel hfuel
  have hc2 : c = 1 := by rw [hc1 (fun x hx => by have := h2 x hx; omega), hg]; rfl
  subst hc2
  -- the table
  obtain ⟨A0', hA0', hT0', _, hV0⟩ := init_tab hm
  rw [hA0] at hA0'
  cases hA0'
  obtain ⟨A1, H, hrun1, hrunH1, hrunW1, hrunHW1, _, hV1⟩ := forIdxW_sim hm h2m hfm gs A0 0
    hpos (fun g hgm => natAbs_lt_fuel (by omega) hfuel (hgsL g hgm)) hT0' le_rfl hV0
    (by omega)
  rw [hA] at hrun1
  cases hrun1
  obtain ⟨H', A', hrA, hrH, hsteps, _⟩ := forIdxH_spec hm hfm gs A0 hpos
    (fun g hgm => natAbs_lt_fuel (by omega) hfuel (hgsL g hgm)) hT0'
  rw [hA] at hrA
  cases hrA
  rw [hrunH1] at hrH
  cases hrH
  -- the maximum
  obtain ⟨M', hM', _, _, hex⟩ := maxLoop_spec hI.len
    (fun q h0 h1 => (hI.sound q h0 h1 (hreach q h0 h1)).1) m0.toNat 0 0 le_rfl
    (by rw [Int.toNat_of_nonneg hm.le]; simp) le_rfl (fun q h0 h1 => by omega) (Or.inl rfl)
  rw [hM] at hM'
  cases hM'
  have hMle : M ≤ m0 * gs.sum := by
    rcases hex with h | ⟨q, hq0, _, hq⟩
    · omega
    · have := hV1 q hq0
      rw [hq] at this
      omega
  refine ⟨m0, gs, A0, A, H, M, hs, hm2, hcW, hA0, hT0'.2.1, hA, hrunW1, hrunHW1, hsteps, hM, hM0,
    hrun, ?_⟩
  unfold FrobeniusNumberW finalStepW
  rw [hcW, Res.val_bind, if_pos rfl]
  simp only [hs]
  have hrd0 : rd (m0 :: gs) 0 = some m0 := by simp [rd]
  have hlen2 : (m0 :: gs).length ≠ 2 := by simp; omega
  rw [hrd0, ofOpt_some, Res.val_bind, if_neg (by omega), if_neg (by omega), if_neg hlen2, hA0,
    ofOpt_some, Res.val_bind, List.tail_cons, hrunW1, Res.val_bind, hM, ofOpt_some,
    Res.val_bind, Res.val_bind, if_neg (by omega), wrap_eq (by omega) (by omega)]

/-- A vector with an element `<= 0`, none of its elements the least value of
`Type`, is sent to the sentinel by the machine solver. -/
theorem FrobeniusValueW_of_nonpos {T : Int} (hT : 0 < T) (L : List Int) (hlen : 2 ≤ L.length)
    (hL : NoMin T L) (x : Int) (hx : x ∈ L) (hx0 : x ≤ 0) (fuel : Nat)
    (hfuel : L.length + (L.map Int.natAbs).sum ≤ fuel) :
    FrobeniusValueW T fuel L = Res.val infinity := by
  obtain ⟨c, _, hcW, _, _⟩ := CommonGCDW_all hT L hlen hL fuel hfuel
  by_cases h1 : c = 1
  · subst h1
    obtain ⟨m0, gs, hs⟩ := sort_cons_of_length (L := L) (by omega)
    obtain ⟨_, hmin, _, _⟩ := sort_head hs
    exact FrobeniusValueW_eq (FrobeniusNumberW_nonpos hcW hs (le_trans (hmin x hx) hx0))
  · exact FrobeniusValueW_eq (FrobeniusNumberW_fail hcW h1)

/-! ## The machine model: what holds with overflow too -/

theorem Res.bind_eq_val {α β : Type} {x : Res α} {f : α → Res β} {b : β}
    (h : x.bind f = Res.val b) : ∃ a, x = Res.val a ∧ f a = Res.val b := by
  cases x with
  | val a => exact ⟨a, rfl, h⟩
  | undef => cases h
  | nofuel => cases h

theorem ofOpt_eq_val {α : Type} {o : Option α} {a : α} (h : ofOpt o = Res.val a) :
    o = some a := by
  cases o with
  | none => cases h
  | some b => cases h; rfl

theorem rd_some_ent {A : List Int} {i v : Int} (h : rd A i = some v) :
    v = ent A i ∧ 0 ≤ i ∧ i < A.length := by
  obtain ⟨h0, h1, _⟩ := rd_eq_some h
  have h2 : i < A.length := by omega
  rw [rd_ent h0 h2] at h
  cases h
  exact ⟨rfl, h0, h2⟩

theorem wr_some {A A1 : List Int} {i x : Int} (h : wr A i x = some A1) :
    0 ≤ i ∧ i < A.length ∧ A1.length = A.length ∧
      ∀ q, 0 ≤ q → ent A1 q = if q = i then x else ent A q := by
  have hc : 0 ≤ i ∧ i.toNat < A.length := by
    by_contra hc
    rw [wr, if_neg hc] at h
    cases h
  have hlt : i < A.length := by omega
  obtain ⟨A2, hw, hlen, hent⟩ := wr_spec (A := A) x hc.1 hlt
  rw [h] at hw
  cases hw
  exact ⟨hc.1, hlt, hlen, hent⟩

theorem remW_val {T a b p : Int} (h : remW T a b = Res.val p) : p = Int.tmod a b := by
  unfold remW at h
  split_ifs at h
  cases h
  rfl

/-- A write of the machine `jdx` loop keeps `InvW`, whatever the running
value is. -/
theorem relaxW_inv {T m g : Int} (hT : 0 < T) :
    ∀ (k : Nat) (n : Int) (A A1 : List Int), InvW T m A → relaxW T m g k n A = Res.val A1 →
      InvW T m A1 := by
  intro k
  induction k with
  | zero =>
    intro n A A1 hI h
    cases h
    exact hI
  | succ k ih =>
    intro n A A1 hI h
    simp only [relaxW] at h
    obtain ⟨p, hp, h⟩ := Res.bind_eq_val h
    obtain ⟨ap, hap, h⟩ := Res.bind_eq_val h
    obtain ⟨A2, hA2, h⟩ := Res.bind_eq_val h
    have hp1 := remW_val hp
    obtain ⟨hap1, hp0, hplen⟩ := rd_some_ent (ofOpt_eq_val hap)
    obtain ⟨_, _, hlen2, hent2⟩ := wr_some (ofOpt_eq_val hA2)
    obtain ⟨hlen, h0le, h0ne, hrange, hmod⟩ := hI
    apply ih _ A2 A1 _ h
    have hn1 := wrap_range hT (n + g)
    have hapr := hrange p hp0
    refine ⟨by rw [hlen2]; exact hlen, ?_, ?_, ?_, ?_⟩
    · rw [hent2 0 le_rfl]
      split_ifs with h0 h1
      · rw [hap1, ← h0]; exact h0le
      · rw [hap1, ← h0] at h1
        have : ¬ (ent A 0 < wrap T (n + g) ∨ wrap T (n + g) = -1) := fun hc => h1 ⟨h0ne, hc⟩
        omega
      · exact h0le
    · rw [hent2 0 le_rfl]
      split_ifs with h0 h1
      · rw [hap1, ← h0]; exact h0ne
      · rw [hap1, ← h0] at h1
        have : ¬ (ent A 0 < wrap T (n + g) ∨ wrap T (n + g) = -1) := fun hc => h1 ⟨h0ne, hc⟩
        omega
      · exact h0ne
    · intro q hq
      rw [hent2 q hq]
      split_ifs
      · rw [hap1]; exact hapr
      · exact hn1
      · exact hrange q hq
    · intro q hq0 hqm
      rw [hent2 q (by omega)]
      split_ifs with h0 h1
      · intro _
        rw [hap1, h0]
        exact hmod p (by omega) (by omega) (by rw [← hap1]; exact h1.1)
      · intro _
        rw [h0, hp1]
      · exact hmod q hq0 hqm

theorem classStepW_inv {T m g d r : Int} {fuel : Nat} {A A1 : List Int} (hT : 0 < T)
    (hI : InvW T m A) (h : classStepW T fuel m g d A r = Res.val A1) : InvW T m A1 := by
  unfold classStepW at h
  obtain ⟨n, _, h⟩ := Res.bind_eq_val h
  split_ifs at h
  · obtain ⟨c, _, h⟩ := Res.bind_eq_val h
    exact relaxW_inv hT _ _ _ _ hI h
  · cases h
    exact hI

theorem forRW_inv {T m g d : Int} {fuel : Nat} (hT : 0 < T) :
    ∀ (k : Nat) (r : Int) (A A1 : List Int), InvW T m A →
      forRW T fuel m g d k r A = Res.val A1 → InvW T m A1 := by
  intro k
  induction k with
  | zero =>
    intro r A A1 hI h
    cases h
    exact hI
  | succ k ih =>
    intro r A A1 hI h
    unfold forRW at h
    obtain ⟨A2, hA2, h⟩ := Res.bind_eq_val h
    exact ih _ A2 A1 (classStepW_inv hT hI hA2) h

theorem forIdxW_inv {T m : Int} {fuel : Nat} (hT : 0 < T) :
    ∀ (gs A A1 : List Int), InvW T m A → forIdxW T fuel m gs A = Res.val A1 →
      InvW T m A1 := by
  intro gs
  induction gs with
  | nil =>
    intro A A1 hI h
    cases h
    exact hI
  | cons g gs ih =>
    intro A A1 hI h
    unfold forIdxW at h
    obtain ⟨d, _, h⟩ := Res.bind_eq_val h
    obtain ⟨A2, hA2, h⟩ := Res.bind_eq_val h
    exact ih A2 A1 (forRW_inv hT _ _ _ _ hI hA2) h

/-- The maximum scan returns its initial value or an entry of the table. -/
theorem maxLoop_mem {A : List Int} : ∀ (k : Nat) (idx mx M : Int), 0 ≤ idx →
    maxLoop A k idx mx = some M →
    M = mx ∨ ∃ q, idx ≤ q ∧ q < A.length ∧ ent A q = M := by
  intro k
  induction k with
  | zero =>
    intro idx mx M _ h
    cases h
    exact Or.inl rfl
  | succ k ih =>
    intro idx mx M hidx h
    unfold maxLoop at h
    cases hrd : rd A idx with
    | none => rw [hrd] at h; cases h
    | some a =>
      rw [hrd, Option.some_bind] at h
      obtain ⟨ha, _, hlt⟩ := rd_some_ent hrd
      rcases ih (idx + 1) _ M (by omega) h with h1 | ⟨q, hq1, hq2, hq3⟩
      · split_ifs at h1
        · exact Or.inr ⟨idx, le_rfl, hlt, by rw [h1, ha]⟩
        · exact Or.inl h1
      · exact Or.inr ⟨q, by omega, hq2, hq3⟩

/-- The closed form of two coprime integers does not wrap to `0`. -/
theorem closed_form_ne_zero {T a b : Int} (hg : Int.gcd a b = 1) :
    wrap T (wrap T (wrap T (a * b) - a) - b) ≠ 0 := by
  intro h0
  have h1 := wrap_dvd T (a * b)
  have h2 := wrap_dvd T (wrap T (a * b) - a)
  have h3 := wrap_dvd T (wrap T (wrap T (a * b) - a) - b)
  rw [h0] at h3
  have h4 : 2 * T ∣ a * b - a - b := by
    have := dvd_add (dvd_add h1 h2) h3
    have e : wrap T (a * b) - a * b + (wrap T (wrap T (a * b) - a) - (wrap T (a * b) - a)) +
        (0 - (wrap T (wrap T (a * b) - a) - b)) = -(a * b - a - b) := by ring
    rw [e] at this
    exact (Int.dvd_neg).mp this
  have h5 : Even (a * b - a - b) := by
    rw [even_iff_two_dvd]
    exact dvd_trans (Dvd.intro T rfl) h4
  have h6 : Even a ∧ Even b := by
    rw [Int.even_sub, Int.even_sub, Int.even_mul] at h5
    by_cases ha : Even a <;> by_cases hb : Even b <;> simp_all
  have h7 : (2 : Int) ∣ (Int.gcd a b : Int) :=
    Int.dvd_gcd (even_iff_two_dvd.mp h6.1) (even_iff_two_dvd.mp h6.2)
  rw [hg] at h7
  omega

/-- The value the machine solver returns on a vector of at least two
positive values of `Type` with greatest common divisor `1` is not `0`,
whether its arithmetic wraps or not. -/
theorem FrobeniusNumberW_ne_zero {T : Int} (L : List Int) (hlen : 2 ≤ L.length)
    (hpos : ∀ x ∈ L, 0 < x) (hT : ∀ x ∈ L, x < T) (hg : listGcd L = 1) (fuel : Nat)
    (hfuel : L.length + (L.map Int.natAbs).sum ≤ fuel) (F : Int) (S : List Int)
    (h : FrobeniusNumberW T fuel L = Res.val (F, S)) : F ≠ 0 := by
  obtain ⟨m0, gs, hs⟩ := sort_cons_of_length (L := L) (by omega)
  obtain ⟨hm0L, hmin, hgsL, hgslen⟩ := sort_head hs
  have hT0 : 0 < T := by have := hT m0 hm0L; have := hpos m0 hm0L; omega
  have hnomin : NoMin T L := fun x hx => ⟨by have := hpos x hx; omega, hT x hx⟩
  obtain ⟨c, _, hcW, _, hc1⟩ := CommonGCDW_all hT0 L hlen hnomin fuel hfuel
  have hc2 : c = 1 := by rw [hc1 (fun x hx => (hpos x hx).le), hg]; rfl
  subst hc2
  by_cases h1 : m0 = 1
  · subst h1
    rw [FrobeniusNumberW_one hcW hs] at h
    cases h
    decide
  · have hm2 : 2 ≤ m0 := by have := hpos m0 hm0L; omega
    by_cases hl : L.length = 2
    · obtain ⟨b, rfl⟩ : ∃ b, gs = [b] := by
        match gs, hgslen with
        | [b], _ => exact ⟨b, rfl⟩
        | [], h => simp at h; omega
        | _ :: _ :: _, h => simp at h; omega
      have hp : L.Perm [m0, b] := (sort_perm L).symm.trans (hs ▸ List.Perm.refl _)
      have hgcd : Int.gcd m0 b = 1 := by
        have hd : ((Int.gcd m0 b : Nat) : Int) ∣ (listGcd L : Int) := by
          apply dvd_listGcd
          intro x hx
          have hx1 : x = m0 ∨ x = b := by simpa using hp.mem_iff.mp hx
          rcases hx1 with rfl | rfl
          · exact Int.gcd_dvd_left
          · exact Int.gcd_dvd_right
        rw [hg] at hd
        exact Nat.eq_one_of_dvd_one (Int.natCast_dvd_natCast.mp hd)
      rw [FrobeniusNumberW_two hcW hs hm2] at h
      cases h
      exact closed_form_ne_zero hgcd
    · unfold FrobeniusNumberW at h
      rw [hcW, Res.val_bind, if_pos rfl] at h
      simp only [hs] at h
      have hrd0 : rd (m0 :: gs) 0 = some m0 := by simp [rd]
      have hlen2 : (m0 :: gs).length ≠ 2 := by simp; omega
      rw [hrd0, ofOpt_some, Res.val_bind, if_neg (by omega), if_neg (by omega), if_neg hlen2,
        List.tail_cons] at h
      obtain ⟨A0, hA0, h⟩ := Res.bind_eq_val h
      obtain ⟨A, hA, h⟩ := Res.bind_eq_val h
      obtain ⟨v, hv, h⟩ := Res.bind_eq_val h
      cases h
      obtain ⟨A0', hA0', hTab, _, _⟩ := init_tab (show 0 < m0 by omega)
      rw [ofOpt_eq_val hA0] at hA0'
      cases hA0'
      have hI0 : InvW T m0 A0 := by
        refine ⟨hTab.1, by rw [hTab.2.1], by rw [hTab.2.1]; decide, fun q hq => ?_,
          fun q hq0 hqm hne => ?_⟩
        · have h1 := hTab.2.2 q hq
          have h2 : ent A0 q ≤ 0 := by
            obtain ⟨_, _, _, _, hV⟩ := init_tab (show 0 < m0 by omega)
            obtain ⟨A0', hA0', _, _, hV⟩ := init_tab (show 0 < m0 by omega)
            rw [ofOpt_eq_val hA0] at hA0'
            cases hA0'
            exact hV q hq
          unfold InRange
          omega
        · obtain ⟨A0', hA0', _, hrest⟩ := init_spec (show 0 < m0 by omega)
          rw [ofOpt_eq_val hA0] at hA0'
          cases hA0'
          exact absurd (hrest q hq0) hne
      obtain ⟨hlenA, h0le, _, hrange, hmod⟩ := forIdxW_inv hT0 gs A0 A hI0 hA
      unfold finalStepW at hv
      obtain ⟨M, hM, hv⟩ := Res.bind_eq_val hv
      cases hv
      intro hzero
      split_ifs at hzero with hM1
      · omega
      · have hd := wrap_dvd T (M - m0)
        rw [hzero] at hd
        have hm0T := hT m0 hm0L
        have hMr : InRange T M := by
          rcases maxLoop_mem m0.toNat 0 0 M le_rfl (ofOpt_eq_val hM) with h | ⟨q, hq, _, hqM⟩
          · rw [h]; unfold InRange; omega
          · rw [← hqM]; exact hrange q hq
        unfold InRange at hMr
        have hMm : M = m0 := by
          obtain ⟨t, ht⟩ := hd
          have : t = 0 := by
            by_contra htne
            rcases (show t ≤ -1 ∨ 1 ≤ t by omega) with h | h
            · have : 2 * T * t ≤ 2 * T * (-1) :=
                Int.mul_le_mul_of_nonneg_left h (by omega)
              omega
            · have : 2 * T * 1 ≤ 2 * T * t :=
                Int.mul_le_mul_of_nonneg_left h (by omega)
              omega
          rw [this] at ht
          omega
        rcases maxLoop_mem m0.toNat 0 0 M le_rfl (ofOpt_eq_val hM) with h | ⟨q, hq, hqlen, hqM⟩
        · omega
        · rcases (show q = 0 ∨ 0 < q by omega) with h | h
          · rw [h] at hqM
            omega
          · have := hmod q h (by omega) (by rw [hqM]; omega)
            rw [hqM, hMm, Int.tmod_self] at this
            omega

/-- Whenever the machine solver returns, the vector it leaves is the sorted
input if the gate passed and the input itself if the gate failed. -/
theorem FrobeniusNumberW_vector {T : Int} {L S : List Int} {fuel : Nat} {F : Int}
    (h : FrobeniusNumberW T fuel L = Res.val (F, S)) :
    ∃ c, CommonGCDW T L fuel 0 ((L.length : Int) - 1) = Res.val c ∧
      (c = 1 → S = sort L) ∧ (c ≠ 1 → S = L) := by
  unfold FrobeniusNumberW at h
  obtain ⟨c, hc, h⟩ := Res.bind_eq_val h
  refine ⟨c, hc, ?_⟩
  by_cases h1 : c = 1
  · refine ⟨fun _ => ?_, fun hne => absurd h1 hne⟩
    rw [if_pos h1] at h
    simp only [] at h
    obtain ⟨m0, _, h⟩ := Res.bind_eq_val h
    split_ifs at h
    · cases h; rfl
    · cases h; rfl
    · obtain ⟨b, _, h⟩ := Res.bind_eq_val h
      cases h; rfl
    · obtain ⟨A0, _, h⟩ := Res.bind_eq_val h
      obtain ⟨A, _, h⟩ := Res.bind_eq_val h
      obtain ⟨v, _, h⟩ := Res.bind_eq_val h
      cases h; rfl
  · refine ⟨fun he => absurd he h1, fun _ => ?_⟩
    rw [if_neg h1] at h
    cases h
    rfl

/-! ## The machine model: totality, order and the fold -/

theorem noMin_of_perm {T : Int} {L1 L2 : List Int} (hp : L1.Perm L2) (h : NoMin T L1) :
    NoMin T L2 :=
  fun x hx => h x (hp.mem_iff.mpr hx)

/-- Where no element is the least value of `Type` the machine fold returns
what the exact fold returns. -/
theorem leftFoldGCDW_eq {T : Int} (hT : 0 < T) (L : List Int) (hlen : 1 ≤ L.length)
    (hL : NoMin T L) (fuel : Nat) (hfuel : L.length + (L.map Int.natAbs).sum ≤ fuel) :
    ∃ r, leftFoldGCD fuel L = some r ∧ leftFoldGCDW T fuel L = Res.val r := by
  match L, hlen, hL, hfuel with
  | x0 :: xs, _, hL, hfuel =>
    have hB := NoMin.bound hL
    exact foldGCDW_eq hT fuel (T - 1).toNat (by omega) xs x0 (hB x0 (List.mem_cons_self _ _))
      (fun x hx => hB x (List.mem_cons_of_mem _ hx))
      (fun x hx => natAbs_lt_fuel (L := x0 :: xs) (by simp) hfuel (List.mem_cons_of_mem _ hx))

/-- Sorting does not see the order of the input. -/
theorem sort_eq_of_perm {L1 L2 : List Int} (hp : L1.Perm L2) : sort L1 = sort L2 :=
  List.eq_of_perm_of_sorted ((sort_perm L1).trans (hp.trans (sort_perm L2).symm))
    (sort_sorted L1) (sort_sorted L2)

/-- Past a passed gate the machine solver depends on the sorted vector
only. -/
theorem FrobeniusNumberW_congr {T : Int} {L1 L2 : List Int} {fuel : Nat}
    (h1 : CommonGCDW T L1 fuel 0 ((L1.length : Int) - 1) = Res.val 1)
    (h2 : CommonGCDW T L2 fuel 0 ((L2.length : Int) - 1) = Res.val 1)
    (hs : sort L1 = sort L2) : FrobeniusNumberW T fuel L1 = FrobeniusNumberW T fuel L2 := by
  unfold FrobeniusNumberW
  rw [h1, h2, hs, Res.val_bind, Res.val_bind, if_pos rfl, if_pos rfl]

/-- The machine solver returns on a vector without the least value of `Type`
when the gate fails, when an element is at most `1`, when there are two
elements, or when the vector fits. -/
theorem FrobeniusNumberW_total {T : Int} (hT : 0 < T) (L : List Int) (hlen : 2 ≤ L.length)
    (hL : NoMin T L)
    (hc : listGcd L ≠ 1 ∨ (∃ x ∈ L, x ≤ 1) ∨ L.length = 2 ∨ Fits T L) (fuel : Nat)
    (hfuel : L.length + (L.map Int.natAbs).sum ≤ fuel) :
    ∃ F S, FrobeniusNumberW T fuel L = Res.val (F, S) := by
  obtain ⟨c, _, hcW, hc1, _⟩ := CommonGCDW_all hT L hlen hL fuel hfuel
  by_cases h1 : c = 1
  · subst h1
    obtain ⟨m0, gs, hs⟩ := sort_cons_of_length (L := L) (by omega)
    obtain ⟨hm0L, hmin, _, hgslen⟩ := sort_head hs
    by_cases h0 : m0 ≤ 0
    · exact ⟨_, _, FrobeniusNumberW_nonpos hcW hs h0⟩
    · by_cases h1 : m0 = 1
      · subst h1
        exact ⟨_, _, FrobeniusNumberW_one hcW hs⟩
      · have hm2 : 2 ≤ m0 := by omega
        by_cases hl : L.length = 2
        · obtain ⟨b, rfl⟩ : ∃ b, gs = [b] := by
            match gs, hgslen with
            | [b], _ => exact ⟨b, rfl⟩
            | [], h => simp at h; omega
            | _ :: _ :: _, h => simp at h; omega
          exact ⟨_, _, FrobeniusNumberW_two hcW hs hm2⟩
        · have h2 : ∀ x ∈ L, 2 ≤ x := fun x hx => le_trans hm2 (hmin x hx)
          have hg : listGcd L = 1 := by rw [← hc1]; rfl
          rcases hc with h | ⟨x, hx, hx1⟩ | h | h
          · exact absurd hg h
          · have := h2 x hx
            omega
          · exact absurd h hl
          · obtain ⟨_, _, _, _, _, _, _, _, _, _, _, _, _, _, _, _, _, _, hrun⟩ :=
              FrobeniusNumberW_table L (by omega) h2 hg h fuel hfuel
            exact ⟨_, _, hrun⟩
  · exact ⟨_, _, FrobeniusNumberW_fail hcW h1⟩

/-- On vectors without the least value of `Type` the outcome of the machine
solver does not depend on the order of the input. -/
theorem FrobeniusValueW_perm {T : Int} (hT : 0 < T) (L1 L2 : List Int) (hp : L1.Perm L2)
    (hlen : 2 ≤ L1.length) (hL : NoMin T L1) (fuel : Nat)
    (hfuel : L1.length + (L1.map Int.natAbs).sum ≤ fuel) :
    FrobeniusValueW T fuel L1 = FrobeniusValueW T fuel L2 := by
  have hlen2 : 2 ≤ L2.length := by rw [← hp.length_eq]; exact hlen
  have hfuel2 : L2.length + (L2.map Int.natAbs).sum ≤ fuel := by rw [fuel_perm hp]; exact hfuel
  have hL2 := noMin_of_perm hp hL
  by_cases hneg : ∃ x ∈ L1, x ≤ 0
  · obtain ⟨x, hx, hx0⟩ := hneg
    rw [FrobeniusValueW_of_nonpos hT L1 hlen hL x hx hx0 fuel hfuel,
      FrobeniusValueW_of_nonpos hT L2 hlen2 hL2 x (hp.mem_iff.mp hx) hx0 fuel hfuel2]
  · push_neg at hneg
    have hpos2 : ∀ x ∈ L2, 0 < x := fun x hx => hneg x (hp.mem_iff.mpr hx)
    obtain ⟨c, _, hc, _, hc1⟩ := CommonGCDW_all hT L1 hlen hL fuel hfuel
    obtain ⟨c2, _, hc2, _, hc3⟩ := CommonGCDW_all hT L2 hlen2 hL2 fuel hfuel2
    have e1 := hc1 fun x hx => (hneg x hx).le
    have e2 := hc3 fun x hx => (hpos2 x hx).le
    have e3 : c = c2 := by rw [e1, e2, listGcd_perm hp]
    subst e3
    by_cases h1 : c = 1
    · subst h1
      unfold FrobeniusValueW
      rw [FrobeniusNumberW_congr hc hc2 (sort_eq_of_perm hp)]
    · rw [FrobeniusValueW_eq (FrobeniusNumberW_fail hc h1),
        FrobeniusValueW_eq (FrobeniusNumberW_fail hc2 h1)]

/-! ## The claims settled on the machine model -/

/-- C2, as the specification states it, fails for `Type = int`: on
`[65536, 65537]` the product of line 73 does not fit, and the solver returns
`-65537`, while `65536 * 65537 - 65536 - 65537` is `4294901759`. -/
theorem frobeniusNumber_pair_overflow :
    FrobeniusValueW 2147483648 131075 [65536, 65537] = Res.val (-65537) ∧
      (65536 : Int) * 65537 - 65536 - 65537 = 4294901759 := by
  decide

/-- C2, amended: on a list of two coprime integers `a`, `b`, both at least
`2`, whose product `a * b` is at most the greatest value `T - 1` of `Type`,
in either order, `FrobeniusNumber` returns `a * b - a - b`. -/
theorem frobeniusNumber_pair_closed_form (T a b : Int) (ha : 2 ≤ a) (hb : 2 ≤ b)
    (hg : Int.gcd a b = 1) (hab : a * b < T) (fuel : Nat)
    (hfuel : a.natAbs + b.natAbs + 2 ≤ fuel) :
    FrobeniusValueW T fuel [a, b] = Res.val (a * b - a - b) ∧
      FrobeniusValueW T fuel [b, a] = Res.val (a * b - a - b) := by
  have key : ∀ x y : Int, 2 ≤ x → 2 ≤ y → Int.gcd x y = 1 → x * y < T →
      x.natAbs + y.natAbs + 2 ≤ fuel →
      FrobeniusValueW T fuel [x, y] = Res.val (x * y - x - y) := by
    intro x y hx hy hxy hT hf
    have hxy1 : x * 2 ≤ x * y := Int.mul_le_mul_of_nonneg_left hy (by omega)
    have hxy2 : 2 * y ≤ x * y := Int.mul_le_mul_of_nonneg_right hx (by omega)
    have hT0 : 0 < T := by omega
    have hL : NoMin T [x, y] := by
      intro z hz
      have hz1 : z = x ∨ z = y := by simpa using hz
      rcases hz1 with h | h <;> rw [h] <;> constructor <;> omega
    obtain ⟨c, _, hc, _, hc1⟩ := CommonGCDW_all hT0 [x, y] (by simp) hL fuel
      (by simp only [List.length_cons, List.length_nil, List.map_cons, List.map_nil,
        List.sum_cons, List.sum_nil]; omega)
    have hl : listGcd [x, y] = 1 := by
      show Int.gcd x ((Int.gcd y 0 : Nat) : Int) = 1
      rw [Int.gcd_zero_right, Int.gcd_def, Int.natAbs_ofNat, ← Int.gcd_def]
      exact hxy
    have hc2 : c = 1 := by
      rw [hc1 (fun z hz => by
        have hz1 : z = x ∨ z = y := by simpa using hz
        rcases hz1 with h | h <;> rw [h] <;> omega), hl]
      rfl
    subst hc2
    by_cases hxy2 : x ≤ y
    · have hs : sort [x, y] = [x, y] := by
        simp [sort, List.insertionSort, List.orderedInsert, hxy2]
      have := FrobeniusValueW_eq (FrobeniusNumberW_two hc hs hx)
      rw [this, wrap_closed_form hx hy hT]
    · have hs : sort [x, y] = [y, x] := by
        simp [sort, List.insertionSort, List.orderedInsert, hxy2]
      have := FrobeniusValueW_eq (FrobeniusNumberW_two hc hs hy)
      rw [this, wrap_closed_form hy hx (by rw [Int.mul_comm]; exact hT)]
      congr 1
      ring
  refine ⟨key a b ha hb hg hab hfuel, ?_⟩
  have := key b a hb ha (by rw [Int.gcd_comm]; exact hg) (by rw [Int.mul_comm]; exact hab)
    (by omega)
  rw [this]
  congr 1
  ring

/-- The lists `[3, 5]` and `[4, 7]` give `7` and `17` for `Type = int`. -/
theorem frobeniusNumber_pair_closed_form_witness :
    (FrobeniusValueW 2147483648 10 [3, 5] = Res.val (3 * 5 - 3 - 5) ∧
      FrobeniusValueW 2147483648 10 [5, 3] = Res.val (3 * 5 - 3 - 5)) ∧
    (FrobeniusValueW 2147483648 13 [4, 7] = Res.val (4 * 7 - 4 - 7) ∧
      FrobeniusValueW 2147483648 13 [7, 4] = Res.val (4 * 7 - 4 - 7)) :=
  ⟨frobeniusNumber_pair_closed_form 2147483648 3 5 (by decide) (by decide) (by decide)
      (by decide) 10 (by decide),
    frobeniusNumber_pair_closed_form 2147483648 4 7 (by decide) (by decide) (by decide)
      (by decide) 13 (by decide)⟩

/-- C5, as the specification states it, fails for `Type = int`: on
`[-2147483648, -1]`, a list with an element `<= 0`, the gate evaluates
`-2147483648 % -1`, which is undefined, and the solver returns nothing. -/
theorem frobeniusNumber_least_traps :
    FrobeniusValueW 2147483648 2147483651 [-2147483648, -1] = Res.undef := by
  decide

/-- C5, amended: on a list of at least two integers, none of them the least
value `-T` of `Type`, with an element `<= 0`, `FrobeniusNumber` returns the
sentinel, whether the gate passes (line 70) or not (line 121). -/
theorem frobeniusNumber_nonpositive (T : Int) (hT : 0 < T) (L : List Int)
    (hlen : 2 ≤ L.length) (hL : NoMin T L) (x : Int) (hx : x ∈ L) (hx0 : x ≤ 0) (fuel : Nat)
    (hfuel : L.length + (L.map Int.natAbs).sum ≤ fuel) :
    FrobeniusValueW T fuel L = Res.val infinity := by
  obtain ⟨c, _, hc, _, _⟩ := CommonGCDW_all hT L hlen hL fuel hfuel
  by_cases h1 : c = 1
  · subst h1
    obtain ⟨m0, gs, hs⟩ := sort_cons_of_length (L := L) (by omega)
    obtain ⟨_, hmin, _, _⟩ := sort_head hs
    exact FrobeniusValueW_eq (FrobeniusNumberW_nonpos hc hs (le_trans (hmin x hx) hx0))
  · exact FrobeniusValueW_eq (FrobeniusNumberW_fail hc h1)

/-- The list `[0, 5]`, where the gate fails, and the list `[3, -2]`, where it
passes, are sent to the sentinel. -/
theorem frobeniusNumber_nonpositive_witness :
    FrobeniusValueW 2147483648 7 [0, 5] = Res.val infinity ∧
      FrobeniusValueW 2147483648 7 [3, -2] = Res.val infinity :=
  ⟨frobeniusNumber_nonpositive 2147483648 (by decide) [0, 5] (by decide)
      (by unfold NoMin; decide) 0 (by decide) (by decide) 7 (by decide),
    frobeniusNumber_nonpositive 2147483648 (by decide) [3, -2] (by decide)
      (by unfold NoMin; decide) (-2) (by decide) (by decide) 7 (by decide)⟩

/-- C7: on a list of at least two positive values of `Type` with greatest
common divisor `1` the value `FrobeniusNumber` returns is different from the
error sentinel, the value of `std::numeric_limits<Type>::infinity()` (which
is `Type()`, that is `0`, for an integral `Type`), also where the arithmetic
of lines 73 and 102 overflows; this includes the answer `-1` of the case
where every non-negative integer is a combination.  A value is returned at
least when the list holds `1`, has two elements, or fits. -/
theorem frobeniusNumber_ne_sentinel (T : Int) (L : List Int) (hlen : 2 ≤ L.length)
    (hpos : ∀ x ∈ L, 0 < x) (hT : ∀ x ∈ L, x < T) (hg : listGcd L = 1) (fuel : Nat)
    (hfuel : L.length + (L.map Int.natAbs).sum ≤ fuel) :
    (∀ F, FrobeniusValueW T fuel L = Res.val F → F ≠ infinity) ∧
      ((1 : Int) ∈ L ∨ L.length = 2 ∨ Fits T L →
        ∃ F, FrobeniusValueW T fuel L = Res.val F ∧ F ≠ infinity) := by
  have h1 : ∀ F, FrobeniusValueW T fuel L = Res.val F → F ≠ infinity := by
    intro F h
    unfold FrobeniusValueW at h
    obtain ⟨⟨F1, S⟩, hr, h⟩ := Res.bind_eq_val h
    cases h
    exact FrobeniusNumberW_ne_zero L hlen hpos hT hg fuel hfuel F1 S hr
  refine ⟨h1, fun hc => ?_⟩
  obtain ⟨m0, gs, hs⟩ := sort_cons_of_length (L := L) (by omega)
  obtain ⟨hm0L, _, _, _⟩ := sort_head hs
  have hT0 : 0 < T := by have := hT m0 hm0L; have := hpos m0 hm0L; omega
  have hL : NoMin T L := fun x hx => ⟨by have := hpos x hx; omega, hT x hx⟩
  have hc1 : listGcd L ≠ 1 ∨ (∃ x ∈ L, x ≤ 1) ∨ L.length = 2 ∨ Fits T L := by
    rcases hc with h | h | h
    · exact Or.inr (Or.inl ⟨1, h, le_rfl⟩)
    · exact Or.inr (Or.inr (Or.inl h))
    · exact Or.inr (Or.inr (Or.inr h))
  obtain ⟨F, S, hF⟩ := FrobeniusNumberW_total hT0 L hlen hL hc1 fuel hfuel
  exact ⟨F, FrobeniusValueW_eq hF, h1 F (FrobeniusValueW_eq hF)⟩

/-- The lists `[1, 5]` (answer `-1`), `[2, 3]` and `[6, 9, 20]` do not give
the sentinel for `Type = int`, and neither does `[65536, 65537]`, where line
73 overflows. -/
theorem frobeniusNumber_ne_sentinel_witness :
    (∃ F, FrobeniusValueW 2147483648 8 [1, 5] = Res.val F ∧ F ≠ infinity) ∧
    (∃ F, FrobeniusValueW 2147483648 7 [2, 3] = Res.val F ∧ F ≠ infinity) ∧
    (∃ F, FrobeniusValueW 2147483648 38 [6, 9, 20] = Res.val F ∧ F ≠ infinity) ∧
    (∃ F, FrobeniusValueW 2147483648 131075 [65536, 65537] = Res.val F ∧ F ≠ infinity) :=
  ⟨(frobeniusNumber_ne_sentinel 2147483648 [1, 5] (by decide) (by decide) (by decide)
      (by decide) 8 (by decide)).2 (Or.inl (by decide)),
    (frobeniusNumber_ne_sentinel 2147483648 [2, 3] (by decide) (by decide) (by decide)
      (by decide) 7 (by decide)).2 (Or.inr (Or.inl (by decide))),
    (frobeniusNumber_ne_sentinel 2147483648 [6, 9, 20] (by decide) (by decide) (by decide)
      (by decide) 38 (by decide)).2 (Or.inr (Or.inr ⟨6, by decide, by decide⟩)),
    (frobeniusNumber_ne_sentinel 2147483648 [65536, 65537] (by decide) (by decide) (by decide)
      (by decide) 131075 (by decide)).2 (Or.inr (Or.inl (by decide)))⟩

/-- C9, as the specification states it, fails for `Type = int`: `GCD` has no
result on the operands `(-2147483648, -1)` and `(-1, -2147483648)`, where it
evaluates `-2147483648 % -1`, which is undefined. -/
theorem GCD_undefined_remainder :
    GCDW 2147483648 2 (-2147483648) (-1) = Res.undef ∧
      GCDW 2147483648 2147483649 (-1) (-2147483648) = Res.undef := by
  decide

/-- C9, amended: on non-negative operands `GCD` returns the mathematical
greatest common divisor, with `GCD(a, 0) = a`; on operands of any sign other
than the least value of `Type` together with `-1` its result divides both
operands and is divided by each of their common divisors.  The fuel needed is
more than the absolute value of the second operand. -/
theorem GCD_correct (T a b : Int) (hT : 0 < T) (ha : InRange T a) (hb : InRange T b) :
    (0 ≤ a → 0 ≤ b → ∀ fuel, b.natAbs < fuel →
      GCDW T fuel a b = Res.val (Int.gcd a b : Int)) ∧
    (∀ fuel, 0 < fuel → GCDW T fuel a 0 = Res.val a) ∧
    (¬ (a = -T ∧ b = -1) → ¬ (a = -1 ∧ b = -T) →
      ∃ r, (∀ fuel, b.natAbs < fuel → GCDW T fuel a b = Res.val r) ∧ r ∣ a ∧ r ∣ b ∧
        ∀ c : Int, c ∣ a → c ∣ b → c ∣ r) := by
  refine ⟨fun h0 h1 fuel hf => ?_, ?_, fun h1 h2 => ?_⟩
  · exact GCDW_eq hT fuel a b _ ⟨ha, hb, fun h => by omega, fun h => by omega⟩
      (GCD_nonneg fuel a b h0 h1 hf)
  · intro fuel hf
    obtain ⟨n, rfl⟩ := Nat.exists_eq_succ_of_ne_zero (by omega : fuel ≠ 0)
    simp [GCDW]
  · obtain ⟨r, hr, hr2, _⟩ := GCD_spec (b.natAbs + 1) a b (by omega)
    refine ⟨r, ?_, Int.natAbs_dvd.mp (hr2 ▸ Int.gcd_dvd_left),
      Int.natAbs_dvd.mp (hr2 ▸ Int.gcd_dvd_right), ?_⟩
    · intro fuel hf
      obtain ⟨k, rfl⟩ : ∃ k, fuel = b.natAbs + 1 + k := ⟨fuel - (b.natAbs + 1), by omega⟩
      exact GCDW_eq hT _ a b r ⟨ha, hb, h1, h2⟩ (GCD_fuel _ k a b r hr)
    · intro c hca hcb
      have := Int.dvd_gcd hca hcb
      rw [← hr2] at this
      exact Int.dvd_natAbs.mp this

/-- The operands `(12, 18)`, `(5, 0)`, `(-12, 18)` and `(-2147483648, 6)` for
`Type = int`. -/
theorem GCD_correct_witness :
    GCDW 2147483648 19 12 18 = Res.val (Int.gcd 12 18 : Int) ∧
    GCDW 2147483648 1 5 0 = Res.val 5 ∧
    (∃ r, (∀ fuel, (18 : Int).natAbs < fuel → GCDW 2147483648 fuel (-12) 18 = Res.val r) ∧
      r ∣ -12 ∧ r ∣ 18 ∧ ∀ c : Int, c ∣ -12 → c ∣ 18 → c ∣ r) ∧
    ∃ r, (∀ fuel, (6 : Int).natAbs < fuel →
        GCDW 2147483648 fuel (-2147483648) 6 = Res.val r) ∧
      r ∣ -2147483648 ∧ r ∣ 6 ∧ ∀ c : Int, c ∣ -2147483648 → c ∣ 6 → c ∣ r :=
  ⟨(GCD_correct 2147483648 12 18 (by decide) (by unfold InRange; decide)
      (by unfold InRange; decide)).1 (by decide) (by decide) 19 (by decide),
    (GCD_correct 2147483648 5 0 (by decide) (by unfold InRange; decide)
      (by unfold InRange; decide)).2.1 1 (by decide),
    (GCD_correct 2147483648 (-12) 18 (by decide) (by unfold InRange; decide)
      (by unfold InRange; decide)).2.2 (by decide) (by decide),
    (GCD_correct 2147483648 (-2147483648) 6 (by decide) (by unfold InRange; decide)
      (by unfold InRange; decide)).2.2 (by decide) (by decide)⟩

/-- C11, as the specification states it, fails: on `[-1, 2, 3]` the call
`CommonGCD(begin, end - 1)` returns `1` and the left-to-right fold
`GCD(GCD(-1, 2), 3)` returns `-1`, over exact integers and for `Type = int`
alike; and on `[-7, 3, -2147483648]` the call returns `1` for `Type = int`
while the fold reaches `GCD(-1, -2147483648)`, which is undefined. -/
theorem commonGCD_ne_leftFold :
    CommonGCD [-1, 2, 3] 9 0 (([-1, 2, 3] : List Int).length - 1) = some 1 ∧
      leftFoldGCD 9 [-1, 2, 3] = some (-1) ∧
      CommonGCDW 2147483648 [-1, 2, 3] 9 0 (([-1, 2, 3] : List Int).length - 1) = Res.val 1 ∧
      leftFoldGCDW 2147483648 9 [-1, 2, 3] = Res.val (-1) ∧
      CommonGCDW 2147483648 [-7, 3, -2147483648] 2147483661 0
        (([-7, 3, -2147483648] : List Int).length - 1) = Res.val 1 ∧
      leftFoldGCDW 2147483648 2147483661 [-7, 3, -2147483648] = Res.undef := by
  decide

/-- C11, amended: on a list of at least two signed integers, none of them the
least value of `Type`, the call `CommonGCD(begin, end - 1)` and the
left-to-right fold `GCD(... GCD(GCD(x0, x1), x2) ..., xk)` return values of
the same absolute value, the greatest common divisor of the elements; the two
values are equal when no element is negative. -/
theorem commonGCD_leftFold (T : Int) (hT : 0 < T) (L : List Int) (hlen : 2 ≤ L.length)
    (hL : NoMin T L) (fuel : Nat) (hfuel : L.length + (L.map Int.natAbs).sum ≤ fuel) :
    ∃ a b, CommonGCDW T L fuel 0 ((L.length : Int) - 1) = Res.val a ∧
      leftFoldGCDW T fuel L = Res.val b ∧
      a.natAbs = listGcd L ∧ b.natAbs = listGcd L ∧ ((∀ x ∈ L, 0 ≤ x) → a = b) := by
  obtain ⟨a, _, ha, ha2, ha3⟩ := CommonGCDW_all hT L hlen hL fuel hfuel
  obtain ⟨b, hb, hbW⟩ := leftFoldGCDW_eq hT L (by omega) hL fuel hfuel
  obtain ⟨b1, hb1, hb2, hb3⟩ := leftFoldGCD_spec fuel L (by omega) hfuel
  rw [hb] at hb1
  cases hb1
  exact ⟨a, b, ha, hbW, ha2, hb2, fun h => by rw [ha3 h, hb3 h]⟩

/-- The lists `[12, 18, 30]` and `[-1, 2, 3]` for `Type = int`. -/
theorem commonGCD_leftFold_witness :
    (∃ a b, CommonGCDW 2147483648 [12, 18, 30] 63 0 (([12, 18, 30] : List Int).length - 1)
        = Res.val a ∧
      leftFoldGCDW 2147483648 63 [12, 18, 30] = Res.val b ∧ a.natAbs = listGcd [12, 18, 30] ∧
      b.natAbs = listGcd [12, 18, 30] ∧ ((∀ x ∈ ([12, 18, 30] : List Int), 0 ≤ x) → a = b)) ∧
    (∃ a b, CommonGCDW 2147483648 [-1, 2, 3] 9 0 (([-1, 2, 3] : List Int).length - 1)
        = Res.val a ∧
      leftFoldGCDW 2147483648 9 [-1, 2, 3] = Res.val b ∧ a.natAbs = listGcd [-1, 2, 3] ∧
      b.natAbs = listGcd [-1, 2, 3] ∧ ((∀ x ∈ ([-1, 2, 3] : List Int), 0 ≤ x) → a = b)) :=
  ⟨commonGCD_leftFold 2147483648 (by decide) [12, 18, 30] (by decide)
      (by unfold NoMin; decide) 63 (by decide),
    commonGCD_leftFold 2147483648 (by decide) [-1, 2, 3] (by decide)
      (by unfold NoMin; decide) 9 (by decide)⟩

/-- C12, as the specification states it, fails: `GCD(1, -1)` is `-1` and
`GCD(-1, 1)` is `1`, and so for `CommonGCD` on `[1, -1]` and `[-1, 1]`, over
exact integers and for `Type = int` alike; and for `Type = int` `CommonGCD`
returns `-1` on `[-2147483648, 3, -1]` and has no result on
`[-1, -2147483648, 3]`. -/
theorem GCD_not_commutative :
    GCD 2 1 (-1) = some (-1) ∧ GCD 2 (-1) 1 = some 1 ∧
      CommonGCD [1, -1] 4 0 (([1, -1] : List Int).length - 1) = some (-1) ∧
      CommonGCD [-1, 1] 4 0 (([-1, 1] : List Int).length - 1) = some 1 ∧
      GCDW 2147483648 2 1 (-1) = Res.val (-1) ∧ GCDW 2147483648 2 (-1) 1 = Res.val 1 ∧
      CommonGCDW 2147483648 [1, -1] 4 0 (([1, -1] : List Int).length - 1) = Res.val (-1) ∧
      CommonGCDW 2147483648 [-1, 1] 4 0 (([-1, 1] : List Int).length - 1) = Res.val 1 ∧
      CommonGCDW 2147483648 [-2147483648, 3, -1] 2147483655 0
        (([-2147483648, 3, -1] : List Int).length - 1) = Res.val (-1) ∧
      CommonGCDW 2147483648 [-1, -2147483648, 3] 2147483655 0
        (([-1, -2147483648, 3] : List Int).length - 1) = Res.undef := by
  decide

/-- C12, amended: on a list of at least two signed integers, none of them the
least value of `Type`, and a permutation of it `CommonGCD` returns values of
the same absolute value, and the same value when no element is negative; in
particular `GCD(a, b)` and `GCD(b, a)` have the same absolute value for all
`a`, `b` other than the least value of `Type`, and are equal for non-negative
`a`, `b`. -/
theorem commonGCD_perm (T : Int) (hT : 0 < T) (L1 L2 : List Int) (hp : L1.Perm L2)
    (hlen : 2 ≤ L1.length) (hL : NoMin T L1) (fuel : Nat)
    (hfuel : L1.length + (L1.map Int.natAbs).sum ≤ fuel) :
    (∃ a b, CommonGCDW T L1 fuel 0 ((L1.length : Int) - 1) = Res.val a ∧
      CommonGCDW T L2 fuel 0 ((L2.length : Int) - 1) = Res.val b ∧ a.natAbs = b.natAbs ∧
      ((∀ x ∈ L1, 0 ≤ x) → a = b)) ∧
    ∀ x y : Int, -T < x → x < T → -T < y → y < T → x.natAbs < fuel → y.natAbs < fuel →
      ∃ r s, GCDW T fuel x y = Res.val r ∧ GCDW T fuel y x = Res.val s ∧
        r.natAbs = s.natAbs ∧ (0 ≤ x → 0 ≤ y → r = s) := by
  constructor
  · obtain ⟨a, _, ha, ha2, ha3⟩ := CommonGCDW_all hT L1 hlen hL fuel hfuel
    obtain ⟨b, _, hb, hb2, hb3⟩ := CommonGCDW_all hT L2 (by rw [← hp.length_eq]; exact hlen)
      (noMin_of_perm hp hL) fuel (by rw [fuel_perm hp]; exact hfuel)
    refine ⟨a, b, ha, hb, by rw [ha2, hb2, listGcd_perm hp], fun h => ?_⟩
    rw [ha3 h, hb3 (fun x hx => h x (hp.mem_iff.mpr hx)), listGcd_perm hp]
  · intro x y hx0 hx1 hy0 hy1 hx hy
    obtain ⟨r, hr, hr2, hr3⟩ := GCD_spec fuel x y hy
    obtain ⟨s, hs, hs2, hs3⟩ := GCD_spec fuel y x hx
    have hxy : SafePair T x y :=
      ⟨⟨by omega, hx1⟩, ⟨by omega, hy1⟩, fun h => by omega, fun h => by omega⟩
    have hyx : SafePair T y x :=
      ⟨⟨by omega, hy1⟩, ⟨by omega, hx1⟩, fun h => by omega, fun h => by omega⟩
    refine ⟨r, s, GCDW_eq hT fuel x y r hxy hr, GCDW_eq hT fuel y x s hyx hs,
      by rw [hr2, hs2, Int.gcd_comm], fun h0 h1 => ?_⟩
    rw [← Int.natAbs_of_nonneg (hr3 h0 h1), ← Int.natAbs_of_nonneg (hs3 h1 h0), hr2, hs2,
      Int.gcd_comm]

/-- The lists `[12, 18, 30]` and `[30, 12, 18]`, and the operands `-4`, `6`,
for `Type = int`. -/
theorem commonGCD_perm_witness :
    (∃ a b, CommonGCDW 2147483648 [12, 18, 30] 63 0 (([12, 18, 30] : List Int).length - 1)
        = Res.val a ∧
      CommonGCDW 2147483648 [30, 12, 18] 63 0 (([30, 12, 18] : List Int).length - 1)
        = Res.val b ∧
      a.natAbs = b.natAbs ∧ ((∀ x ∈ ([12, 18, 30] : List Int), 0 ≤ x) → a = b)) ∧
    ∃ r s, GCDW 2147483648 63 (-4) 6 = Res.val r ∧ GCDW 2147483648 63 6 (-4) = Res.val s ∧
      r.natAbs = s.natAbs ∧ ((0 : Int) ≤ -4 → (0 : Int) ≤ 6 → r = s) :=
  ⟨(commonGCD_perm 2147483648 (by decide) [12, 18, 30] [30, 12, 18] (by decide) (by decide)
      (by unfold NoMin; decide) 63 (by decide)).1,
    (commonGCD_perm 2147483648 (by decide) [12, 18, 30] [30, 12, 18] (by decide) (by decide)
      (by unfold NoMin; decide) 63 (by decide)).2 (-4) 6
      (by decide) (by decide) (by decide) (by decide) (by decide) (by decide)⟩

/-- C14, as the specification states it, fails: on `[6, 4, 2]` the gate
fails and the vector is returned as it was, not sorted, over exact integers
and for `Type = int` alike. -/
theorem frobeniusNumber_leaves_unsorted :
    FrobeniusNumber 15 [6, 4, 2] = some (infinity, [6, 4, 2]) ∧
      ¬ List.Sorted (fun a b : Int => a ≤ b) [6, 4, 2] ∧
      FrobeniusNumberW 2147483648 15 [6, 4, 2] = Res.val (infinity, [6, 4, 2]) := by
  decide

/-- C14, amended: on a list of at least two integers, whenever
`FrobeniusNumber` returns it leaves in the caller's vector a permutation of
the list passed in, which is sorted in ascending order when the gate passed
(`CommonGCD` returned `1`) and is the list passed in, unchanged, when the gate
failed.  It does return on a list without the least value of `Type` when the
greatest common divisor is not `1`, when an element is at most `1`, when there
are two elements, or when the list fits. -/
theorem frobeniusNumber_vector (T : Int) (hT : 0 < T) (L : List Int) (hlen : 2 ≤ L.length)
    (fuel : Nat) (hfuel : L.length + (L.map Int.natAbs).sum ≤ fuel) :
    (∀ F S, FrobeniusNumberW T fuel L = Res.val (F, S) →
      ∃ c, CommonGCDW T L fuel 0 ((L.length : Int) - 1) = Res.val c ∧ S.Perm L ∧
        (c = 1 → List.Sorted (fun a b : Int => a ≤ b) S) ∧ (c ≠ 1 → S = L)) ∧
    (NoMin T L → (listGcd L ≠ 1 ∨ (∃ x ∈ L, x ≤ 1) ∨ L.length = 2 ∨ Fits T L) →
      ∃ F S, FrobeniusNumberW T fuel L = Res.val (F, S)) := by
  refine ⟨fun F S h => ?_, fun hL hc => FrobeniusNumberW_total hT L hlen hL hc fuel hfuel⟩
  obtain ⟨c, hc, h1, h2⟩ := FrobeniusNumberW_vector h
  refine ⟨c, hc, ?_, fun hc1 => ?_, h2⟩
  · by_cases hc1 : c = 1
    · rw [h1 hc1]; exact sort_perm L
    · rw [h2 hc1]
  · rw [h1 hc1]; exact sort_sorted L

/-- The lists `[20, 6, 9]`, where the gate passes, and `[6, 4, 2]`, where it
fails, for `Type = int`. -/
theorem frobeniusNumber_vector_witness :
    (∃ F S, FrobeniusNumberW 2147483648 38 [20, 6, 9] = Res.val (F, S) ∧
      ∃ c, CommonGCDW 2147483648 [20, 6, 9] 38 0 (([20, 6, 9] : List Int).length - 1)
          = Res.val c ∧
        S.Perm [20, 6, 9] ∧ (c = 1 → List.Sorted (fun a b : Int => a ≤ b) S) ∧
        (c ≠ 1 → S = [20, 6, 9])) ∧
    (∃ F S, FrobeniusNumberW 2147483648 15 [6, 4, 2] = Res.val (F, S) ∧
      ∃ c, CommonGCDW 2147483648 [6, 4, 2] 15 0 (([6, 4, 2] : List Int).length - 1)
          = Res.val c ∧
        S.Perm [6, 4, 2] ∧ (c = 1 → List.Sorted (fun a b : Int => a ≤ b) S) ∧
        (c ≠ 1 → S = [6, 4, 2])) :=
  ⟨(fun h => (h.2 (by unfold NoMin; decide)
        (Or.inr (Or.inr (Or.inr ⟨6, by decide, by decide⟩)))).elim
          fun F hF => hF.elim fun S hS => ⟨F, S, hS, h.1 F S hS⟩)
      (frobeniusNumber_vector 2147483648 (by decide) [20, 6, 9] (by decide) 38 (by decide)),
    (fun h => (h.2 (by unfold NoMin; decide) (Or.inl (by decide))).elim
          fun F hF => hF.elim fun S hS => ⟨F, S, hS, h.1 F S hS⟩)
      (frobeniusNumber_vector 2147483648 (by decide) [6, 4, 2] (by decide) 15 (by decide))⟩

/-- C15, as the specification states it, fails for `Type = int`: on the
operands `(-2147483648, -1)` the recursion does not reach `second == 0`,
whatever the fuel, because `-2147483648 % -1` is undefined. -/
theorem GCD_not_total :
    ¬ ∃ fuel r, GCDW 2147483648 fuel (-2147483648) (-1) = Res.val r := by
  rintro ⟨fuel, r, h⟩
  cases fuel with
  | zero => cases h
  | succ n =>
    have hu : GCDW 2147483648 (n + 1) (-2147483648) (-1) = Res.undef := by
      unfold GCDW
      rfl
    rw [hu] at h
    cases h

/-- C15, amended: `GCD` is total on the pairs of values of `Type` other than
the least value together with `-1`.  In the recursive call
`GCD(second, first % second)` the remainder is defined and the absolute value
of the second operand is less than before, so that with more fuel than
`|second|` the recursion reaches `second == 0` and returns; the value returned
is the same for all such fuel. -/
theorem GCD_total (T a b : Int) (hT : 0 < T) (hs : SafePair T a b) :
    (b ≠ 0 → remW T a b = Res.val (Int.tmod a b) ∧ (Int.tmod a b).natAbs < b.natAbs) ∧
      ∃ r, ∀ fuel, b.natAbs < fuel → GCDW T fuel a b = Res.val r := by
  constructor
  · intro hb
    refine ⟨remW_eq hb hs.2.2.1, ?_⟩
    rw [natAbs_tmod]
    exact Nat.mod_lt _ (by omega)
  · obtain ⟨r, hr, _⟩ := GCD_spec (b.natAbs + 1) a b (by omega)
    refine ⟨r, fun fuel hf => ?_⟩
    obtain ⟨k, rfl⟩ : ∃ k, fuel = b.natAbs + 1 + k := ⟨fuel - (b.natAbs + 1), by omega⟩
    exact GCDW_eq hT _ a b r hs (GCD_fuel _ k a b r hr)

/-- The operands `(-7, 3)`, `(7, -3)` and `(-2147483648, -3)` for
`Type = int`. -/
theorem GCD_total_witness :
    ((remW 2147483648 (-7) 3 = Res.val (Int.tmod (-7) 3) ∧
        (Int.tmod (-7) 3).natAbs < (3 : Int).natAbs) ∧
      ∃ r, ∀ fuel, (3 : Int).natAbs < fuel → GCDW 2147483648 fuel (-7) 3 = Res.val r) ∧
    ((remW 2147483648 7 (-3) = Res.val (Int.tmod 7 (-3)) ∧
        (Int.tmod 7 (-3)).natAbs < (-3 : Int).natAbs) ∧
      ∃ r, ∀ fuel, (-3 : Int).natAbs < fuel → GCDW 2147483648 fuel 7 (-3) = Res.val r) ∧
    ∃ r, ∀ fuel, (-3 : Int).natAbs < fuel →
      GCDW 2147483648 fuel (-2147483648) (-3) = Res.val r :=
  ⟨⟨(GCD_total 2147483648 (-7) 3 (by decide) (by unfold SafePair InRange; decide)).1
        (by decide),
      (GCD_total 2147483648 (-7) 3 (by decide) (by unfold SafePair InRange; decide)).2⟩,
    ⟨(GCD_total 2147483648 7 (-3) (by decide) (by unfold SafePair InRange; decide)).1
        (by decide),
      (GCD_total 2147483648 7 (-3) (by decide) (by unfold SafePair InRange; decide)).2⟩,
    (GCD_total 2147483648 (-2147483648) (-3) (by decide)
      (by unfold SafePair InRange; decide)).2⟩

/-- C20, as the specification states it, fails for `Type = int`: the list
`[-2147483648, 3, -1]` fails the gate and is sent to the sentinel, while on
its permutation `[-1, -2147483648, 3]` the gate evaluates `-2147483648 % -1`,
which is undefined, and the solver returns nothing. -/
theorem frobeniusNumber_order_dependent :
    List.Perm [-2147483648, 3, -1] [-1, -2147483648, 3] ∧
      FrobeniusValueW 2147483648 2147483655 [-2147483648, 3, -1] = Res.val infinity ∧
      FrobeniusValueW 2147483648 2147483655 [-1, -2147483648, 3] = Res.undef := by
  refine ⟨by decide, by decide, by decide⟩

/-- C20, amended: on two lists of at least two signed integers, none of them
the least value of `Type`, that are permutations of each other
`FrobeniusNumber` has the same outcome, and where it returns on the one (as it
does when the greatest common divisor is not `1`, when an element is at most
`1`, when there are two elements, or when the list fits) it returns the same
value on the other. -/
theorem frobeniusNumber_order_independent (T : Int) (hT : 0 < T) (L1 L2 : List Int)
    (hp : L1.Perm L2) (hlen : 2 ≤ L1.length) (hL : NoMin T L1) (fuel : Nat)
    (hfuel : L1.length + (L1.map Int.natAbs).sum ≤ fuel) :
    FrobeniusValueW T fuel L1 = FrobeniusValueW T fuel L2 ∧
      (listGcd L1 ≠ 1 ∨ (∃ x ∈ L1, x ≤ 1) ∨ L1.length = 2 ∨ Fits T L1 →
        ∃ F, FrobeniusValueW T fuel L1 = Res.val F ∧
          FrobeniusValueW T fuel L2 = Res.val F) := by
  have h := FrobeniusValueW_perm hT L1 L2 hp hlen hL fuel hfuel
  refine ⟨h, fun hc => ?_⟩
  obtain ⟨F, S, hF⟩ := FrobeniusNumberW_total hT L1 hlen hL hc fuel hfuel
  exact ⟨F, FrobeniusValueW_eq hF, by rw [← h]; exact FrobeniusValueW_eq hF⟩

/-- The lists `[1, -1]` and `[-1, 1]`, whose gate values differ, and the
lists `[6, 9, 20]` and `[20, 6, 9]`, for `Type = int`. -/
theorem frobeniusNumber_order_independent_witness :
    (CommonGCDW 2147483648 [1, -1] 4 0 (([1, -1] : List Int).length - 1) ≠
      CommonGCDW 2147483648 [-1, 1] 4 0 (([-1, 1] : List Int).length - 1)) ∧
    (∃ F, FrobeniusValueW 2147483648 4 [1, -1] = Res.val F ∧
      FrobeniusValueW 2147483648 4 [-1, 1] = Res.val F) ∧
    (∃ F, FrobeniusValueW 2147483648 38 [6, 9, 20] = Res.val F ∧
      FrobeniusValueW 2147483648 38 [20, 6, 9] = Res.val F) :=
  ⟨by decide,
    (frobeniusNumber_order_independent 2147483648 (by decide) [1, -1] [-1, 1] (by decide)
      (by decide) (by unfold NoMin; decide) 4 (by decide)).2
      (Or.inr (Or.inl ⟨1, by decide, by decide⟩)),
    (frobeniusNumber_order_independent 2147483648 (by decide) [6, 9, 20] [20, 6, 9]
      (by decide) (by decide) (by unfold NoMin; decide) 38 (by decide)).2
      (Or.inr (Or.inr (Or.inr ⟨6, by decide, by decide⟩)))⟩

end Frobenius
